import Mathlib

/-! Verification development for the d-ary heap and the bounded caches.

Shallow embedding of `heap.h`, `lrucache.h` and `lfucache.h`.

Conventions of the embedding:

* C++ `int` values are mathematical integers (`Int`); sizes stay far below
  the range where `int` arithmetic would wrap.
* `std::vector<T>` is a `List T`; an access outside `[0, size)` is undefined
  behaviour in C++ and is modelled by the result `none`.
* `std::unordered_map<T, int>` is an association list with at most one entry
  per key, read through `posFind`, written through `posSet` / `posErase`.
* Loops are bounded by a fuel argument; the fuel that the entry points pass
  is shown to be sufficient in the theorems below.
* The mutexes are not modelled: every public member function runs as one
  atomic step.
-/

set_option autoImplicit false

/-! ## Vector and index-map primitives -/

section Primitives

variable {T : Type}

/-- Checked read `xs[i]` of a vector with an `int` index. -/
def getAt (xs : List T) (i : Int) : Option T :=
  if i < 0 then none else xs[i.toNat]?

/-- Checked write `xs[i] = v`. -/
def setAt (xs : List T) (i : Int) (v : T) : Option (List T) :=
  match getAt xs i with
  | none => none
  | some _ => some (xs.set i.toNat v)

/-- The call `std::swap(xs[i], xs[j])`. -/
def swapAt (xs : List T) (i j : Int) : Option (List T) :=
  match getAt xs i, getAt xs j with
  | some a, some b => some ((xs.set i.toNat b).set j.toNat a)
  | _, _ => none

/-- The call `xs.pop_back()`; undefined on an empty vector. -/
def popBack (xs : List T) : Option (List T) :=
  match xs with
  | [] => none
  | _ :: _ => some xs.dropLast

/-- The integers `lo, lo+1, ..., hi-1` in increasing order. -/
def intRange (lo hi : Int) : List Int :=
  (List.range (hi - lo).toNat).map (fun (d : Nat) => lo + (d : Int))

variable [DecidableEq T]

/-- Lookup `positions_.find(e)`. -/
def posFind : List (T × Int) → T → Option Int
  | [], _ => none
  | (k, v) :: m, e => if k = e then some v else posFind m e

/-- The call `positions_.erase(e)`. -/
def posErase : List (T × Int) → T → List (T × Int)
  | [], _ => []
  | (k, v) :: m, e => if k = e then posErase m e else (k, v) :: posErase m e

/-- The assignment `positions_[e] = i`. -/
def posSet (m : List (T × Int)) (e : T) (i : Int) : List (T × Int) :=
  (e, i) :: posErase m e

end Primitives

/-! ## The d-ary heap (`heap.h`) -/

/-- The data members of `DaryHeap<T>` (the mutex is not modelled). -/
structure DaryHeap (T : Type) where
  branchingFactor : Int
  elements : List T
  positions : List (T × Int)

/-- Failures of a constructor call. -/
inductive HeapFailure where
  | invalidArgument
  | undefinedBehaviour
  deriving DecidableEq, Repr

namespace DaryHeap

variable {T : Type} [LinearOrder T]

def MAX_BRANCHING_FACTOR : Int := 10

def MIN_BRANCHING_FACTOR : Int := 2

def getFirstChildIndex (h : DaryHeap T) (index : Int) : Int :=
  h.branchingFactor * index + 1

/-- C++ integer division truncates toward zero. -/
def getParentIndex (h : DaryHeap T) (index : Int) : Int :=
  Int.tdiv (index - 1) h.branchingFactor

/-- The `while (idx > 0)` loop of `bubbleUp`. -/
def bubbleUpLoop : Nat → DaryHeap T → Int → Bool → Option (DaryHeap T × Bool)
  | 0, _, _, _ => none
  | fuel + 1, h, idx, moved =>
    if idx > 0 then
      let parent := h.getParentIndex idx
      match getAt h.elements idx, getAt h.elements parent with
      | some a, some p =>
        if a < p then
          match swapAt h.elements idx parent with
          | none => none
          | some els =>
            match getAt els idx, getAt els parent with
            | some e1, some e2 =>
              let pos1 := posSet h.positions e1 idx
              let pos2 := posSet pos1 e2 parent
              bubbleUpLoop fuel { h with elements := els, positions := pos2 } parent true
            | _, _ => none
        else some (h, moved)
      | _, _ => none
    else some (h, moved)

/-- Member `bubbleUp(idx)`: returns the new state and whether the element moved. -/
def bubbleUp (h : DaryHeap T) (idx : Int) : Option (DaryHeap T × Bool) :=
  match getAt h.elements idx with
  | none => none
  | some _ => bubbleUpLoop (idx.toNat + 1) h idx false

/-- The inner `for` loop of `pushDown` selecting the smallest child. -/
def minChildLoop (els : List T) : List Int → Int → Option Int
  | [], minChild => some minChild
  | j :: js, minChild =>
    match getAt els j, getAt els minChild with
    | some a, some m => minChildLoop els js (if a < m then j else minChild)
    | _, _ => none

/-- The `while (true)` loop of `pushDown`. -/
def pushDownLoop : Nat → DaryHeap T → Int → Int → Option (DaryHeap T)
  | 0, _, _, _ => none
  | fuel + 1, h, n, idx =>
    let firstChild := h.getFirstChildIndex idx
    if firstChild ≥ n then some h
    else
      let lastChild := min (firstChild + h.branchingFactor) n
      match minChildLoop h.elements (intRange (firstChild + 1) lastChild) firstChild with
      | none => none
      | some minChild =>
        match getAt h.elements minChild, getAt h.elements idx with
        | some c, some a =>
          if c < a then
            match swapAt h.elements idx minChild with
            | none => none
            | some els =>
              match getAt els idx, getAt els minChild with
              | some e1, some e2 =>
                let pos1 := posSet h.positions e1 idx
                let pos2 := posSet pos1 e2 minChild
                pushDownLoop fuel { h with elements := els, positions := pos2 } n minChild
              | _, _ => none
          else some h
        | _, _ => none

/-- Member `pushDown(idx)`. -/
def pushDown (h : DaryHeap T) (idx : Int) : Option (DaryHeap T) :=
  match getAt h.elements idx with
  | none => none
  | some _ => pushDownLoop (h.elements.length + 1) h (h.elements.length : Int) idx

/-- The loop `for (i = start; i >= 0; --i) pushDown(i)` of `heapify`. -/
def heapifyLoop : Nat → DaryHeap T → Int → Option (DaryHeap T)
  | 0, _, _ => none
  | fuel + 1, h, i =>
    if i ≥ 0 then
      match h.pushDown i with
      | none => none
      | some h1 => heapifyLoop fuel h1 (i - 1)
    else some h

/-- Member `heapify()`. -/
def heapify (h : DaryHeap T) : Option (DaryHeap T) :=
  let n : Int := h.elements.length
  let start := h.getParentIndex (n - 1)
  heapifyLoop ((start + 1).toNat + 1) h start

/-- Member `removeAtIndexUnlocked(idx)`. -/
def removeAtIndexUnlocked (h : DaryHeap T) (idx : Int) : Option (DaryHeap T) :=
  let lastIdx : Int := (h.elements.length : Int) - 1
  match getAt h.elements idx with
  | none => none
  | some removedElem =>
    let swapped : Option (DaryHeap T) :=
      if idx ≠ lastIdx then
        match swapAt h.elements idx lastIdx with
        | none => none
        | some els =>
          match getAt els idx with
          | none => none
          | some e => some { h with elements := els, positions := posSet h.positions e idx }
      else some h
    match swapped with
    | none => none
    | some h1 =>
      match popBack h1.elements with
      | none => none
      | some els2 =>
        let h2 : DaryHeap T :=
          { h1 with elements := els2, positions := posErase h1.positions removedElem }
        if idx < (h2.elements.length : Int) then
          match h2.bubbleUp idx with
          | none => none
          | some (h3, moved) => if !moved then h3.pushDown idx else some h3
        else some h2

/-- Constructor `DaryHeap(int branchingFactor)`. -/
def create (branchingFactor : Int) : Except HeapFailure (DaryHeap T) :=
  if branchingFactor < MIN_BRANCHING_FACTOR ∨ branchingFactor > MAX_BRANCHING_FACTOR then
    .error .invalidArgument
  else .ok { branchingFactor := branchingFactor, elements := [], positions := [] }

/-- The constructor loop `positions_[elements_[i]] = i` over all slots. -/
def indexLoop : List T → Int → List (T × Int) → List (T × Int)
  | [], _, pos => pos
  | e :: es, i, pos => indexLoop es (i + 1) (posSet pos e i)

/-- Constructor `DaryHeap(const std::vector<T>& elements, int branchingFactor)`. -/
def fromVector (elements : List T) (branchingFactor : Int) :
    Except HeapFailure (DaryHeap T) :=
  if branchingFactor < MIN_BRANCHING_FACTOR ∨ branchingFactor > MAX_BRANCHING_FACTOR then
    .error .invalidArgument
  else
    let h : DaryHeap T :=
      { branchingFactor := branchingFactor, elements := elements,
        positions := indexLoop elements 0 [] }
    match h.heapify with
    | none => .error .undefinedBehaviour
    | some h1 => .ok h1

/-- Member `add(element)`. -/
def add (h : DaryHeap T) (element : T) : Option (DaryHeap T × Bool) :=
  if (posFind h.positions element).isSome then some (h, false)
  else
    let els := h.elements ++ [element]
    let h1 : DaryHeap T :=
      { h with elements := els, positions := posSet h.positions element ((els.length : Int) - 1) }
    match h1.bubbleUp ((els.length : Int) - 1) with
    | none => none
    | some (h2, _) => some (h2, true)

/-- Member `top()`. -/
def top (h : DaryHeap T) : Option (DaryHeap T × Option T) :=
  match h.elements with
  | [] => some (h, none)
  | topElem :: _ =>
    match h.removeAtIndexUnlocked 0 with
    | none => none
    | some h1 => some (h1, some topElem)

/-- Member `peek()`. -/
def peek (h : DaryHeap T) : Option T :=
  match h.elements with
  | [] => none
  | front :: _ => some front

/-- Member `contains(element)`. -/
def contains (h : DaryHeap T) (element : T) : Bool :=
  (posFind h.positions element).isSome

/-- Member `remove(element)`. -/
def remove (h : DaryHeap T) (element : T) : Option (DaryHeap T × Bool) :=
  match posFind h.positions element with
  | none => some (h, false)
  | some idx =>
    match h.removeAtIndexUnlocked idx with
    | none => none
    | some h1 => some (h1, true)

/-- Member `updatePriority(oldElement, newElement)`. -/
def updatePriority (h : DaryHeap T) (oldElement newElement : T) :
    Option (DaryHeap T × Bool) :=
  match posFind h.positions oldElement with
  | none => some (h, false)
  | some idx =>
    match setAt h.elements idx newElement with
    | none => none
    | some els =>
      let h1 : DaryHeap T :=
        { h with elements := els,
                 positions := posSet (posErase h.positions oldElement) newElement idx }
      match h1.bubbleUp idx with
      | none => none
      | some (h2, moved) =>
        if !moved then
          match h2.pushDown idx with
          | none => none
          | some h3 => some (h3, true)
        else some (h2, true)

/-- Member `size()`. -/
def size (h : DaryHeap T) : Int := h.elements.length

/-- Member `isEmpty()`. -/
def isEmpty (h : DaryHeap T) : Bool := h.size == 0

/-- Member `clear()`. -/
def clear (h : DaryHeap T) : DaryHeap T :=
  { h with elements := [], positions := [] }

/-- The inner loop of `checkHeapInvariants` over the children `j` of slot `i`;
`some false` stands for the early `return false`. -/
def checkChildren (els : List T) (i : Int) : List Int → Option Bool
  | [] => some true
  | j :: js =>
    match getAt els j, getAt els i with
    | some c, some p => if c < p then some false else checkChildren els i js
    | _, _ => none

/-- The outer loop of `checkHeapInvariants`. -/
def checkLoop (h : DaryHeap T) (n : Int) : List Int → Option Bool
  | [] => some true
  | i :: is =>
    let firstChild := h.getFirstChildIndex i
    let lastChild := min (h.getFirstChildIndex (i + 1)) n
    match checkChildren h.elements i (intRange firstChild lastChild) with
    | none => none
    | some false => some false
    | some true => checkLoop h n is

/-- Member `checkHeapInvariants()`. -/
def checkHeapInvariants (h : DaryHeap T) : Option Bool :=
  let n : Int := h.elements.length
  checkLoop h n (intRange 0 n)

end DaryHeap

/-! ## Specification predicates for the heap -/

section HeapSpec

variable {T : Type} [LinearOrder T]

/-- Slot `j` lies in the child range `[B*i+1, B*i+1+B)` of slot `i`. -/
def IsChild (B i j : Int) : Prop := B * i + 1 ≤ j ∧ j < B * i + 1 + B

/-- Heap order restricted to the parents at slot `lo` or later. -/
def HeapOrderedFrom (B : Int) (els : List T) (lo : Int) : Prop :=
  ∀ (i j : Int) (a b : T), lo ≤ i → IsChild B i j →
    getAt els i = some a → getAt els j = some b → a ≤ b

/-- Heap order: no stored child is smaller than its parent. -/
def HeapOrdered (h : DaryHeap T) : Prop :=
  ∀ (i j : Int) (a b : T),
    h.branchingFactor * i + 1 ≤ j →
    j < min (h.branchingFactor * i + 1 + h.branchingFactor) h.size →
    getAt h.elements i = some a → getAt h.elements j = some b → ¬ b < a

/-- Every index entry points at a slot that holds its element. -/
def IndexSound (h : DaryHeap T) : Prop :=
  ∀ (e : T) (i : Int), posFind h.positions e = some i → getAt h.elements i = some e

/-- Every slot has an index entry. -/
def IndexComplete (h : DaryHeap T) : Prop :=
  ∀ (i : Int) (e : T), getAt h.elements i = some e → posFind h.positions e = some i

/-- The index map holds at most one entry per element. -/
def IndexKeysUnique (h : DaryHeap T) : Prop := (h.positions.map Prod.fst).Nodup

/-- The branching factor accepted by the constructors. -/
def ValidFactor (h : DaryHeap T) : Prop :=
  DaryHeap.MIN_BRANCHING_FACTOR ≤ h.branchingFactor ∧
    h.branchingFactor ≤ DaryHeap.MAX_BRANCHING_FACTOR

/-- One exchange of two different elements together with its two index writes,
as performed by an iteration of `bubbleUp` or `pushDown`. -/
def SwapStep (h h' : DaryHeap T) : Prop :=
  ∃ (i j : Int) (a b : T) (els : List T),
    getAt h.elements i = some a ∧ getAt h.elements j = some b ∧ a ≠ b ∧
    swapAt h.elements i j = some els ∧
    h' = { h with elements := els, positions := posSet (posSet h.positions b i) a j }

/-- Finitely many exchanges. -/
def SwapSteps (h h' : DaryHeap T) : Prop := Relation.ReflTransGen SwapStep h h'

/-- Precondition of `bubbleUp(idx)`: order holds on every edge that does not end in `idx`,
and the parent of `idx` is below the children of `idx`. -/
def BubbleReady (B : Int) (els : List T) (idx : Int) : Prop :=
  (∀ (i j : Int) (a b : T), IsChild B i j → j ≠ idx →
    getAt els i = some a → getAt els j = some b → a ≤ b) ∧
  (∀ (g c : Int) (a b : T), IsChild B g idx → IsChild B idx c →
    getAt els g = some a → getAt els c = some b → a ≤ b)

/-- Precondition of `pushDown(idx)` for the parents from `lo` on: order holds on every
edge that does not start in `idx`, and the parent of `idx` is below the children of `idx`. -/
def PushReady (B : Int) (els : List T) (lo idx : Int) : Prop :=
  (∀ (i j : Int) (a b : T), lo ≤ i → IsChild B i j → i ≠ idx →
    getAt els i = some a → getAt els j = some b → a ≤ b) ∧
  (∀ (g c : Int) (a b : T), lo ≤ g → IsChild B g idx → IsChild B idx c →
    getAt els g = some a → getAt els c = some b → a ≤ b)

end HeapSpec

section HeapInvariants

variable {T : Type} [LinearOrder T]

/-- The invariant of every heap state: accepted branching factor, heap order, and an
index whose entries are unique per element and point at slots holding that element. -/
def HeapInv (h : DaryHeap T) : Prop :=
  ValidFactor h ∧ HeapOrdered h ∧ IndexSound h ∧ IndexKeysUnique h

/-- The heap invariant together with an index entry for every slot: the index is a
bijection between the stored elements and the slots. -/
def HeapIndexed (h : DaryHeap T) : Prop := HeapInv h ∧ IndexComplete h

/-- State after the exchange with the last slot and the `pop_back` in
`removeAtIndexUnlocked`, before order is restored. -/
def DaryHeap.afterPop (h : DaryHeap T) (idx : Int) (r l : T) : DaryHeap T :=
  if idx ≠ (h.elements.length : Int) - 1 then
    { h with elements := ((h.elements.set idx.toNat l).set (h.elements.length - 1) r).dropLast,
             positions := posErase (posSet h.positions l idx) r }
  else
    { h with elements := h.elements.dropLast, positions := posErase h.positions r }

end HeapInvariants

/-! ## Call sequences on a heap -/

/-- One call of a mutating member function of `DaryHeap`. -/
inductive HeapOp (T : Type) where
  | add (e : T)
  | remove (e : T)
  | top
  | updatePriority (oldE newE : T)

namespace DaryHeap

variable {T : Type} [LinearOrder T]

/-- State after one call; `none` when the call runs into undefined behaviour. -/
def step (h : DaryHeap T) : HeapOp T → Option (DaryHeap T)
  | .add e => (h.add e).map Prod.fst
  | .remove e => (h.remove e).map Prod.fst
  | .top => (h.top).map Prod.fst
  | .updatePriority oldE newE => (h.updatePriority oldE newE).map Prod.fst

/-- State after a sequence of calls, first call first. -/
def run (h : DaryHeap T) : List (HeapOp T) → Option (DaryHeap T)
  | [] => some h
  | op :: ops =>
    match h.step op with
    | none => none
    | some h1 => h1.run ops

/-- Caller precondition of a call: `updatePriority(oldE, newE)` requires that `newE` is
not stored in a slot other than the one of `oldE`, that is, a stored `newE` is `oldE`. -/
def opPre (h : DaryHeap T) : HeapOp T → Bool
  | .updatePriority oldE newE => decide (newE ∈ h.elements → newE = oldE)
  | _ => true

/-- Every call of the sequence meets its precondition in the state it is issued in. -/
def admissible (h : DaryHeap T) : List (HeapOp T) → Bool
  | [] => true
  | op :: ops =>
    h.opPre op &&
      match h.step op with
      | none => false
      | some h1 => h1.admissible ops

end DaryHeap

/-! ## Heaps of the test suite -/

/-- The heap of `test_remove`: branching factor 4 after `add` of 10, 20, 5, 15. -/
def heapOfTestRemove : DaryHeap Int :=
  { branchingFactor := 4, elements := [5, 20, 10, 15],
    positions := [(15, 3), (5, 0), (10, 2), (20, 1)] }

/-- The heap of `test_updatePriority`: branching factor 2 after `add` of 10, 20, 30. -/
def heapOfTestUpdate : DaryHeap Int :=
  { branchingFactor := 2, elements := [10, 20, 30],
    positions := [(30, 2), (20, 1), (10, 0)] }

/-- The heap of `test_basic_add_peek_top`: branching factor 3 after `add` of 5, 3, 7, 1. -/
def heapOfTestAdd : DaryHeap Int :=
  { branchingFactor := 3, elements := [1, 5, 7, 3],
    positions := [(1, 0), (3, 3), (7, 2), (5, 1)] }

/-! ## Associative containers used by the caches -/

section AssocMap

variable {K α : Type} [DecidableEq K]

/-- Lookup `m.find(k)` in a `std::unordered_map`. -/
def mapFind : List (K × α) → K → Option α
  | [], _ => none
  | (k, v) :: m, x => if k = x then some v else mapFind m x

/-- The call `m.erase(k)`. -/
def mapErase : List (K × α) → K → List (K × α)
  | [], _ => []
  | (k, v) :: m, x => if k = x then mapErase m x else (k, v) :: mapErase m x

/-- The assignment `m[k] = v`. -/
def mapSet (m : List (K × α)) (k : K) (v : α) : List (K × α) :=
  (k, v) :: mapErase m k

end AssocMap

/-- One call on a cache through the `Cache<Key, Value>` interface (`cache.h`). -/
inductive CacheOp (Key Value : Type) where
  | set (key : Key) (value : Value)
  | get (key : Key)
  | clear

/-! ## The LRU cache (`lrucache.h`) -/

/-- A node of the `std::list<CacheItem>`; `addr` is the identity of the node, the thing a
list iterator refers to. -/
structure LRUNode (Key Value : Type) where
  addr : Nat
  key : Key
  value : Value

/-- The data members of `LRUCache<Key, Value>`: `itemsList` is front first, `nodes` maps a
key to the address of its list node, `nextAddr` is the address the next allocated list
node receives (addresses are not reused). The mutex is not modelled. -/
structure LRUCache (Key Value : Type) where
  maxSize : Int
  itemsList : List (LRUNode Key Value)
  nodes : List (Key × Nat)
  nextAddr : Nat

namespace LRUCache

variable {Key Value : Type} [DecidableEq Key]

/-- Constructor `LRUCache(int maxSize)`. -/
def create (maxSize : Int) : LRUCache Key Value :=
  { maxSize := maxSize, itemsList := [], nodes := [], nextAddr := 0 }

/-- Dereference of a list iterator; `none` for an iterator to an erased node. -/
def nodeAt (l : List (LRUNode Key Value)) (a : Nat) : Option (LRUNode Key Value) :=
  l.find? (fun n => decide (n.addr = a))

/-- The assignment `it->value = value` through a list iterator. -/
def assignValue (l : List (LRUNode Key Value)) (a : Nat) (value : Value) :
    Option (List (LRUNode Key Value)) :=
  match nodeAt l a with
  | none => none
  | some _ => some (l.map (fun n => if n.addr = a then { n with value := value } else n))

/-- The call `itemsList_.splice(itemsList_.begin(), itemsList_, it)`: the node moves to the
front, the other nodes keep their order. -/
def spliceFront (l : List (LRUNode Key Value)) (a : Nat) : Option (List (LRUNode Key Value)) :=
  match nodeAt l a with
  | none => none
  | some n => some (n :: l.filter (fun m => decide (m.addr ≠ a)))

/-- Member `evictOneEntry()`. -/
def evictOneEntry (c : LRUCache Key Value) : LRUCache Key Value × Bool :=
  match c.itemsList.getLast? with
  | none => (c, false)
  | some last =>
    ({ c with nodes := mapErase c.nodes last.key, itemsList := c.itemsList.dropLast }, true)

/-- Member `set(key, value)`. -/
def set (c : LRUCache Key Value) (key : Key) (value : Value) :
    Option (LRUCache Key Value × Bool) :=
  match mapFind c.nodes key with
  | some a =>
    match assignValue c.itemsList a value with
    | none => none
    | some l1 =>
      match spliceFront l1 a with
      | none => none
      | some l2 => some ({ c with itemsList := l2 }, true)
  | none =>
    let c1 := if (c.itemsList.length : Int) ≥ c.maxSize then (c.evictOneEntry).1 else c
    some ({ c1 with
              itemsList := { addr := c1.nextAddr, key := key, value := value } :: c1.itemsList,
              nodes := mapSet c1.nodes key c1.nextAddr,
              nextAddr := c1.nextAddr + 1 }, true)

/-- Member `get(key)`: the new state and the returned optional value. -/
def get (c : LRUCache Key Value) (key : Key) : Option (LRUCache Key Value × Option Value) :=
  match mapFind c.nodes key with
  | none => some (c, none)
  | some a =>
    match spliceFront c.itemsList a with
    | none => none
    | some l =>
      match nodeAt l a with
      | none => none
      | some n => some ({ c with itemsList := l }, some n.value)

/-- Member `size()`. -/
def size (c : LRUCache Key Value) : Int := c.itemsList.length

/-- Member `isEmpty()`. -/
def isEmpty (c : LRUCache Key Value) : Bool := c.size == 0

/-- Member `clear()`. -/
def clear (c : LRUCache Key Value) : LRUCache Key Value :=
  { c with nodes := [], itemsList := [] }

/-- State after one call; `none` when the call runs into undefined behaviour. -/
def step (c : LRUCache Key Value) : CacheOp Key Value → Option (LRUCache Key Value)
  | .set key value => (c.set key value).map Prod.fst
  | .get key => (c.get key).map Prod.fst
  | .clear => some c.clear

/-- State after a sequence of calls, first call first. -/
def run (c : LRUCache Key Value) : List (CacheOp Key Value) → Option (LRUCache Key Value)
  | [] => some c
  | op :: ops =>
    match c.step op with
    | none => none
    | some c1 => c1.run ops

end LRUCache

/-! ## The LFU cache (`lfucache.h`) -/

/-- The struct `CacheItem` of `LFUCache`. -/
structure LFUItem (Key Value : Type) where
  key : Key
  value : Value
  counter : Int

/-- The data members of `LFUCache<Key, Value>`: `objects` holds the `CacheItem` objects
behind the shared pointers by address, `items` maps a key to the address of its item,
`keyPriorities` lists the addresses held by the `std::set` in the order of its
comparator, `nextAddr` is the address the next `make_shared` returns (addresses are not
reused). The mutex is not modelled. -/
structure LFUCache (Key Value : Type) where
  maxSize : Int
  objects : List (Nat × LFUItem Key Value)
  items : List (Key × Nat)
  keyPriorities : List Nat
  nextAddr : Nat

namespace LFUCache

variable {Key Value : Type} [LinearOrder Key]

/-- Constructor `LFUCache(int maxSize)`. -/
def create (maxSize : Int) : LFUCache Key Value :=
  { maxSize := maxSize, objects := [], items := [], keyPriorities := [], nextAddr := 0 }

/-- The comparator `CacheItemPtrLess` on the pointed-to items. -/
def itemLess (a b : LFUItem Key Value) : Bool :=
  if a.counter ≠ b.counter then decide (a.counter < b.counter) else decide (a.key < b.key)

/-- The comparator `CacheItemPtrLess` on two shared pointers. -/
def ptrLess (objs : List (Nat × LFUItem Key Value)) (p q : Nat) : Option Bool :=
  match mapFind objs p, mapFind objs q with
  | some a, some b => some (itemLess a b)
  | _, _ => none

/-- The call `keyPriorities_.insert(item)`: the new contents and the flag `.second`. -/
def setInsert (objs : List (Nat × LFUItem Key Value)) : List Nat → Nat → Option (List Nat × Bool)
  | [], p => some ([p], true)
  | q :: qs, p =>
    match ptrLess objs p q, ptrLess objs q p with
    | some true, some _ => some (p :: q :: qs, true)
    | some false, some false => some (q :: qs, false)
    | some false, some true =>
      match setInsert objs qs p with
      | none => none
      | some (r, inserted) => some (q :: r, inserted)
    | _, _ => none

/-- The call `keyPriorities_.erase(item)` by value: the element equivalent to `item`
under the comparator is removed. -/
def setErase (objs : List (Nat × LFUItem Key Value)) : List Nat → Nat → Option (List Nat)
  | [], _ => some []
  | q :: qs, p =>
    match ptrLess objs p q, ptrLess objs q p with
    | some true, some _ => some (q :: qs)
    | some false, some false => some qs
    | some false, some true =>
      match setErase objs qs p with
      | none => none
      | some r => some (q :: r)
    | _, _ => none

/-- Member `evictOneEntry()`. -/
def evictOneEntry (c : LFUCache Key Value) : Option (LFUCache Key Value × Bool) :=
  match c.keyPriorities with
  | [] => some (c, false)
  | p :: rest =>
    match mapFind c.objects p with
    | none => none
    | some it => some ({ c with items := mapErase c.items it.key, keyPriorities := rest }, true)

/-- The item after `item->value = value` (when a new value is given) and
`++item->counter`. -/
def touched (it : LFUItem Key Value) (newValue : Option Value) : LFUItem Key Value :=
  { it with value := newValue.getD it.value, counter := it.counter + 1 }

/-- The steps `keyPriorities_.erase(item); item->value = value; ++item->counter;
keyPriorities_.insert(item)` shared by `set` on a present key (with the new value) and
`get` (with the old value). -/
def touch (c : LFUCache Key Value) (p : Nat) (newValue : Option Value) :
    Option (LFUCache Key Value × LFUItem Key Value) :=
  match mapFind c.objects p with
  | none => none
  | some it =>
    match setErase c.objects c.keyPriorities p with
    | none => none
    | some kp1 =>
      let it1 : LFUItem Key Value := touched it newValue
      let objs1 := mapSet c.objects p it1
      match setInsert objs1 kp1 p with
      | none => none
      | some (kp2, _) => some ({ c with objects := objs1, keyPriorities := kp2 }, it1)

/-- Member `set(key, value)`. -/
def set (c : LFUCache Key Value) (key : Key) (value : Value) :
    Option (LFUCache Key Value × Bool) :=
  match mapFind c.items key with
  | some p =>
    match c.touch p (some value) with
    | none => none
    | some (c1, _) => some (c1, true)
  | none =>
    let evicted : Option (LFUCache Key Value) :=
      if (c.keyPriorities.length : Int) ≥ c.maxSize then
        match c.evictOneEntry with
        | none => none
        | some (c1, _) => some c1
      else some c
    match evicted with
    | none => none
    | some c1 =>
      let p := c1.nextAddr
      let objs1 := mapSet c1.objects p { key := key, value := value, counter := 1 }
      match setInsert objs1 c1.keyPriorities p with
      | none => none
      | some (_, false) => some ({ c1 with nextAddr := p + 1 }, false)
      | some (kp1, true) =>
        some ({ c1 with objects := objs1, keyPriorities := kp1,
                        items := mapSet c1.items key p, nextAddr := p + 1 }, true)

/-- Member `get(key)`: the new state and the returned optional value. -/
def get (c : LFUCache Key Value) (key : Key) : Option (LFUCache Key Value × Option Value) :=
  match mapFind c.items key with
  | none => some (c, none)
  | some p =>
    match c.touch p none with
    | none => none
    | some (c1, it) => some (c1, some it.value)

/-- Member `size()`. -/
def size (c : LFUCache Key Value) : Int := c.keyPriorities.length

/-- Member `isEmpty()`. -/
def isEmpty (c : LFUCache Key Value) : Bool := c.size == 0

/-- Member `clear()`. -/
def clear (c : LFUCache Key Value) : LFUCache Key Value :=
  { c with keyPriorities := [], items := [] }

/-- State after one call; `none` when the call runs into undefined behaviour. -/
def step (c : LFUCache Key Value) : CacheOp Key Value → Option (LFUCache Key Value)
  | .set key value => (c.set key value).map Prod.fst
  | .get key => (c.get key).map Prod.fst
  | .clear => some c.clear

/-- State after a sequence of calls, first call first. -/
def run (c : LFUCache Key Value) : List (CacheOp Key Value) → Option (LFUCache Key Value)
  | [] => some c
  | op :: ops =>
    match c.step op with
    | none => none
    | some c1 => c1.run ops

end LFUCache

/-! ## Specification predicates for the LRU cache -/

namespace LRUCache

variable {Key Value : Type} [DecidableEq Key]

/-- The stored `(key, value)` pairs in recency order, most recent first. -/
def entries (c : LRUCache Key Value) : List (Key × Value) :=
  c.itemsList.map (fun n => (n.key, n.value))

/-- What a call `get(key)` issued in state `c` returns. -/
def read (c : LRUCache Key Value) (key : Key) : Option (Option Value) :=
  (c.get key).map Prod.snd

/-- The list node that carries `key`. -/
def keyNode (l : List (LRUNode Key Value)) (key : Key) : Option (LRUNode Key Value) :=
  l.find? (fun n => decide (n.key = key))

/-- Representation invariant: list nodes have pairwise different addresses and keys, the
lookup map sends each key to the address of the node that carries it, has one entry per
key, and every address in use is below the next address to allocate. -/
def LRUInv (c : LRUCache Key Value) : Prop :=
  (c.itemsList.map (fun n => n.addr)).Nodup ∧
  (c.itemsList.map (fun n => n.key)).Nodup ∧
  (∀ k, mapFind c.nodes k = (keyNode c.itemsList k).map (fun n => n.addr)) ∧
  (∀ n ∈ c.itemsList, n.addr < c.nextAddr) ∧
  (c.nodes.map Prod.fst).Nodup

/-- A cache state with the history that the eviction policy speaks about: `clock` counts
the calls so far and `lastTouch` records, per key, the time of its most recent touch
(a `set` on it or a successful `get` of it). -/
structure LRUHistory (Key Value : Type) where
  cache : LRUCache Key Value
  clock : Nat
  lastTouch : List (Key × Nat)

/-- History before the first call. -/
def startHistory (maxSize : Int) : LRUHistory Key Value :=
  { cache := create maxSize, clock := 0, lastTouch := [] }

/-- One call, recorded in the history. -/
def stepHistory (h : LRUHistory Key Value) : CacheOp Key Value → Option (LRUHistory Key Value)
  | .set key value =>
    match h.cache.set key value with
    | none => none
    | some (c, _) =>
      some { cache := c, clock := h.clock + 1, lastTouch := mapSet h.lastTouch key h.clock }
  | .get key =>
    match h.cache.get key with
    | none => none
    | some (c, none) => some { cache := c, clock := h.clock + 1, lastTouch := h.lastTouch }
    | some (c, some _) =>
      some { cache := c, clock := h.clock + 1, lastTouch := mapSet h.lastTouch key h.clock }
  | .clear => some { cache := h.cache.clear, clock := h.clock + 1, lastTouch := h.lastTouch }

/-- A sequence of calls, recorded in the history. -/
def runHistory (h : LRUHistory Key Value) :
    List (CacheOp Key Value) → Option (LRUHistory Key Value)
  | [] => some h
  | op :: ops =>
    match stepHistory h op with
    | none => none
    | some h1 => runHistory h1 ops

/-- The pairs `es` are ordered by the touch times `lt`, latest first, and every touch time
lies before `clock`. -/
def StampOrdered (es : List (Key × Value)) (lt : List (Key × Nat)) (clock : Nat) : Prop :=
  (es.Pairwise (fun e1 e2 =>
    ∃ t1 t2, mapFind lt e1.1 = some t1 ∧ mapFind lt e2.1 = some t2 ∧ t2 < t1)) ∧
  (∀ e ∈ es, ∃ t, mapFind lt e.1 = some t ∧ t < clock)

/-- The recency list is ordered by the time of the most recent touch, latest first. -/
def TouchOrdered (h : LRUHistory Key Value) : Prop :=
  StampOrdered h.cache.entries h.lastTouch h.clock

/-- The invariant of a recorded history. -/
def HistoryInv (h : LRUHistory Key Value) : Prop :=
  LRUInv h.cache ∧ TouchOrdered h ∧ 1 ≤ h.cache.maxSize ∧
    (h.cache.entries.length : Int) ≤ h.cache.maxSize

end LRUCache

/-! ## Specification predicates for the LFU cache -/

namespace LFUCache

variable {Key Value : Type} [LinearOrder Key]

/-- The item stored under `key`, read through `items_`. -/
def itemOf (c : LFUCache Key Value) (key : Key) : Option (LFUItem Key Value) :=
  match mapFind c.items key with
  | none => none
  | some p => mapFind c.objects p

/-- The value and the access counter stored under `key`. -/
def entry (c : LFUCache Key Value) (key : Key) : Option (Value × Int) :=
  (c.itemOf key).map (fun it => (it.value, it.counter))

/-- What a call `get(key)` issued in state `c` returns. -/
def read (c : LFUCache Key Value) (key : Key) : Option (Option Value) :=
  (c.get key).map Prod.snd

/-- The pointers `kp` are strictly increasing under the comparator on the objects `objs`. -/
def PtrSorted (objs : List (Nat × LFUItem Key Value)) (kp : List Nat) : Prop :=
  kp.Pairwise (fun p q => ptrLess objs p q = some true)

/-- Representation invariant: `items_` and the object store have one entry per key, every
pointer of `items_` is in the ordered set and points at an item with that key, every
pointer of the ordered set points at an item whose key leads back to it, the ordered set is
strictly increasing under its comparator, and every address in use is below the next
address to allocate. -/
def LFUInv (c : LFUCache Key Value) : Prop :=
  (c.items.map Prod.fst).Nodup ∧
  (c.objects.map Prod.fst).Nodup ∧
  (∀ k p, mapFind c.items k = some p →
    p ∈ c.keyPriorities ∧ ∃ it, mapFind c.objects p = some it ∧ it.key = k) ∧
  (∀ p ∈ c.keyPriorities, ∃ it, mapFind c.objects p = some it ∧
    mapFind c.items it.key = some p) ∧
  PtrSorted c.objects c.keyPriorities ∧
  (∀ p it, mapFind c.objects p = some it → p < c.nextAddr)

end LFUCache

namespace LFUCache

variable {Key Value : Type} [LinearOrder Key]

/-- The invariant of every state with a positive capacity: the representation invariant
and at most `maxSize` stored keys. -/
def LFUBounded (c : LFUCache Key Value) : Prop :=
  LFUInv c ∧ 1 ≤ c.maxSize ∧ (c.keyPriorities.length : Int) ≤ c.maxSize

end LFUCache

/-! ## Call sequences that leave a key alone -/

/-- The call is a `set` on `key`. -/
def CacheOp.isSetOn {Key Value : Type} [DecidableEq Key] (key : Key) : CacheOp Key Value → Bool
  | .set k _ => decide (k = key)
  | _ => false

namespace LRUCache

variable {Key Value : Type} [DecidableEq Key]

/-- The key is stored: `get(key)` would return a value. -/
def stored (c : LRUCache Key Value) (key : Key) : Bool :=
  match c.read key with
  | some (some _) => true
  | _ => false

/-- Along the calls `ops` issued in state `c`, `key` is not set again and stays stored
(it is neither evicted nor dropped by `clear`). -/
def keeps (key : Key) (c : LRUCache Key Value) : List (CacheOp Key Value) → Bool
  | [] => true
  | op :: ops =>
    !(op.isSetOn key) &&
      match c.step op with
      | none => false
      | some c1 => c1.stored key && keeps key c1 ops

end LRUCache

namespace LFUCache

variable {Key Value : Type} [LinearOrder Key]

/-- The key is stored: `get(key)` would return a value. -/
def stored (c : LFUCache Key Value) (key : Key) : Bool :=
  match c.read key with
  | some (some _) => true
  | _ => false

/-- Along the calls `ops` issued in state `c`, `key` is not set again and stays stored
(it is neither evicted nor dropped by `clear`). -/
def keeps (key : Key) (c : LFUCache Key Value) : List (CacheOp Key Value) → Bool
  | [] => true
  | op :: ops =>
    !(op.isSetOn key) &&
      match c.step op with
      | none => false
      | some c1 => c1.stored key && keeps key c1 ops

end LFUCache

/-! ## Construction of the caches as a fallible operation -/

/-- The failure that a validating cache constructor would report for a capacity `<= 0`;
needed to state that construction fails or does not fail. No constructor in `lrucache.h`
or `lfucache.h` raises it. -/
inductive CacheFailure where
  | invalidConfiguration
  deriving DecidableEq, Repr

/-- The expression `LRUCache<Key, Value>(maxSize)`: the constructor stores `maxSize` and has
an empty body, so no path throws. -/
def LRUCache.construct {Key Value : Type} (maxSize : Int) :
    Except CacheFailure (LRUCache Key Value) :=
  .ok (LRUCache.create maxSize)

/-- The expression `LFUCache<Key, Value>(maxSize)`: the constructor stores `maxSize` and has
an empty body, so no path throws. -/
def LFUCache.construct {Key Value : Type} [LinearOrder Key] (maxSize : Int) :
    Except CacheFailure (LFUCache Key Value) :=
  .ok (LFUCache.create maxSize)

/-! ## Ghost history of the LFU cache: touches since the last insertion -/

/-- A cache state together with, per key, the number of successful `get` calls and
overwriting `set` calls on that key since `set` last inserted it. -/
structure LFUHistory (Key Value : Type) where
  cache : LFUCache Key Value
  touches : List (Key × Int)

namespace LFUCache

variable {Key Value : Type} [LinearOrder Key]

/-- The history of a freshly constructed cache. -/
def startHistory (maxSize : Int) : LFUHistory Key Value :=
  { cache := create maxSize, touches := [] }

/-- The recorded number of touches of `key` since its last insertion. -/
def touchCount (h : LFUHistory Key Value) (key : Key) : Int :=
  (mapFind h.touches key).getD 0

/-- The record after one more touch of `key`. -/
def bump (h : LFUHistory Key Value) (key : Key) : List (Key × Int) :=
  mapSet h.touches key (touchCount h key + 1)

/-- One call, recorded: a `set` of a key that is not stored inserts it and restarts its
count at 0, a `set` of a stored key and a `get` that returns a value count as one touch,
a `get` that returns nothing and `clear` record nothing. -/
def stepHistory (h : LFUHistory Key Value) : CacheOp Key Value → Option (LFUHistory Key Value)
  | .set key value =>
    match h.cache.set key value with
    | none => none
    | some (c1, _) =>
      some { cache := c1,
             touches := if h.cache.stored key then bump h key else mapSet h.touches key 0 }
  | .get key =>
    match h.cache.get key with
    | none => none
    | some (c1, some _) => some { cache := c1, touches := bump h key }
    | some (c1, none) => some { cache := c1, touches := h.touches }
  | .clear => some { cache := h.cache.clear, touches := h.touches }

/-- A sequence of calls, recorded, first call first. -/
def runHistory (h : LFUHistory Key Value) : List (CacheOp Key Value) → Option (LFUHistory Key Value)
  | [] => some h
  | op :: ops =>
    match stepHistory h op with
    | none => none
    | some h1 => runHistory h1 ops

/-- The recorded counts agree with the counters: every stored item has counter
`1 + touches`. -/
def CountsAgree (h : LFUHistory Key Value) : Prop :=
  ∀ k it, h.cache.itemOf k = some it → it.counter = 1 + touchCount h k

end LFUCache

/-! ## Lemmas on the vector and index-map primitives -/

section PrimLemmas
variable {T : Type}

theorem getAt_eq_some_iff (xs : List T) (i : Int) (a : T) :
    getAt xs i = some a ↔ 0 ≤ i ∧ xs[i.toNat]? = some a := by
  unfold getAt
  split_ifs with h
  · constructor
    · intro h'; cases h'
    · rintro ⟨h', _⟩; omega
  · constructor
    · intro h'; exact ⟨by omega, h'⟩
    · rintro ⟨_, h'⟩; exact h'

theorem getAt_bounds {xs : List T} {i : Int} {a : T} (h : getAt xs i = some a) :
    0 ≤ i ∧ i < (xs.length : Int) := by
  rw [getAt_eq_some_iff] at h
  obtain ⟨h0, h1⟩ := h
  have := (List.getElem?_eq_some_iff.mp h1).1
  omega

theorem getAt_of_bounds {xs : List T} {i : Int} (h0 : 0 ≤ i) (h1 : i < (xs.length : Int)) :
    ∃ a, getAt xs i = some a := by
  have hlt : i.toNat < xs.length := by omega
  exact ⟨xs[i.toNat], (getAt_eq_some_iff _ _ _).mpr ⟨h0, List.getElem?_eq_getElem hlt⟩⟩

theorem getAt_eq_none {xs : List T} {i : Int} (h : i < 0 ∨ (xs.length : Int) ≤ i) :
    getAt xs i = none := by
  cases hg : getAt xs i with
  | none => rfl
  | some a => have := getAt_bounds hg; omega

theorem getAt_natCast (xs : List T) (n : Nat) : getAt xs (n : Int) = xs[n]? := by
  unfold getAt
  simp

theorem mem_iff_getAt (xs : List T) (a : T) : a ∈ xs ↔ ∃ i, getAt xs i = some a := by
  constructor
  · intro h
    obtain ⟨n, hn⟩ := List.getElem?_of_mem h
    exact ⟨(n : Int), by rw [getAt_natCast]; exact hn⟩
  · rintro ⟨i, hi⟩
    rw [getAt_eq_some_iff] at hi
    exact List.getElem?_mem hi.2

theorem getAt_set (xs : List T) (i k : Int) (v a : T) (hi : getAt xs i = some a) :
    getAt (xs.set i.toNat v) k = if k = i then some v else getAt xs k := by
  have hb := getAt_bounds hi
  by_cases hk : k < 0
  · rw [getAt_eq_none (Or.inl hk), getAt_eq_none (Or.inl hk)]
    rw [if_neg (by omega)]
  · unfold getAt
    rw [if_neg hk, if_neg hk, List.getElem?_set]
    by_cases hki : k = i
    · subst hki
      simp only [if_true]
      rw [if_pos (by omega)]
    · rw [if_neg hki, if_neg (by omega)]

theorem setAt_spec {xs : List T} {i : Int} {a : T} (v : T) (hi : getAt xs i = some a) :
    ∃ ys, setAt xs i v = some ys ∧ ys.length = xs.length ∧
      ∀ k, getAt ys k = if k = i then some v else getAt xs k := by
  refine ⟨xs.set i.toNat v, ?_, by simp, fun k => getAt_set xs i k v a hi⟩
  unfold setAt
  rw [hi]

theorem perm_cons_set {xs : List T} {n : Nat} {a x : T} (h : xs[n]? = some a) :
    (a :: xs.set n x).Perm (x :: xs) := by
  induction xs generalizing n with
  | nil => simp at h
  | cons y t ih =>
    cases n with
    | zero =>
      simp only [List.getElem?_cons_zero, Option.some.injEq] at h
      subst h
      simpa using List.Perm.swap x y t
    | succ k =>
      simp only [List.getElem?_cons_succ] at h
      simp only [List.set_cons_succ]
      exact (List.Perm.swap y a _).trans (((ih h).cons y).trans (List.Perm.swap x y t))

theorem perm_set_set {xs : List T} {i j : Nat} {a b : T}
    (hi : xs[i]? = some a) (hj : xs[j]? = some b) :
    ((xs.set i b).set j a).Perm xs := by
  induction xs generalizing i j with
  | nil => simp at hi
  | cons y t ih =>
    cases i with
    | zero =>
      simp only [List.getElem?_cons_zero, Option.some.injEq] at hi
      subst hi
      cases j with
      | zero =>
        simp only [List.getElem?_cons_zero, Option.some.injEq] at hj
        subst hj
        simp
      | succ k =>
        simp only [List.getElem?_cons_succ] at hj
        simpa using perm_cons_set (x := y) hj
    | succ k =>
      simp only [List.getElem?_cons_succ] at hi
      cases j with
      | zero =>
        simp only [List.getElem?_cons_zero, Option.some.injEq] at hj
        subst hj
        simpa using perm_cons_set (x := y) hi
      | succ l =>
        simp only [List.getElem?_cons_succ] at hj
        simpa using (ih hi hj).cons y

theorem swapAt_spec {xs : List T} {i j : Int} {a b : T}
    (hi : getAt xs i = some a) (hj : getAt xs j = some b) :
    ∃ ys, swapAt xs i j = some ys ∧ ys.length = xs.length ∧
      (∀ k, getAt ys k = if k = j then some a else if k = i then some b else getAt xs k) ∧
      ys.Perm xs := by
  refine ⟨(xs.set i.toNat b).set j.toNat a, ?_, by simp, ?_, ?_⟩
  · unfold swapAt
    rw [hi, hj]
  · intro k
    have hj' : getAt (xs.set i.toNat b) j = some (if j = i then b else b) := by
      rw [getAt_set xs i j b a hi]
      split_ifs <;> simp [hj]
    rw [getAt_set _ j k a _ hj', getAt_set xs i k b a hi]
  · rw [getAt_eq_some_iff] at hi hj
    exact perm_set_set hi.2 hj.2

theorem popBack_spec {xs : List T} (hne : xs ≠ []) :
    ∃ ys, popBack xs = some ys ∧ (ys.length : Int) = (xs.length : Int) - 1 ∧
      (∀ k, getAt ys k = if k < (xs.length : Int) - 1 then getAt xs k else none) ∧
      ∀ z, getAt xs ((xs.length : Int) - 1) = some z → (z :: ys).Perm xs := by
  have hlen : 0 < xs.length := List.length_pos.mpr hne
  refine ⟨xs.dropLast, ?_, ?_, ?_, ?_⟩
  · cases xs with
    | nil => exact absurd rfl hne
    | cons y t => rfl
  · rw [List.length_dropLast]; omega
  · intro k
    by_cases hk : k < 0
    · rw [getAt_eq_none (Or.inl hk), getAt_eq_none (Or.inl hk)]; simp
    · unfold getAt
      rw [if_neg hk, if_neg hk, List.getElem?_dropLast]
      by_cases h1 : k < (xs.length : Int) - 1
      · rw [if_pos h1, if_pos (by omega)]
      · rw [if_neg h1, if_neg (by omega)]
  · intro z hz
    rw [getAt_eq_some_iff] at hz
    have h2 : xs.getLast? = some z := by
      rw [List.getLast?_eq_getElem?]
      have : ((xs.length : Int) - 1).toNat = xs.length - 1 := by omega
      rw [← this]; exact hz.2
    have h3 := List.dropLast_append_getLast? z h2
    have : (z :: xs.dropLast).Perm (xs.dropLast ++ [z]) := by
      simpa using (@List.perm_append_comm T [z] xs.dropLast)
    rw [h3] at this
    exact this

theorem getAt_append_singleton (xs : List T) (e : T) (k : Int) :
    getAt (xs ++ [e]) k = if k = (xs.length : Int) then some e else getAt xs k := by
  by_cases hk : k < 0
  · rw [getAt_eq_none (Or.inl hk), getAt_eq_none (Or.inl hk), if_neg (by omega)]
  · unfold getAt
    rw [if_neg hk, if_neg hk, List.getElem?_append]
    by_cases h1 : k = (xs.length : Int)
    · rw [if_pos h1, if_neg (by omega)]
      have : k.toNat - xs.length = 0 := by omega
      rw [this]; rfl
    · rw [if_neg h1]
      by_cases h2 : k.toNat < xs.length
      · rw [if_pos h2]
      · rw [if_neg h2]
        have h3 : xs.length ≤ k.toNat := by omega
        rw [List.getElem?_eq_none h3]
        have : k.toNat - xs.length = (k.toNat - xs.length - 1) + 1 := by omega
        rw [this]; rfl

theorem mem_intRange (lo hi j : Int) : j ∈ intRange lo hi ↔ lo ≤ j ∧ j < hi := by
  unfold intRange
  simp only [List.mem_map, List.mem_range]
  constructor
  · rintro ⟨d, hd, hj⟩
    have hj2 : j = lo + (d : Int) := hj.symm
    omega
  · rintro ⟨h1, h2⟩
    refine ⟨(j - lo).toNat, by omega, ?_⟩
    show lo + ((j - lo).toNat : Int) = j
    omega

section PosLemmas
variable [DecidableEq T]

theorem posFind_posErase (m : List (T × Int)) (e x : T) :
    posFind (posErase m e) x = if e = x then none else posFind m x := by
  induction m with
  | nil => simp [posErase, posFind]
  | cons p m ih =>
    obtain ⟨k, v⟩ := p
    by_cases hke : k = e
    · simp only [posErase, if_pos hke, ih, posFind]
      by_cases hex : e = x
      · simp [hex]
      · have : k ≠ x := by rw [hke]; exact hex
        simp [hex, this]
    · simp only [posErase, if_neg hke, posFind, ih]
      by_cases hkx : k = x
      · have : e ≠ x := by rw [← hkx]; exact fun h => hke h.symm
        simp [hkx, this]
      · simp [hkx]

theorem posFind_posSet (m : List (T × Int)) (e x : T) (i : Int) :
    posFind (posSet m e i) x = if e = x then some i else posFind m x := by
  unfold posSet
  simp only [posFind, posFind_posErase]
  split_ifs <;> rfl

theorem posFind_eq_some_iff_mem {m : List (T × Int)} (hm : (m.map Prod.fst).Nodup)
    (e : T) (i : Int) : posFind m e = some i ↔ (e, i) ∈ m := by
  induction m with
  | nil => simp [posFind]
  | cons p m ih =>
    obtain ⟨k, v⟩ := p
    simp only [List.map_cons, List.nodup_cons, List.mem_map, not_exists, not_and] at hm
    simp only [posFind, List.mem_cons, Prod.mk.injEq]
    by_cases hke : k = e
    · subst hke
      simp only [if_true, Option.some.injEq]
      constructor
      · intro h; left; exact ⟨trivial, h.symm⟩
      · rintro (⟨_, h⟩ | h)
        · exact h.symm
        · exact absurd rfl (hm.1 (k, i) h)
    · rw [if_neg hke, ih hm.2]
      constructor
      · intro h; right; exact h
      · rintro (⟨h, _⟩ | h)
        · exact absurd h.symm hke
        · exact h

theorem posErase_keys_subset (m : List (T × Int)) (e k : T) :
    k ∈ (posErase m e).map Prod.fst → k ∈ m.map Prod.fst ∧ k ≠ e := by
  induction m with
  | nil => simp [posErase]
  | cons p m ih =>
    obtain ⟨k', v⟩ := p
    by_cases hke : k' = e
    · simp only [posErase, if_pos hke]
      intro h
      exact ⟨List.mem_cons_of_mem _ (ih h).1, (ih h).2⟩
    · simp only [posErase, if_neg hke, List.map_cons, List.mem_cons]
      rintro (h | h)
      · exact ⟨Or.inl h, by rw [h]; exact hke⟩
      · exact ⟨Or.inr (ih h).1, (ih h).2⟩

theorem posErase_nodup {m : List (T × Int)} (hm : (m.map Prod.fst).Nodup) (e : T) :
    ((posErase m e).map Prod.fst).Nodup := by
  induction m with
  | nil => simp [posErase]
  | cons p m ih =>
    obtain ⟨k, v⟩ := p
    simp only [List.map_cons, List.nodup_cons] at hm
    by_cases hke : k = e
    · simp only [posErase, if_pos hke]
      exact ih hm.2
    · simp only [posErase, if_neg hke, List.map_cons, List.nodup_cons]
      exact ⟨fun h => hm.1 (posErase_keys_subset m e k h).1, ih hm.2⟩

theorem posSet_nodup {m : List (T × Int)} (hm : (m.map Prod.fst).Nodup) (e : T) (i : Int) :
    ((posSet m e i).map Prod.fst).Nodup := by
  unfold posSet
  simp only [List.map_cons, List.nodup_cons]
  exact ⟨fun h => (posErase_keys_subset m e e h).2 rfl, posErase_nodup hm e⟩

end PosLemmas


end PrimLemmas

/-! ## Index arithmetic -/

section IndexArith

theorem tdiv_parent_spec {B j : Int} (hB : 0 < B) (hj : 0 < j) :
    IsChild B (Int.tdiv (j - 1) B) j ∧ 0 ≤ Int.tdiv (j - 1) B ∧ Int.tdiv (j - 1) B < j := by
  have h1 : Int.tdiv (j - 1) B = (j - 1) / B := Int.tdiv_eq_ediv (by omega) (by omega)
  rw [h1]
  have h2 := Int.ediv_add_emod (j - 1) B
  have h3 := Int.emod_nonneg (j - 1) (by omega : B ≠ 0)
  have h4 := Int.emod_lt_of_pos (j - 1) hB
  have h5 : 0 ≤ (j - 1) / B := Int.ediv_nonneg (by omega) (by omega)
  refine ⟨⟨by omega, by omega⟩, h5, ?_⟩
  have h6 : (j - 1) / B ≤ B * ((j - 1) / B) := by nlinarith
  omega

theorem isChild_unique {B i k j : Int} (hB : 0 < B) (h1 : IsChild B i j) (h2 : IsChild B k j) :
    i = k := by
  obtain ⟨a1, a2⟩ := h1
  obtain ⟨b1, b2⟩ := h2
  have h3 : B * i < B * (k + 1) := by nlinarith
  have h4 : B * k < B * (i + 1) := by nlinarith
  have h5 : i < k + 1 := lt_of_mul_lt_mul_left h3 (le_of_lt hB)
  have h6 : k < i + 1 := lt_of_mul_lt_mul_left h4 (le_of_lt hB)
  omega

theorem isChild_lt {B i j : Int} (hB : 0 < B) (hi : 0 ≤ i) (h : IsChild B i j) : i < j := by
  obtain ⟨a1, _⟩ := h
  have : i ≤ B * i := by nlinarith
  omega

theorem isChild_parent_nonneg {B i j : Int} (hB : 0 < B) (hj : 0 < j) (h : IsChild B i j) :
    0 ≤ i := by
  obtain ⟨a1, a2⟩ := h
  by_contra hneg
  have : B * i ≤ B * (-1) := by nlinarith
  omega

end IndexArith

/-! ## Exchanges preserve the index and the stored elements -/

section SwapLemmas

variable {T : Type} [LinearOrder T]

theorem swapStep_factor_eq {h h' : DaryHeap T} (s : SwapStep h h') :
    h'.branchingFactor = h.branchingFactor := by
  obtain ⟨i, j, a, b, els, _, _, _, _, rfl⟩ := s
  rfl

theorem swapStep_length_eq {h h' : DaryHeap T} (s : SwapStep h h') :
    h'.elements.length = h.elements.length := by
  obtain ⟨i, j, a, b, els, hi, hj, _, hs, rfl⟩ := s
  obtain ⟨ys, hys, hlen, _, _⟩ := swapAt_spec hi hj
  rw [hs] at hys
  cases hys
  exact hlen

theorem swapStep_perm {h h' : DaryHeap T} (s : SwapStep h h') :
    h'.elements.Perm h.elements := by
  obtain ⟨i, j, a, b, els, hi, hj, _, hs, rfl⟩ := s
  obtain ⟨ys, hys, _, _, hperm⟩ := swapAt_spec hi hj
  rw [hs] at hys
  cases hys
  exact hperm

theorem swapStep_keysUnique {h h' : DaryHeap T} (s : SwapStep h h')
    (hk : IndexKeysUnique h) : IndexKeysUnique h' := by
  obtain ⟨i, j, a, b, els, _, _, _, _, rfl⟩ := s
  exact posSet_nodup (posSet_nodup hk b i) a j

theorem swapStep_sound {h h' : DaryHeap T} (s : SwapStep h h')
    (hs : IndexSound h) : IndexSound h' := by
  obtain ⟨i, j, a, b, els, hi, hj, hab, hsw, rfl⟩ := s
  obtain ⟨ys, hys, _, hget, _⟩ := swapAt_spec hi hj
  rw [hsw] at hys
  cases hys
  intro e k hk
  simp only [posFind_posSet] at hk
  show getAt els k = some e
  rw [hget]
  by_cases hae : a = e
  · rw [if_pos hae] at hk
    cases hk
    rw [if_pos rfl, hae]
  · rw [if_neg hae] at hk
    by_cases hbe : b = e
    · rw [if_pos hbe] at hk
      cases hk
      have hij : i ≠ j := by
        intro hij
        rw [hij, hj] at hi
        exact hab (Option.some.inj hi).symm
      rw [if_neg hij, if_pos rfl, hbe]
    · rw [if_neg hbe] at hk
      have hke := hs e k hk
      have hkj : k ≠ j := by
        intro hkj
        rw [hkj, hj] at hke
        exact hbe (Option.some.inj hke)
      have hki : k ≠ i := by
        intro hki
        rw [hki, hi] at hke
        exact hae (Option.some.inj hke)
      rw [if_neg hkj, if_neg hki]
      exact hke

theorem swapStep_complete {h h' : DaryHeap T} (s : SwapStep h h')
    (hc : IndexComplete h) : IndexComplete h' := by
  obtain ⟨i, j, a, b, els, hi, hj, hab, hsw, rfl⟩ := s
  obtain ⟨ys, hys, _, hget, _⟩ := swapAt_spec hi hj
  rw [hsw] at hys
  cases hys
  intro k e hk
  change getAt els k = some e at hk
  show posFind (posSet (posSet h.positions b i) a j) e = some k
  rw [hget] at hk
  simp only [posFind_posSet]
  by_cases hkj : k = j
  · rw [if_pos hkj] at hk
    cases hk
    rw [if_pos rfl, hkj]
  · rw [if_neg hkj] at hk
    by_cases hki : k = i
    · rw [if_pos hki] at hk
      cases hk
      rw [if_neg hab, if_pos rfl, hki]
    · rw [if_neg hki] at hk
      have hae : a ≠ e := by
        intro hae
        have h1 := hc i a hi
        have h2 := hc k e hk
        rw [hae, h2] at h1
        exact hki (Option.some.inj h1)
      have hbe : b ≠ e := by
        intro hbe
        have h1 := hc j b hj
        have h2 := hc k e hk
        rw [hbe, h2] at h1
        exact hkj (Option.some.inj h1)
      rw [if_neg hae, if_neg hbe]
      exact hc k e hk

theorem swapSteps_factor_eq {h h' : DaryHeap T} (s : SwapSteps h h') :
    h'.branchingFactor = h.branchingFactor := by
  induction s with
  | refl => rfl
  | tail _ st ih => rw [swapStep_factor_eq st, ih]

theorem swapSteps_length_eq {h h' : DaryHeap T} (s : SwapSteps h h') :
    h'.elements.length = h.elements.length := by
  induction s with
  | refl => rfl
  | tail _ st ih => rw [swapStep_length_eq st, ih]

theorem swapSteps_perm {h h' : DaryHeap T} (s : SwapSteps h h') :
    h'.elements.Perm h.elements := by
  induction s with
  | refl => exact List.Perm.refl _
  | tail _ st ih => exact (swapStep_perm st).trans ih

theorem swapSteps_keysUnique {h h' : DaryHeap T} (s : SwapSteps h h')
    (hk : IndexKeysUnique h) : IndexKeysUnique h' := by
  induction s with
  | refl => exact hk
  | tail _ st ih => exact swapStep_keysUnique st ih

theorem swapSteps_sound {h h' : DaryHeap T} (s : SwapSteps h h')
    (hs : IndexSound h) : IndexSound h' := by
  induction s with
  | refl => exact hs
  | tail _ st ih => exact swapStep_sound st ih

theorem swapSteps_complete {h h' : DaryHeap T} (s : SwapSteps h h')
    (hc : IndexComplete h) : IndexComplete h' := by
  induction s with
  | refl => exact hc
  | tail _ st ih => exact swapStep_complete st ih

theorem swapSteps_trans {h1 h2 h3 : DaryHeap T} (s : SwapSteps h1 h2) (t : SwapSteps h2 h3) :
    SwapSteps h1 h3 :=
  Relation.ReflTransGen.trans s t

theorem swapSteps_head {h1 h2 h3 : DaryHeap T} (s : SwapStep h1 h2) (t : SwapSteps h2 h3) :
    SwapSteps h1 h3 :=
  Relation.ReflTransGen.head s t

end SwapLemmas

/-! ## `bubbleUp` -/

namespace DaryHeap

set_option linter.unusedSectionVars false

variable {T : Type} [LinearOrder T]

theorem bubbleUpLoop_root (fuel : Nat) (h : DaryHeap T) (idx : Int) (moved : Bool)
    (hidx : ¬ idx > 0) : bubbleUpLoop (fuel + 1) h idx moved = some (h, moved) := by
  simp only [bubbleUpLoop, if_neg hidx]

theorem bubbleUpLoop_stop (fuel : Nat) (h : DaryHeap T) (idx : Int) (moved : Bool) {a p : T}
    (hidx : idx > 0) (ha : getAt h.elements idx = some a)
    (hp : getAt h.elements (h.getParentIndex idx) = some p) (hlt : ¬ a < p) :
    bubbleUpLoop (fuel + 1) h idx moved = some (h, moved) := by
  simp only [bubbleUpLoop, if_pos hidx, ha, hp, if_neg hlt]

theorem bubbleUpLoop_swap (fuel : Nat) (h : DaryHeap T) (idx : Int) (moved : Bool) {a p : T}
    (hidx : idx > 0) (ha : getAt h.elements idx = some a)
    (hp : getAt h.elements (h.getParentIndex idx) = some p) (hlt : a < p) :
    ∃ els, swapAt h.elements idx (h.getParentIndex idx) = some els ∧
      bubbleUpLoop (fuel + 1) h idx moved =
        bubbleUpLoop fuel
          { h with elements := els,
                   positions := posSet (posSet h.positions p idx) a (h.getParentIndex idx) }
          (h.getParentIndex idx) true := by
  obtain ⟨ys, hys, _, hget, _⟩ := swapAt_spec ha hp
  refine ⟨ys, hys, ?_⟩
  have hne : idx ≠ h.getParentIndex idx := by
    intro he
    rw [← he, ha] at hp
    cases hp
    exact lt_irrefl _ hlt
  have h1 : getAt ys idx = some p := by rw [hget, if_neg hne, if_pos rfl]
  have h2 : getAt ys (h.getParentIndex idx) = some a := by rw [hget, if_pos rfl]
  simp only [bubbleUpLoop, if_pos hidx, ha, hp, if_pos hlt, hys, h1, h2]

theorem bubbleReady_swap {B : Int} {xs ys : List T} {idx P : Int} {x p : T}
    (hB : 0 < B) (hP : IsChild B P idx) (hP0 : 0 ≤ P)
    (hp : getAt xs P = some p) (hlt : x < p)
    (hget : ∀ k, getAt ys k = if k = P then some x else if k = idx then some p else getAt xs k)
    (hr : BubbleReady B xs idx) : BubbleReady B ys P := by
  obtain ⟨r1, r2⟩ := hr
  have hPidx : P < idx := isChild_lt hB hP0 hP
  have hidxP : idx ≠ P := by omega
  constructor
  · intro i j a b hc hjP hi hj
    rw [hget] at hi hj
    rw [if_neg hjP] at hj
    by_cases hji : j = idx
    · rw [hji] at hc
      have hiP : i = P := isChild_unique hB hc hP
      rw [if_pos hiP] at hi
      rw [if_pos hji] at hj
      cases hi; cases hj
      exact le_of_lt hlt
    · rw [if_neg hji] at hj
      by_cases hiP : i = P
      · rw [if_pos hiP] at hi
        cases hi
        rw [hiP] at hc
        exact le_trans (le_of_lt hlt) (r1 P j p b hc hji hp hj)
      · rw [if_neg hiP] at hi
        by_cases hii : i = idx
        · rw [if_pos hii] at hi
          cases hi
          rw [hii] at hc
          exact r2 P j _ b hP hc hp hj
        · rw [if_neg hii] at hi
          exact r1 i j a b hc hji hi hj
  · intro g c a b hg hc hga hcb
    rw [hget] at hga hcb
    have hPc : P < c := isChild_lt hB hP0 hc
    have hgP : g ≠ P := by
      intro he
      rw [he] at hg
      have := isChild_lt hB hP0 hg
      omega
    have hgi : g ≠ idx := by
      intro he
      rw [he] at hg
      have := isChild_lt hB (by omega) hg
      omega
    rw [if_neg hgP, if_neg hgi] at hga
    rw [if_neg (by omega : c ≠ P)] at hcb
    have h1 : a ≤ p := r1 g P a p hg (by omega) hga hp
    by_cases hci : c = idx
    · rw [if_pos hci] at hcb
      cases hcb
      exact h1
    · rw [if_neg hci] at hcb
      exact le_trans h1 (r1 P c p b hc hci hp hcb)

theorem getParentIndex_spec (h : DaryHeap T) {idx : Int} (hB : 0 < h.branchingFactor)
    (hidx : 0 < idx) :
    IsChild h.branchingFactor (h.getParentIndex idx) idx ∧ 0 ≤ h.getParentIndex idx ∧
      h.getParentIndex idx < idx :=
  tdiv_parent_spec hB hidx

theorem bubbleUpLoop_spec (fuel : Nat) : ∀ (h : DaryHeap T) (idx : Int) (moved : Bool) (x : T),
    0 < h.branchingFactor → idx.toNat < fuel → getAt h.elements idx = some x →
    ∃ h' moved', bubbleUpLoop fuel h idx moved = some (h', moved') ∧ SwapSteps h h' ∧
      (moved = true → moved' = true) ∧
      (BubbleReady h.branchingFactor h.elements idx →
        HeapOrderedFrom h.branchingFactor h'.elements 0) := by
  induction fuel with
  | zero => intro h idx moved x _ hf _; omega
  | succ fuel ih =>
    intro h idx moved x hB hf hx
    have hb := getAt_bounds hx
    by_cases hidx : idx > 0
    · obtain ⟨hPc, hP0, hPlt⟩ := getParentIndex_spec h hB hidx
      obtain ⟨p, hp⟩ := @getAt_of_bounds T h.elements _ hP0 (by omega)
      by_cases hlt : x < p
      · obtain ⟨els, hsw, heq⟩ := bubbleUpLoop_swap fuel h idx moved hidx hx hp hlt
        obtain ⟨ys, hys, hlen, hget, _⟩ := swapAt_spec hx hp
        rw [hsw] at hys
        cases hys
        have hxP : getAt els (h.getParentIndex idx) = some x := by rw [hget, if_pos rfl]
        obtain ⟨h', moved', hres, hsteps, hmv, hord⟩ :=
          ih { h with elements := els,
                      positions := posSet (posSet h.positions p idx) x (h.getParentIndex idx) }
            (h.getParentIndex idx) true x hB
            (by omega) hxP
        refine ⟨h', moved', by rw [heq]; exact hres, ?_, fun _ => hmv rfl, ?_⟩
        · exact swapSteps_head ⟨idx, h.getParentIndex idx, x, p, els, hx, hp, ne_of_lt hlt,
            hsw, rfl⟩ hsteps
        · intro hr
          exact hord (bubbleReady_swap hB hPc hP0 hp hlt hget hr)
      · refine ⟨h, moved, bubbleUpLoop_stop fuel h idx moved hidx hx hp hlt,
          Relation.ReflTransGen.refl, fun hm => hm, ?_⟩
        rintro ⟨r1, _⟩ i j a b _ hc hi hj
        by_cases hji : j = idx
        · rw [hji] at hc hj
          have hiP : i = h.getParentIndex idx := isChild_unique hB hc hPc
          rw [hiP, hp] at hi
          rw [hx] at hj
          cases hi; cases hj
          exact not_lt.mp hlt
        · exact r1 i j a b hc hji hi hj
    · refine ⟨h, moved, bubbleUpLoop_root fuel h idx moved hidx,
        Relation.ReflTransGen.refl, fun hm => hm, ?_⟩
      rintro ⟨r1, _⟩ i j a b _ hc hi hj
      have hi0 := (getAt_bounds hi).1
      have := isChild_lt hB hi0 hc
      exact r1 i j a b hc (by omega) hi hj

theorem bubbleUp_spec (h : DaryHeap T) (idx : Int) (x : T)
    (hB : 0 < h.branchingFactor) (hx : getAt h.elements idx = some x) :
    ∃ h' moved', h.bubbleUp idx = some (h', moved') ∧ SwapSteps h h' ∧
      (BubbleReady h.branchingFactor h.elements idx →
        HeapOrderedFrom h.branchingFactor h'.elements 0) ∧
      (moved' = false → h' = h) ∧
      (moved' = false → 0 < idx →
        ∀ p, getAt h.elements (h.getParentIndex idx) = some p → ¬ x < p) ∧
      (moved' = true →
        0 < idx ∧ ∃ p, getAt h.elements (h.getParentIndex idx) = some p ∧ x < p) := by
  have hb := getAt_bounds hx
  have hdef : h.bubbleUp idx = bubbleUpLoop (idx.toNat + 1) h idx false := by
    simp only [bubbleUp, hx]
  obtain ⟨h', moved', hres, hsteps, _, hord⟩ :=
    bubbleUpLoop_spec (idx.toNat + 1) h idx false x hB (by omega) hx
  by_cases hidx : idx > 0
  · obtain ⟨hPc, hP0, hPlt⟩ := getParentIndex_spec h hB hidx
    obtain ⟨p, hp⟩ := @getAt_of_bounds T h.elements _ hP0 (by omega)
    by_cases hlt : x < p
    · obtain ⟨els, hsw, heq⟩ := bubbleUpLoop_swap idx.toNat h idx false hidx hx hp hlt
      obtain ⟨ys, hys, _, hget, _⟩ := swapAt_spec hx hp
      rw [hsw] at hys
      cases hys
      have hxP : getAt els (h.getParentIndex idx) = some x := by rw [hget, if_pos rfl]
      obtain ⟨h2, m2, hres2, _, hmv2, _⟩ :=
        bubbleUpLoop_spec idx.toNat
          { h with elements := els,
                   positions := posSet (posSet h.positions p idx) x (h.getParentIndex idx) }
          (h.getParentIndex idx) true x hB (by omega) hxP
      have hm : moved' = true := by
        rw [heq, hres2] at hres
        have hpair := (Prod.mk.inj (Option.some.inj hres)).2
        rw [← hpair]
        exact hmv2 rfl
      refine ⟨h', moved', by rw [hdef]; exact hres, hsteps, hord, ?_, ?_, ?_⟩
      · intro hf; rw [hm] at hf; cases hf
      · intro hf; rw [hm] at hf; cases hf
      · intro _; exact ⟨hidx, p, hp, hlt⟩
    · have hstop := bubbleUpLoop_stop idx.toNat h idx false hidx hx hp hlt
      rw [hstop] at hres
      cases hres
      refine ⟨h, false, by rw [hdef, hstop], hsteps, hord, fun _ => rfl, ?_, ?_⟩
      · intro _ _ q hq
        rw [hp] at hq
        cases hq
        exact hlt
      · intro hf; cases hf
  · have hstop := bubbleUpLoop_root idx.toNat h idx false hidx
    rw [hstop] at hres
    cases hres
    refine ⟨h, false, by rw [hdef, hstop], hsteps, hord, fun _ => rfl, ?_, ?_⟩
    · intro _ h0; exact absurd h0 hidx
    · intro hf; cases hf

end DaryHeap

/-! ## `pushDown` -/

namespace DaryHeap

set_option linter.unusedSectionVars false

variable {T : Type} [LinearOrder T]

theorem minChildLoop_spec (els : List T) : ∀ (js : List Int) (mc : Int),
    (∀ j ∈ js, ∃ a, getAt els j = some a) → (∃ a, getAt els mc = some a) →
    ∃ m c, minChildLoop els js mc = some m ∧ getAt els m = some c ∧ (m = mc ∨ m ∈ js) ∧
      ∀ k b, (k = mc ∨ k ∈ js) → getAt els k = some b → c ≤ b := by
  intro js
  induction js with
  | nil =>
    rintro mc _ ⟨a, ha⟩
    refine ⟨mc, a, rfl, ha, Or.inl rfl, ?_⟩
    intro k b hk hb
    rcases hk with hk | hk
    · rw [hk, ha] at hb
      cases hb
      exact le_refl _
    · cases hk
  | cons j js ih =>
    rintro mc hjs ⟨mv, hmv⟩
    obtain ⟨a, ha⟩ := hjs j (List.mem_cons_self _ _)
    have hvalid : ∃ a', getAt els (if a < mv then j else mc) = some a' := by
      split_ifs
      · exact ⟨a, ha⟩
      · exact ⟨mv, hmv⟩
    obtain ⟨m, c, hres, hc, hmem, hmin⟩ :=
      ih (if a < mv then j else mc) (fun k hk => hjs k (List.mem_cons_of_mem _ hk)) hvalid
    have hc1 : c ≤ a ∧ c ≤ mv := by
      by_cases hlt : a < mv
      · rw [if_pos hlt] at hmin
        have := hmin j a (Or.inl rfl) ha
        exact ⟨this, le_trans this (le_of_lt hlt)⟩
      · rw [if_neg hlt] at hmin
        have := hmin mc mv (Or.inl rfl) hmv
        exact ⟨le_trans this (not_lt.mp hlt), this⟩
    refine ⟨m, c, ?_, hc, ?_, ?_⟩
    · simp only [minChildLoop, ha, hmv]
      exact hres
    · rcases hmem with hm | hm
      · by_cases hlt : a < mv
        · rw [if_pos hlt] at hm
          exact Or.inr (by rw [hm]; exact List.mem_cons_self _ _)
        · rw [if_neg hlt] at hm
          exact Or.inl hm
      · exact Or.inr (List.mem_cons_of_mem _ hm)
    · intro k b hk hb
      rcases hk with hk | hk
      · rw [hk, hmv] at hb
        cases hb
        exact hc1.2
      · rcases List.mem_cons.mp hk with hk | hk
        · rw [hk, ha] at hb
          cases hb
          exact hc1.1
        · exact hmin k b (Or.inr hk) hb

/-- The child selected by `pushDown` is a stored child of `idx` that is least among
the stored children. -/
theorem minChild_spec (h : DaryHeap T) (idx : Int) (hB : 0 < h.branchingFactor)
    (hidx : 0 ≤ idx) (hfc : h.getFirstChildIndex idx < (h.elements.length : Int)) :
    ∃ m c,
      minChildLoop h.elements
        (intRange (h.getFirstChildIndex idx + 1)
          (min (h.getFirstChildIndex idx + h.branchingFactor) (h.elements.length : Int)))
        (h.getFirstChildIndex idx) = some m ∧
      getAt h.elements m = some c ∧ IsChild h.branchingFactor idx m ∧
      ∀ k b, IsChild h.branchingFactor idx k → getAt h.elements k = some b → c ≤ b := by
  have hfc0 : 0 ≤ h.getFirstChildIndex idx := by
    have : 0 ≤ h.branchingFactor * idx := mul_nonneg (le_of_lt hB) hidx
    show 0 ≤ h.branchingFactor * idx + 1
    omega
  have hfdef : h.getFirstChildIndex idx = h.branchingFactor * idx + 1 := rfl
  obtain ⟨m, c, hres, hc, hmem, hmin⟩ :=
    minChildLoop_spec h.elements
      (intRange (h.getFirstChildIndex idx + 1)
        (min (h.getFirstChildIndex idx + h.branchingFactor) (h.elements.length : Int)))
      (h.getFirstChildIndex idx)
      (by
        intro j hj
        rw [mem_intRange] at hj
        exact getAt_of_bounds (by omega) (by omega))
      (getAt_of_bounds hfc0 hfc)
  refine ⟨m, c, hres, hc, ?_, ?_⟩
  · rcases hmem with hm | hm
    · rw [hm]
      exact ⟨by omega, by omega⟩
    · rw [mem_intRange] at hm
      exact ⟨by omega, by omega⟩
  · intro k b hk hb
    have hkb := getAt_bounds hb
    obtain ⟨k1, k2⟩ := hk
    by_cases hkf : k = h.getFirstChildIndex idx
    · exact hmin k b (Or.inl hkf) hb
    · refine hmin k b (Or.inr ?_) hb
      rw [mem_intRange]
      exact ⟨by omega, by omega⟩

theorem pushDownLoop_leaf (fuel : Nat) (h : DaryHeap T) (n idx : Int)
    (hfc : h.getFirstChildIndex idx ≥ n) : pushDownLoop (fuel + 1) h n idx = some h := by
  simp only [pushDownLoop, if_pos hfc]

theorem pushDownLoop_stop (fuel : Nat) (h : DaryHeap T) (n idx : Int) {m : Int} {c a : T}
    (hfc : ¬ h.getFirstChildIndex idx ≥ n)
    (hm : minChildLoop h.elements
        (intRange (h.getFirstChildIndex idx + 1)
          (min (h.getFirstChildIndex idx + h.branchingFactor) n))
        (h.getFirstChildIndex idx) = some m)
    (hc : getAt h.elements m = some c) (ha : getAt h.elements idx = some a)
    (hlt : ¬ c < a) : pushDownLoop (fuel + 1) h n idx = some h := by
  simp only [pushDownLoop, if_neg hfc, hm, hc, ha, if_neg hlt]

theorem pushDownLoop_swap (fuel : Nat) (h : DaryHeap T) (n idx : Int) {m : Int} {c a : T}
    (hfc : ¬ h.getFirstChildIndex idx ≥ n)
    (hm : minChildLoop h.elements
        (intRange (h.getFirstChildIndex idx + 1)
          (min (h.getFirstChildIndex idx + h.branchingFactor) n))
        (h.getFirstChildIndex idx) = some m)
    (hc : getAt h.elements m = some c) (ha : getAt h.elements idx = some a)
    (hlt : c < a) :
    ∃ els, swapAt h.elements idx m = some els ∧
      pushDownLoop (fuel + 1) h n idx =
        pushDownLoop fuel
          { h with elements := els, positions := posSet (posSet h.positions c idx) a m }
          n m := by
  obtain ⟨ys, hys, _, hget, _⟩ := swapAt_spec ha hc
  refine ⟨ys, hys, ?_⟩
  have hne : idx ≠ m := by
    intro he
    rw [← he, ha] at hc
    cases hc
    exact lt_irrefl _ hlt
  have h1 : getAt ys idx = some c := by rw [hget, if_neg hne, if_pos rfl]
  have h2 : getAt ys m = some a := by rw [hget, if_pos rfl]
  simp only [pushDownLoop, if_neg hfc, hm, hc, ha, if_pos hlt, hys, h1, h2]

theorem pushReady_swap {B : Int} {xs ys : List T} {lo idx m : Int} {x c : T}
    (hB : 0 < B) (hm : IsChild B idx m) (hidx : 0 ≤ idx) (hlo : lo ≤ idx)
    (hc : getAt xs m = some c) (hlt : c < x)
    (hmin : ∀ k b, IsChild B idx k → getAt xs k = some b → c ≤ b)
    (hget : ∀ k, getAt ys k = if k = m then some x else if k = idx then some c else getAt xs k)
    (hr : PushReady B xs lo idx) : PushReady B ys lo m := by
  obtain ⟨r1, r2⟩ := hr
  have him : idx < m := isChild_lt hB hidx hm
  constructor
  · intro i j a b hli hc' him' hi hj
    rw [hget] at hi hj
    rw [if_neg him'] at hi
    by_cases hii : i = idx
    · rw [if_pos hii] at hi
      cases hi
      rw [hii] at hc'
      by_cases hjm : j = m
      · rw [if_pos hjm] at hj
        cases hj
        exact le_of_lt hlt
      · have hji : idx < j := isChild_lt hB hidx hc'
        rw [if_neg hjm, if_neg (by omega)] at hj
        exact hmin j b hc' hj
    · rw [if_neg hii] at hi
      by_cases hjm : j = m
      · rw [hjm] at hc'
        exact absurd (isChild_unique hB hc' hm) hii
      · rw [if_neg hjm] at hj
        by_cases hji : j = idx
        · rw [if_pos hji] at hj
          cases hj
          rw [hji] at hc'
          exact r2 i m a _ hli hc' hm hi hc
        · rw [if_neg hji] at hj
          exact r1 i j a b hli hc' hii hi hj
  · intro g k a b hlg hg hk hga hkb
    rw [hget] at hga hkb
    have hgi : g = idx := isChild_unique hB hg hm
    have hmk : m < k := isChild_lt hB (by omega) hk
    rw [if_neg (by omega), if_pos hgi] at hga
    cases hga
    rw [if_neg (by omega), if_neg (by omega)] at hkb
    exact r1 m k _ b (by omega) hk (by omega) hc hkb

theorem pushDownLoop_spec (fuel : Nat) : ∀ (h : DaryHeap T) (idx : Int) (x : T),
    0 < h.branchingFactor → getAt h.elements idx = some x →
    ((h.elements.length : Int) - idx).toNat < fuel →
    ∃ h', pushDownLoop fuel h (h.elements.length : Int) idx = some h' ∧ SwapSteps h h' ∧
      ∀ lo, lo ≤ idx → PushReady h.branchingFactor h.elements lo idx →
        HeapOrderedFrom h.branchingFactor h'.elements lo := by
  induction fuel with
  | zero => intro h idx x _ _ hf; omega
  | succ fuel ih =>
    intro h idx x hB hx hf
    have hb := getAt_bounds hx
    by_cases hfc : h.getFirstChildIndex idx ≥ (h.elements.length : Int)
    · refine ⟨h, pushDownLoop_leaf fuel h _ idx hfc, Relation.ReflTransGen.refl, ?_⟩
      rintro lo _ ⟨r1, _⟩ i j a b hli hc hi hj
      by_cases hii : i = idx
      · have hjb := getAt_bounds hj
        rw [hii] at hc
        have : h.getFirstChildIndex idx = h.branchingFactor * idx + 1 := rfl
        have := hc.1
        omega
      · exact r1 i j a b hli hc hii hi hj
    · obtain ⟨m, c, hm, hc, hcm, hmin⟩ := minChild_spec h idx hB hb.1 (by omega)
      by_cases hlt : c < x
      · obtain ⟨els, hsw, heq⟩ := pushDownLoop_swap fuel h _ idx hfc hm hc hx hlt
        obtain ⟨ys, hys, hlen, hget, _⟩ := swapAt_spec hx hc
        rw [hsw] at hys
        cases hys
        have hxm : getAt els m = some x := by rw [hget, if_pos rfl]
        have him : idx < m := isChild_lt hB hb.1 hcm
        have hmb := getAt_bounds hc
        obtain ⟨h', hres, hsteps, hord⟩ :=
          ih { h with elements := els, positions := posSet (posSet h.positions c idx) x m }
            m x hB hxm (by
              show ((els.length : Int) - m).toNat < fuel
              rw [hlen]; omega)
        refine ⟨h', ?_, ?_, ?_⟩
        · rw [heq]
          have hl : (els.length : Int) = (h.elements.length : Int) := by rw [hlen]
          rw [← hl]
          exact hres
        · exact swapSteps_head ⟨idx, m, x, c, els, hx, hc, (ne_of_lt hlt).symm, hsw, rfl⟩ hsteps
        · intro lo hlo hr
          exact hord lo (by omega) (pushReady_swap hB hcm hb.1 hlo hc hlt hmin hget hr)
      · refine ⟨h, pushDownLoop_stop fuel h _ idx hfc hm hc hx hlt,
          Relation.ReflTransGen.refl, ?_⟩
        rintro lo _ ⟨r1, _⟩ i j a b hli hc' hi hj
        by_cases hii : i = idx
        · rw [hii, hx] at hi
          cases hi
          rw [hii] at hc'
          exact le_trans (not_lt.mp hlt) (hmin j b hc' hj)
        · exact r1 i j a b hli hc' hii hi hj

theorem pushDown_spec (h : DaryHeap T) (idx : Int) (x : T)
    (hB : 0 < h.branchingFactor) (hx : getAt h.elements idx = some x) :
    ∃ h', h.pushDown idx = some h' ∧ SwapSteps h h' ∧
      ∀ lo, lo ≤ idx → PushReady h.branchingFactor h.elements lo idx →
        HeapOrderedFrom h.branchingFactor h'.elements lo := by
  have hb := getAt_bounds hx
  obtain ⟨h', hres, hrest⟩ :=
    pushDownLoop_spec (h.elements.length + 1) h idx x hB hx (by omega)
  refine ⟨h', ?_, hrest⟩
  simp only [pushDown, hx]
  exact hres

end DaryHeap

/-! ## Heap order: equivalent forms, the root, and the restore step -/

namespace DaryHeap

set_option linter.unusedSectionVars false

variable {T : Type} [LinearOrder T]

theorem heapOrdered_iff (h : DaryHeap T) :
    HeapOrdered h ↔ HeapOrderedFrom h.branchingFactor h.elements 0 := by
  constructor
  · intro ho i j a b _ hc hi hj
    have hjb := getAt_bounds hj
    exact not_lt.mp (ho i j a b hc.1 (lt_min hc.2 hjb.2) hi hj)
  · intro ho i j a b h1 h2 hi hj
    have hib := getAt_bounds hi
    exact not_lt.mpr (ho i j a b hib.1 ⟨h1, lt_of_lt_of_le h2 (min_le_left _ _)⟩ hi hj)

theorem root_le_of_ordered {B : Int} {els : List T} (hB : 0 < B)
    (ho : HeapOrderedFrom B els 0) {r : T} (hr : getAt els 0 = some r) :
    ∀ (n : Nat) (j : Int) (b : T), j.toNat = n → getAt els j = some b → r ≤ b := by
  intro n
  induction n using Nat.strong_induction_on with
  | _ n ih =>
    intro j b hjn hj
    have hjb := getAt_bounds hj
    by_cases hj0 : j = 0
    · rw [hj0, hr] at hj
      cases hj
      exact le_refl _
    · have hjpos : 0 < j := by omega
      obtain ⟨hc, hp0, hplt⟩ := tdiv_parent_spec hB hjpos
      obtain ⟨p, hp⟩ := @getAt_of_bounds T els _ hp0 (by omega)
      have h1 : r ≤ p := ih (Int.tdiv (j - 1) B).toNat (by omega) _ p rfl hp
      exact le_trans h1 (ho _ j p b hp0 hc hp hj)

theorem root_le_mem {h : DaryHeap T} (hB : 0 < h.branchingFactor) (ho : HeapOrdered h)
    {r : T} (hr : getAt h.elements 0 = some r) : ∀ x ∈ h.elements, r ≤ x := by
  intro x hx
  obtain ⟨j, hj⟩ := (mem_iff_getAt _ _).mp hx
  exact root_le_of_ordered hB ((heapOrdered_iff h).mp ho) hr j.toNat j x rfl hj

/-- Order holds on every edge that avoids slot `idx`, and the parent of `idx` is
below the children of `idx`: the situation after slot `idx` was overwritten. -/
theorem orderedExcept_of_overwrite {B : Int} {xs ys : List T} {idx : Int} {r : T}
    (hB : 0 < B) (ho : HeapOrderedFrom B xs 0) (hr : getAt xs idx = some r)
    (hsame : ∀ k v, k ≠ idx → getAt ys k = some v → getAt xs k = some v) :
    (∀ (i j : Int) (a b : T), IsChild B i j → i ≠ idx → j ≠ idx →
      getAt ys i = some a → getAt ys j = some b → a ≤ b) ∧
    (∀ (g c : Int) (a b : T), IsChild B g idx → IsChild B idx c →
      getAt ys g = some a → getAt ys c = some b → a ≤ b) := by
  have hidx := (getAt_bounds hr).1
  constructor
  · intro i j a b hc hi hj hia hjb
    have hi0 := (getAt_bounds hia).1
    exact ho i j a b hi0 hc (hsame i a hi hia) (hsame j b hj hjb)
  · intro g c a b hg hc hga hcb
    have hg0 := (getAt_bounds hga).1
    have h1 := isChild_lt hB hg0 hg
    have h2 := isChild_lt hB hidx hc
    have h3 := ho g idx a r hg0 hg (hsame g a (by omega) hga) hr
    have h4 := ho idx c r b hidx hc hr (hsame c b (by omega) hcb)
    exact le_trans h3 h4

/-- The restore step `if (!bubbleUp(idx)) pushDown(idx)` shared by `removeAtIndexUnlocked`
and `updatePriority`. -/
theorem restore_spec (h : DaryHeap T) (idx : Int) (x : T)
    (hB : 0 < h.branchingFactor) (hx : getAt h.elements idx = some x)
    (e1 : ∀ (i j : Int) (a b : T), IsChild h.branchingFactor i j → i ≠ idx → j ≠ idx →
      getAt h.elements i = some a → getAt h.elements j = some b → a ≤ b)
    (e2 : ∀ (g c : Int) (a b : T), IsChild h.branchingFactor g idx →
      IsChild h.branchingFactor idx c →
      getAt h.elements g = some a → getAt h.elements c = some b → a ≤ b) :
    ∃ h1 moved h2, h.bubbleUp idx = some (h1, moved) ∧
      (if !moved then h1.pushDown idx else some h1) = some h2 ∧
      SwapSteps h h2 ∧ HeapOrderedFrom h.branchingFactor h2.elements 0 := by
  have hxb := getAt_bounds hx
  obtain ⟨h1, moved, hres, hsteps, hord, hsame, hstay, hmoved⟩ := bubbleUp_spec h idx x hB hx
  cases hmv : moved with
  | true =>
    obtain ⟨hidx, p, hp, hlt⟩ := hmoved hmv
    obtain ⟨hPc, hP0, hPlt⟩ := getParentIndex_spec h hB hidx
    refine ⟨h1, true, h1, by rw [hres, hmv], by simp, hsteps, hord ⟨?_, e2⟩⟩
    intro i j a b hc hj hia hjb
    by_cases hi : i = idx
    · rw [hi] at hc hia
      rw [hx] at hia
      cases hia
      exact le_trans (le_of_lt hlt) (e2 _ j p b hPc hc hp hjb)
    · exact e1 i j a b hc hi hj hia hjb
  | false =>
    have h1eq : h1 = h := hsame hmv
    rw [h1eq] at hres
    obtain ⟨h2, hpd, hsteps2, hord2⟩ := pushDown_spec h idx x hB hx
    refine ⟨h, false, h2, by rw [hres, hmv], by simpa using hpd, hsteps2,
      hord2 0 hxb.1 ⟨?_, ?_⟩⟩
    · intro i j a b hi0 hc hi hia hjb
      by_cases hj : j = idx
      · rw [hj] at hc hjb
        rw [hx] at hjb
        cases hjb
        have hidx : 0 < idx := lt_of_le_of_lt hi0 (isChild_lt hB hi0 hc)
        obtain ⟨hPc, _, _⟩ := getParentIndex_spec h hB hidx
        have hiP : i = h.getParentIndex idx := isChild_unique hB hc hPc
        rw [hiP] at hia
        exact not_lt.mp (hstay hmv hidx a hia)
      · exact e1 i j a b hc hi hj hia hjb
    · intro g c a b _ hg hc hga hcb
      exact e2 g c a b hg hc hga hcb

end DaryHeap

/-! ## The member functions preserve the invariants -/

namespace DaryHeap

set_option linter.unusedSectionVars false

variable {T : Type} [LinearOrder T]

theorem validFactor_pos {h : DaryHeap T} (hv : ValidFactor h) : 0 < h.branchingFactor := by
  have := hv.1
  unfold MIN_BRANCHING_FACTOR at this
  omega

theorem nodup_of_complete {h : DaryHeap T} (hc : IndexComplete h) : h.elements.Nodup := by
  rw [List.nodup_iff_getElem?_ne_getElem?]
  intro i j hij hj heq
  have hi : i < h.elements.length := by omega
  have h1 : getAt h.elements (i : Int) = some h.elements[i] := by
    rw [getAt_natCast]; exact List.getElem?_eq_getElem hi
  have h2 : getAt h.elements (j : Int) = some h.elements[i] := by
    rw [getAt_natCast, ← heq]; exact List.getElem?_eq_getElem hi
  have h3 := hc _ _ h1
  have h4 := hc _ _ h2
  rw [h3] at h4
  have := Option.some.inj h4
  omega

theorem contains_iff_mem {h : DaryHeap T} (hs : IndexSound h) (hc : IndexComplete h) (e : T) :
    h.contains e = true ↔ e ∈ h.elements := by
  unfold contains
  rw [Option.isSome_iff_exists, mem_iff_getAt]
  constructor
  · rintro ⟨i, hi⟩
    exact ⟨i, hs e i hi⟩
  · rintro ⟨i, hi⟩
    exact ⟨i, hc i e hi⟩

theorem swapSteps_inv {h h' : DaryHeap T} (s : SwapSteps h h') (hv : ValidFactor h)
    (hs : IndexSound h) (hk : IndexKeysUnique h)
    (ho : HeapOrderedFrom h.branchingFactor h'.elements 0) : HeapInv h' := by
  refine ⟨?_, ?_, swapSteps_sound s hs, swapSteps_keysUnique s hk⟩
  · unfold ValidFactor
    rw [swapSteps_factor_eq s]
    exact hv
  · rw [heapOrdered_iff, swapSteps_factor_eq s]
    exact ho

theorem swapAt_eq {xs : List T} {i j : Int} {a b : T}
    (hi : getAt xs i = some a) (hj : getAt xs j = some b) :
    swapAt xs i j = some ((xs.set i.toNat b).set j.toNat a) := by
  unfold swapAt
  rw [hi, hj]

theorem popBack_eq {xs : List T} (hne : xs ≠ []) : popBack xs = some xs.dropLast := by
  cases xs with
  | nil => exact absurd rfl hne
  | cons y t => rfl

theorem afterPop_elements (h : DaryHeap T) (idx : Int) (r l : T)
    (hr : getAt h.elements idx = some r)
    (hl : getAt h.elements ((h.elements.length : Int) - 1) = some l) :
    (afterPop h idx r l).branchingFactor = h.branchingFactor ∧
    ((afterPop h idx r l).elements.length : Int) = (h.elements.length : Int) - 1 ∧
    (∀ k, getAt (afterPop h idx r l).elements k =
      if k < (h.elements.length : Int) - 1 then
        (if k = idx then some l else getAt h.elements k) else none) ∧
    (r :: (afterPop h idx r l).elements).Perm h.elements := by
  have hb := getAt_bounds hr
  have hne : h.elements ≠ [] := by
    intro he
    rw [he] at hb
    simp at hb
    omega
  have hcast : ((h.elements.length : Int) - 1).toNat = h.elements.length - 1 := by omega
  by_cases hlast : idx ≠ (h.elements.length : Int) - 1
  · obtain ⟨ys, hys, hlen, hget, hperm⟩ := swapAt_spec hr hl
    rw [swapAt_eq hr hl, hcast] at hys
    have hys2 := (Option.some.inj hys).symm
    have hysne : ys ≠ [] := by
      intro he
      rw [he] at hlen
      exact hne (List.length_eq_zero.mp hlen.symm)
    obtain ⟨zs, hzs, hzlen, hzget, hzperm⟩ := popBack_spec hysne
    rw [popBack_eq hysne] at hzs
    have hzs2 := (Option.some.inj hzs).symm
    have hap : afterPop h idx r l =
        { h with elements := zs, positions := posErase (posSet h.positions l idx) r } := by
      unfold afterPop
      rw [if_pos hlast, hzs2, hys2]
    rw [hap]
    refine ⟨rfl, ?_, ?_, ?_⟩
    · show (zs.length : Int) = _
      rw [hzlen, hlen]
    · intro k
      show getAt zs k = _
      rw [hzget, hlen]
      by_cases hk : k < (h.elements.length : Int) - 1
      · rw [if_pos hk, if_pos hk, hget, if_neg (by omega)]
      · rw [if_neg hk, if_neg hk]
    · show (r :: zs).Perm _
      have hlastr : getAt ys ((ys.length : Int) - 1) = some r := by
        rw [hlen, hget, if_pos rfl]
      exact (hzperm r hlastr).trans hperm
  · have hidx : idx = (h.elements.length : Int) - 1 := not_not.mp hlast
    obtain ⟨zs, hzs, hzlen, hzget, hzperm⟩ := popBack_spec hne
    rw [popBack_eq hne] at hzs
    have hzs2 := (Option.some.inj hzs).symm
    have hap : afterPop h idx r l =
        { h with elements := zs, positions := posErase h.positions r } := by
      unfold afterPop
      rw [if_neg hlast, hzs2]
    rw [hap]
    refine ⟨rfl, hzlen, ?_, ?_⟩
    · intro k
      show getAt zs k = _
      rw [hzget]
      by_cases hk : k < (h.elements.length : Int) - 1
      · rw [if_pos hk, if_pos hk, if_neg (by omega)]
      · rw [if_neg hk, if_neg hk]
    · show (r :: zs).Perm _
      rw [hidx] at hr
      exact hzperm r hr

theorem afterPop_positions (h : DaryHeap T) (idx : Int) (r l : T) (x : T) :
    posFind (afterPop h idx r l).positions x =
      if r = x then none
      else if idx ≠ (h.elements.length : Int) - 1 ∧ l = x then some idx
      else posFind h.positions x := by
  unfold afterPop
  by_cases hlast : idx ≠ (h.elements.length : Int) - 1
  · rw [if_pos hlast]
    simp only [posFind_posErase, posFind_posSet]
    by_cases hrx : r = x
    · rw [if_pos hrx, if_pos hrx]
    · rw [if_neg hrx, if_neg hrx]
      by_cases hlx : l = x
      · rw [if_pos hlx, if_pos ⟨hlast, hlx⟩]
      · rw [if_neg hlx, if_neg (fun hh => hlx hh.2)]
  · rw [if_neg hlast]
    simp only [posFind_posErase]
    by_cases hrx : r = x
    · rw [if_pos hrx, if_pos hrx]
    · rw [if_neg hrx, if_neg hrx, if_neg (fun hh => hlast hh.1)]

theorem afterPop_keysUnique (h : DaryHeap T) (idx : Int) (r l : T)
    (hk : IndexKeysUnique h) : IndexKeysUnique (afterPop h idx r l) := by
  unfold afterPop
  split_ifs
  · exact posErase_nodup (posSet_nodup hk l idx) r
  · exact posErase_nodup hk r

theorem afterPop_sound (h : DaryHeap T) (idx : Int) (r l : T)
    (hr : getAt h.elements idx = some r)
    (hl : getAt h.elements ((h.elements.length : Int) - 1) = some l)
    (hs : IndexSound h) : IndexSound (afterPop h idx r l) := by
  obtain ⟨_, _, hget, _⟩ := afterPop_elements h idx r l hr hl
  have hb := getAt_bounds hr
  intro x k hk
  rw [afterPop_positions] at hk
  rw [hget]
  by_cases hrx : r = x
  · rw [if_pos hrx] at hk
    cases hk
  · rw [if_neg hrx] at hk
    by_cases hc : idx ≠ (h.elements.length : Int) - 1 ∧ l = x
    · rw [if_pos hc] at hk
      cases hk
      rw [if_pos (by omega), if_pos rfl, hc.2]
    · rw [if_neg hc] at hk
      have hkx := hs x k hk
      have hkb := getAt_bounds hkx
      have hki : k ≠ idx := by
        intro he
        rw [he, hr] at hkx
        exact hrx (Option.some.inj hkx)
      have hkl : k < (h.elements.length : Int) - 1 := by
        by_contra hge
        have hke : k = (h.elements.length : Int) - 1 := by omega
        rw [hke, hl] at hkx
        have hlx := Option.some.inj hkx
        exact hc ⟨by omega, hlx⟩
      rw [if_pos hkl, if_neg hki]
      exact hkx

theorem afterPop_complete (h : DaryHeap T) (idx : Int) (r l : T)
    (hr : getAt h.elements idx = some r)
    (hl : getAt h.elements ((h.elements.length : Int) - 1) = some l)
    (hc : IndexComplete h) : IndexComplete (afterPop h idx r l) := by
  obtain ⟨_, _, hget, _⟩ := afterPop_elements h idx r l hr hl
  have hb := getAt_bounds hr
  have hpr := hc idx r hr
  have hpl := hc _ l hl
  intro k x hk
  rw [hget] at hk
  rw [afterPop_positions]
  by_cases hkl : k < (h.elements.length : Int) - 1
  · rw [if_pos hkl] at hk
    by_cases hki : k = idx
    · rw [if_pos hki] at hk
      cases hk
      have hrl : r ≠ l := by
        intro he
        rw [he, hpl] at hpr
        have := Option.some.inj hpr
        omega
      rw [if_neg hrl, if_pos ⟨by omega, rfl⟩, hki]
    · rw [if_neg hki] at hk
      have hpx := hc k x hk
      have hrx : r ≠ x := by
        intro he
        rw [he, hpx] at hpr
        exact hki (Option.some.inj hpr)
      have hlx : l ≠ x := by
        intro he
        rw [he, hpx] at hpl
        have := Option.some.inj hpl
        omega
      rw [if_neg hrx, if_neg (fun hh => hlx hh.2)]
      exact hpx
  · rw [if_neg hkl] at hk
    cases hk

theorem removeAt_unfold (h : DaryHeap T) (idx : Int) (r l : T)
    (hr : getAt h.elements idx = some r)
    (hl : getAt h.elements ((h.elements.length : Int) - 1) = some l) :
    h.removeAtIndexUnlocked idx =
      if idx < ((afterPop h idx r l).elements.length : Int) then
        match (afterPop h idx r l).bubbleUp idx with
        | none => none
        | some (h3, moved) => if !moved then h3.pushDown idx else some h3
      else some (afterPop h idx r l) := by
  have hb := getAt_bounds hr
  have hne : h.elements ≠ [] := by
    intro he
    rw [he] at hb
    simp at hb
    omega
  by_cases hlast : idx ≠ (h.elements.length : Int) - 1
  · obtain ⟨ys, hys, hlen, hget, _⟩ := swapAt_spec hr hl
    have hys2 : ys = (h.elements.set idx.toNat l).set (h.elements.length - 1) r := by
      have : swapAt h.elements idx ((h.elements.length : Int) - 1) =
          some ((h.elements.set idx.toNat l).set ((h.elements.length : Int) - 1).toNat r) := by
        unfold swapAt
        rw [hr, hl]
      rw [this] at hys
      have h2 : ((h.elements.length : Int) - 1).toNat = h.elements.length - 1 := by omega
      rw [h2] at hys
      exact (Option.some.inj hys).symm
    have hidx : getAt ys idx = some l := by
      rw [hget, if_neg hlast, if_pos rfl]
    have hysne : ys ≠ [] := by
      intro he
      rw [he] at hlen
      exact hne (List.length_eq_zero.mp hlen.symm)
    have hpop : popBack ys = some ys.dropLast := by
      cases ys with
      | nil => exact absurd rfl hysne
      | cons y t => rfl
    unfold removeAtIndexUnlocked afterPop
    simp only [hr, hlast, if_true, ne_eq, not_false_eq_true, hys, hidx, hpop]
    rw [hys2]
  · have hpop : popBack h.elements = some h.elements.dropLast := by
      cases hh : h.elements with
      | nil => exact absurd hh hne
      | cons y t => rfl
    unfold removeAtIndexUnlocked afterPop
    simp only [hr, hlast, if_false, hpop]

theorem removeAt_spec (h : DaryHeap T) (idx : Int) (r : T) (hinv : HeapInv h)
    (hr : getAt h.elements idx = some r) :
    ∃ h', h.removeAtIndexUnlocked idx = some h' ∧ HeapInv h' ∧
      h'.branchingFactor = h.branchingFactor ∧
      (r :: h'.elements).Perm h.elements ∧
      (h'.elements.length : Int) = (h.elements.length : Int) - 1 ∧
      (IndexComplete h → IndexComplete h') := by
  obtain ⟨hv, ho, hs, hk⟩ := hinv
  have hB := validFactor_pos hv
  have hb := getAt_bounds hr
  obtain ⟨l, hl⟩ := @getAt_of_bounds T h.elements _
    (by omega : 0 ≤ (h.elements.length : Int) - 1) (by omega)
  obtain ⟨hfac, hlen, hget, hperm⟩ := afterPop_elements h idx r l hr hl
  have hs2 := afterPop_sound h idx r l hr hl hs
  have hk2 := afterPop_keysUnique h idx r l hk
  have hv2 : ValidFactor (afterPop h idx r l) := by
    unfold ValidFactor
    rw [hfac]
    exact hv
  have ho1 := (heapOrdered_iff h).mp ho
  rw [removeAt_unfold h idx r l hr hl]
  by_cases hlt : idx < ((afterPop h idx r l).elements.length : Int)
  · rw [if_pos hlt]
    have hx : getAt (afterPop h idx r l).elements idx = some l := by
      rw [hget, if_pos (by omega), if_pos rfl]
    have hsame : ∀ k v, k ≠ idx → getAt (afterPop h idx r l).elements k = some v →
        getAt h.elements k = some v := by
      intro k v hki hkv
      rw [hget] at hkv
      by_cases hkl : k < (h.elements.length : Int) - 1
      · rw [if_pos hkl, if_neg hki] at hkv
        exact hkv
      · rw [if_neg hkl] at hkv
        cases hkv
    obtain ⟨e1, e2⟩ := orderedExcept_of_overwrite hB ho1 hr hsame
    rw [← hfac] at e1 e2
    obtain ⟨h1, moved, h3, hbu, hfix, hsteps, hord⟩ :=
      restore_spec (afterPop h idx r l) idx l (by rw [hfac]; exact hB) hx e1 e2
    refine ⟨h3, ?_, swapSteps_inv hsteps hv2 hs2 hk2 hord, by rw [swapSteps_factor_eq hsteps, hfac],
      ?_, ?_, ?_⟩
    · rw [hbu]
      exact hfix
    · exact ((swapSteps_perm hsteps).cons r).trans hperm
    · rw [swapSteps_length_eq hsteps]
      exact hlen
    · intro hc
      exact swapSteps_complete hsteps (afterPop_complete h idx r l hr hl hc)
  · rw [if_neg hlt]
    refine ⟨afterPop h idx r l, rfl, ⟨hv2, ?_, hs2, hk2⟩, hfac, hperm, hlen, ?_⟩
    · rw [heapOrdered_iff, hfac]
      intro i j a b hi0 hc hi hj
      rw [hget] at hi hj
      by_cases hil : i < (h.elements.length : Int) - 1
      · by_cases hjl : j < (h.elements.length : Int) - 1
        · rw [if_pos hil, if_neg (by omega)] at hi
          rw [if_pos hjl, if_neg (by omega)] at hj
          exact ho1 i j a b hi0 hc hi hj
        · rw [if_neg hjl] at hj
          cases hj
      · rw [if_neg hil] at hi
        cases hi
    · intro hc
      exact afterPop_complete h idx r l hr hl hc

theorem add_present (h : DaryHeap T) (e : T) (hp : (posFind h.positions e).isSome = true) :
    h.add e = some (h, false) := by
  unfold add
  rw [if_pos hp]

theorem add_absent_spec (h : DaryHeap T) (e : T) (hinv : HeapInv h)
    (habs : posFind h.positions e = none) :
    ∃ h', h.add e = some (h', true) ∧ HeapInv h' ∧
      h'.branchingFactor = h.branchingFactor ∧ h'.elements.Perm (e :: h.elements) ∧
      (IndexComplete h → IndexComplete h') := by
  obtain ⟨hv, ho, hs, hk⟩ := hinv
  have hB := validFactor_pos hv
  have ho1 := (heapOrdered_iff h).mp ho
  have hidx : ((h.elements ++ [e]).length : Int) - 1 = (h.elements.length : Int) := by
    simp
  have hx : getAt (h.elements ++ [e]) (h.elements.length : Int) = some e := by
    rw [getAt_append_singleton, if_pos rfl]
  have hold : ∀ k v, k ≠ (h.elements.length : Int) → getAt (h.elements ++ [e]) k = some v →
      getAt h.elements k = some v := by
    intro k v hk hkv
    rw [getAt_append_singleton, if_neg hk] at hkv
    exact hkv
  have hready : BubbleReady h.branchingFactor (h.elements ++ [e]) (h.elements.length : Int) := by
    constructor
    · intro i j a b hc hj hia hjb
      have hi0 := (getAt_bounds hia).1
      have hij := isChild_lt hB hi0 hc
      have hjb2 := hold j b hj hjb
      have := (getAt_bounds hjb2).2
      exact ho1 i j a b hi0 hc (hold i a (by omega) hia) hjb2
    · intro g c a b _ hc _ hcb
      have := isChild_lt hB (by omega) hc
      have h2 := (getAt_bounds hcb).2
      simp only [List.length_append, List.length_singleton, Nat.cast_add, Nat.cast_one] at h2
      omega
  obtain ⟨h', moved, hbu, hsteps, hord, _, _, _⟩ :=
    bubbleUp_spec
      ({ h with elements := h.elements ++ [e],
                positions := posSet h.positions e (h.elements.length : Int) } : DaryHeap T)
      (h.elements.length : Int) e hB hx
  have hs1 : IndexSound
      ({ h with elements := h.elements ++ [e],
                positions := posSet h.positions e (h.elements.length : Int) } : DaryHeap T) := by
    intro x k hk
    simp only [posFind_posSet] at hk
    show getAt (h.elements ++ [e]) k = some x
    by_cases hex : e = x
    · rw [if_pos hex] at hk
      cases hk
      rw [← hex]
      exact hx
    · rw [if_neg hex] at hk
      have hkx := hs x k hk
      have := (getAt_bounds hkx).2
      rw [getAt_append_singleton, if_neg (by omega)]
      exact hkx
  refine ⟨h', ?_, swapSteps_inv hsteps hv hs1 (posSet_nodup hk e _) (hord hready),
    (swapSteps_factor_eq hsteps : _ = _), ?_, ?_⟩
  · unfold add
    rw [habs]
    simp only [Option.isSome_none, Bool.false_eq_true, if_false, hidx, hbu]
  · exact (swapSteps_perm hsteps).trans (by simp)
  · intro hc
    apply swapSteps_complete hsteps
    intro k x hk
    change getAt (h.elements ++ [e]) k = some x at hk
    show posFind (posSet h.positions e (h.elements.length : Int)) x = some k
    rw [posFind_posSet]
    rw [getAt_append_singleton] at hk
    by_cases hkn : k = (h.elements.length : Int)
    · rw [if_pos hkn] at hk
      cases hk
      rw [if_pos rfl, hkn]
    · rw [if_neg hkn] at hk
      have hpx := hc k x hk
      have hex : e ≠ x := by
        intro he
        rw [he, hpx] at habs
        cases habs
      rw [if_neg hex]
      exact hpx

theorem updatePriority_absent (h : DaryHeap T) (oldE newE : T)
    (habs : posFind h.positions oldE = none) :
    h.updatePriority oldE newE = some (h, false) := by
  unfold updatePriority
  rw [habs]

theorem updatePriority_present_spec (h : DaryHeap T) (oldE newE : T) (idx : Int)
    (hinv : HeapInv h) (hf : posFind h.positions oldE = some idx) :
    ∃ h', h.updatePriority oldE newE = some (h', true) ∧ HeapInv h' ∧
      h'.branchingFactor = h.branchingFactor ∧
      (oldE :: h'.elements).Perm (newE :: h.elements) ∧
      (IndexComplete h → (newE ∈ h.elements → newE = oldE) → IndexComplete h') := by
  obtain ⟨hv, ho, hs, hk⟩ := hinv
  have hB := validFactor_pos hv
  have ho1 := (heapOrdered_iff h).mp ho
  have hr : getAt h.elements idx = some oldE := hs oldE idx hf
  obtain ⟨els1, hset, hlen, hget⟩ := setAt_spec newE hr
  have hx : getAt els1 idx = some newE := by rw [hget, if_pos rfl]
  have hsame : ∀ k v, k ≠ idx → getAt els1 k = some v → getAt h.elements k = some v := by
    intro k v hki hkv
    rw [hget, if_neg hki] at hkv
    exact hkv
  obtain ⟨e1, e2⟩ := orderedExcept_of_overwrite hB ho1 hr hsame
  obtain ⟨h1, moved, h3, hbu, hfix, hsteps, hord⟩ :=
    restore_spec
      ({ h with elements := els1,
                positions := posSet (posErase h.positions oldE) newE idx } : DaryHeap T)
      idx newE hB hx e1 e2
  have hs1 : IndexSound
      ({ h with elements := els1,
                positions := posSet (posErase h.positions oldE) newE idx } : DaryHeap T) := by
    intro x k hk
    simp only [posFind_posSet, posFind_posErase] at hk
    show getAt els1 k = some x
    by_cases hnx : newE = x
    · rw [if_pos hnx] at hk
      cases hk
      rw [← hnx]
      exact hx
    · rw [if_neg hnx] at hk
      by_cases hox : oldE = x
      · rw [if_pos hox] at hk
        cases hk
      · rw [if_neg hox] at hk
        have hkx := hs x k hk
        have hki : k ≠ idx := by
          intro he
          rw [he, hr] at hkx
          exact hox (Option.some.inj hkx)
        rw [hget, if_neg hki]
        exact hkx
  have hperm1 : (oldE :: els1).Perm (newE :: h.elements) := by
    have h1 : setAt h.elements idx newE = some (h.elements.set idx.toNat newE) := by
      unfold setAt
      rw [hr]
    rw [h1] at hset
    rw [← Option.some.inj hset]
    exact perm_cons_set ((getAt_eq_some_iff _ _ _).mp hr).2
  refine ⟨h3, ?_, swapSteps_inv hsteps hv hs1 (posSet_nodup (posErase_nodup hk _) _ _) hord,
    (swapSteps_factor_eq hsteps : _ = _), ?_, ?_⟩
  · unfold updatePriority
    simp only [hf, hset, hbu]
    cases hmv : moved with
    | true =>
      rw [hmv] at hfix
      simp only [Bool.not_true, Bool.false_eq_true, if_false, Option.some.injEq] at hfix ⊢
      rw [hfix]
    | false =>
      rw [hmv] at hfix
      simp only [Bool.not_false, if_true] at hfix ⊢
      rw [hfix]
  · exact ((swapSteps_perm hsteps).cons oldE).trans hperm1
  · intro hc hpre
    apply swapSteps_complete hsteps
    intro k x hk
    change getAt els1 k = some x at hk
    show posFind (posSet (posErase h.positions oldE) newE idx) x = some k
    simp only [posFind_posSet, posFind_posErase]
    rw [hget] at hk
    by_cases hki : k = idx
    · rw [if_pos hki] at hk
      cases hk
      rw [if_pos rfl, hki]
    · rw [if_neg hki] at hk
      have hpx := hc k x hk
      have hox : oldE ≠ x := by
        intro he
        rw [he, hpx] at hf
        exact hki (Option.some.inj hf)
      have hnx : newE ≠ x := by
        intro he
        have hmem : newE ∈ h.elements := (mem_iff_getAt _ _).mpr ⟨k, by rw [he]; exact hk⟩
        exact hox ((hpre hmem).symm.trans he)
      rw [if_neg hnx, if_neg hox]
      exact hpx

end DaryHeap

/-! ## `checkHeapInvariants` decides heap order; call sequences keep the invariant -/

namespace DaryHeap

set_option linter.unusedSectionVars false

variable {T : Type} [LinearOrder T]

theorem checkChildren_true_iff (els : List T) (i : Int) (p : T) (hp : getAt els i = some p) :
    ∀ js : List Int, (∀ j ∈ js, ∃ c, getAt els j = some c) →
      (checkChildren els i js = some true ↔
        ∀ j ∈ js, ∀ c, getAt els j = some c → ¬ c < p) := by
  intro js
  induction js with
  | nil => intro _; simp [checkChildren]
  | cons j js ih =>
    intro hval
    obtain ⟨c, hc⟩ := hval j (List.mem_cons_self _ _)
    have ih2 := ih (fun k hk => hval k (List.mem_cons_of_mem _ hk))
    simp only [checkChildren, hc, hp]
    by_cases hlt : c < p
    · rw [if_pos hlt]
      constructor
      · intro hf; cases hf
      · intro hall
        exact absurd hlt (hall j (List.mem_cons_self _ _) c hc)
    · rw [if_neg hlt, ih2]
      constructor
      · intro hall k hk c2 hc2
        rcases List.mem_cons.mp hk with hk | hk
        · rw [hk, hc] at hc2
          cases hc2
          exact hlt
        · exact hall k hk c2 hc2
      · intro hall k hk c2 hc2
        exact hall k (List.mem_cons_of_mem _ hk) c2 hc2

theorem checkChildren_total (els : List T) (i : Int) (p : T) (hp : getAt els i = some p) :
    ∀ js : List Int, (∀ j ∈ js, ∃ c, getAt els j = some c) →
      ∃ r, checkChildren els i js = some r := by
  intro js
  induction js with
  | nil => intro _; exact ⟨true, rfl⟩
  | cons j js ih =>
    intro hval
    obtain ⟨c, hc⟩ := hval j (List.mem_cons_self _ _)
    simp only [checkChildren, hc, hp]
    split_ifs
    · exact ⟨false, rfl⟩
    · exact ih (fun k hk => hval k (List.mem_cons_of_mem _ hk))

theorem checkLoop_true_iff (h : DaryHeap T) (n : Int) :
    ∀ is : List Int,
      (∀ i ∈ is, ∃ r, checkChildren h.elements i
        (intRange (h.getFirstChildIndex i) (min (h.getFirstChildIndex (i + 1)) n)) = some r) →
      (checkLoop h n is = some true ↔
        ∀ i ∈ is, checkChildren h.elements i
          (intRange (h.getFirstChildIndex i) (min (h.getFirstChildIndex (i + 1)) n)) =
            some true) := by
  intro is
  induction is with
  | nil => intro _; simp [checkLoop]
  | cons i is ih =>
    intro hval
    obtain ⟨r, hr⟩ := hval i (List.mem_cons_self _ _)
    have ih2 := ih (fun k hk => hval k (List.mem_cons_of_mem _ hk))
    cases r with
    | false =>
      simp only [checkLoop, hr]
      constructor
      · intro hf; cases hf
      · intro hall
        have := hall i (List.mem_cons_self _ _)
        rw [hr] at this
        cases this
    | true =>
      simp only [checkLoop, hr]
      rw [ih2]
      constructor
      · intro hall k hk
        rcases List.mem_cons.mp hk with hk | hk
        · rw [hk]; exact hr
        · exact hall k hk
      · intro hall k hk
        exact hall k (List.mem_cons_of_mem _ hk)

/-- The member `checkHeapInvariants()` returns true exactly on the heap-ordered states. -/
theorem checkHeapInvariants_iff (h : DaryHeap T) (hB : 0 < h.branchingFactor) :
    h.checkHeapInvariants = some true ↔ HeapOrdered h := by
  have hfc : ∀ i : Int, h.getFirstChildIndex i = h.branchingFactor * i + 1 := fun _ => rfl
  have hvalid : ∀ i ∈ intRange 0 (h.elements.length : Int),
      ∀ j ∈ intRange (h.getFirstChildIndex i)
        (min (h.getFirstChildIndex (i + 1)) (h.elements.length : Int)),
      ∃ c, getAt h.elements j = some c := by
    intro i hi j hj
    rw [mem_intRange] at hi hj
    rw [hfc] at hj
    have : 0 ≤ h.branchingFactor * i := mul_nonneg (le_of_lt hB) hi.1
    exact getAt_of_bounds (by omega) (by omega)
  have hparent : ∀ i ∈ intRange 0 (h.elements.length : Int), ∃ p, getAt h.elements i = some p := by
    intro i hi
    rw [mem_intRange] at hi
    exact getAt_of_bounds hi.1 hi.2
  unfold checkHeapInvariants
  rw [checkLoop_true_iff h _ _ (by
    intro i hi
    obtain ⟨p, hp⟩ := hparent i hi
    exact checkChildren_total h.elements i p hp _ (hvalid i hi))]
  constructor
  · intro hall i j a b h1 h2 hia hjb
    have hib := getAt_bounds hia
    have hi : i ∈ intRange 0 (h.elements.length : Int) := by
      rw [mem_intRange]; exact hib
    have hc := (checkChildren_true_iff h.elements i a hia _ (hvalid i hi)).mp (hall i hi)
    refine hc j ?_ b hjb
    rw [mem_intRange, hfc, hfc]
    have h3 : h.size = (h.elements.length : Int) := rfl
    rw [h3] at h2
    have h4 : h.branchingFactor * (i + 1) + 1 = h.branchingFactor * i + 1 + h.branchingFactor := by
      ring
    rw [h4]
    exact ⟨h1, h2⟩
  · intro ho i hi
    obtain ⟨p, hp⟩ := hparent i hi
    rw [checkChildren_true_iff h.elements i p hp _ (hvalid i hi)]
    intro j hj c hc
    rw [mem_intRange, hfc, hfc] at hj
    have h4 : h.branchingFactor * (i + 1) + 1 = h.branchingFactor * i + 1 + h.branchingFactor := by
      ring
    rw [h4] at hj
    exact ho i j p c hj.1 hj.2 hp hc

theorem create_spec (B : Int) (h1 : 2 ≤ B) (h2 : B ≤ 10) :
    (create B : Except HeapFailure (DaryHeap T)) =
      .ok { branchingFactor := B, elements := [], positions := [] } ∧
    HeapIndexed ({ branchingFactor := B, elements := [], positions := [] } : DaryHeap T) := by
  constructor
  · unfold create MIN_BRANCHING_FACTOR MAX_BRANCHING_FACTOR
    rw [if_neg (by omega)]
  · refine ⟨⟨⟨h1, h2⟩, ?_, ?_, ?_⟩, ?_⟩
    · intro i j a b _ _ hi _
      simp [getAt] at hi
    · intro e i hi
      simp [posFind] at hi
    · exact List.nodup_nil
    · intro i e hi
      simp [getAt] at hi

theorem step_inv (h : DaryHeap T) (op : HeapOp T) (hinv : HeapInv h) :
    ∃ h1, h.step op = some h1 ∧ HeapInv h1 ∧ h1.branchingFactor = h.branchingFactor ∧
      (IndexComplete h → h.opPre op = true → IndexComplete h1) := by
  cases op with
  | add e =>
    cases hf : posFind h.positions e with
    | none =>
      obtain ⟨h', hadd, hinv', hfac, _, hcomp⟩ := add_absent_spec h e hinv hf
      exact ⟨h', by simp only [step, hadd, Option.map_some'], hinv', hfac,
        fun hc _ => hcomp hc⟩
    | some i =>
      have hadd := add_present h e (by rw [hf]; rfl)
      exact ⟨h, by simp only [step, hadd, Option.map_some'], hinv, rfl, fun hc _ => hc⟩
  | remove e =>
    cases hf : posFind h.positions e with
    | none =>
      exact ⟨h, by simp only [step, remove, hf, Option.map_some'], hinv, rfl,
        fun hc _ => hc⟩
    | some i =>
      obtain ⟨h', hrem, hinv', hfac, _, _, hcomp⟩ :=
        removeAt_spec h i e hinv (hinv.2.2.1 e i hf)
      exact ⟨h', by simp only [step, remove, hf, hrem, Option.map_some'], hinv', hfac,
        fun hc _ => hcomp hc⟩
  | top =>
    cases hel : h.elements with
    | nil =>
      exact ⟨h, by simp only [step, top, hel, Option.map_some'], hinv, rfl, fun hc _ => hc⟩
    | cons m t =>
      have hm : getAt h.elements 0 = some m := by
        rw [hel]; simp [getAt]
      obtain ⟨h', hrem, hinv', hfac, _, _, hcomp⟩ := removeAt_spec h 0 m hinv hm
      exact ⟨h', by simp only [step, top, hel, hrem, Option.map_some'], hinv', hfac,
        fun hc _ => hcomp hc⟩
  | updatePriority oldE newE =>
    cases hf : posFind h.positions oldE with
    | none =>
      have hup := updatePriority_absent h oldE newE hf
      exact ⟨h, by simp only [step, hup, Option.map_some'], hinv, rfl, fun hc _ => hc⟩
    | some i =>
      obtain ⟨h', hup, hinv', hfac, _, hcomp⟩ :=
        updatePriority_present_spec h oldE newE i hinv hf
      refine ⟨h', by simp only [step, hup, Option.map_some'], hinv', hfac, fun hc hpre => ?_⟩
      apply hcomp hc
      simp only [opPre, decide_eq_true_eq] at hpre
      exact hpre

theorem run_inv (ops : List (HeapOp T)) : ∀ (h : DaryHeap T), HeapInv h →
    ∃ h', h.run ops = some h' ∧ HeapInv h' ∧ h'.branchingFactor = h.branchingFactor ∧
      (IndexComplete h → h.admissible ops = true → IndexComplete h') := by
  induction ops with
  | nil => intro h hinv; exact ⟨h, rfl, hinv, rfl, fun hc _ => hc⟩
  | cons op ops ih =>
    intro h hinv
    obtain ⟨h1, hstep, hinv1, hfac1, hcomp1⟩ := step_inv h op hinv
    obtain ⟨h', hrun, hinv', hfac', hcomp'⟩ := ih h1 hinv1
    refine ⟨h', by simp only [run, hstep]; exact hrun, hinv', by rw [hfac', hfac1],
      fun hc hadm => ?_⟩
    simp only [admissible, hstep, Bool.and_eq_true] at hadm
    exact hcomp' (hcomp1 hc hadm.1) hadm.2

theorem heapIndexed_of_run (B : Int) (hlo : 2 ≤ B) (hhi : B ≤ 10) (ops : List (HeapOp T))
    (h : DaryHeap T)
    (hrun : ({ branchingFactor := B, elements := [], positions := [] } : DaryHeap T).run ops =
      some h)
    (hadm : ({ branchingFactor := B, elements := [], positions := [] } : DaryHeap T).admissible
      ops = true) : HeapIndexed h := by
  obtain ⟨_, hidx⟩ := create_spec (T := T) B hlo hhi
  obtain ⟨h', hrun', hinv, _, hcomp⟩ := run_inv ops _ hidx.1
  rw [hrun] at hrun'
  cases hrun'
  exact ⟨hinv, hcomp hidx.2 hadm⟩

theorem index_entry_iff {h : DaryHeap T} (hi : HeapIndexed h) (e : T) (i : Int) :
    (e, i) ∈ h.positions ↔ getAt h.elements i = some e := by
  rw [← posFind_eq_some_iff_mem hi.1.2.2.2]
  exact ⟨fun hf => hi.1.2.2.1 e i hf, fun hg => hi.2 i e hg⟩

theorem index_keys_perm {h : DaryHeap T} (hi : HeapIndexed h) :
    (h.positions.map Prod.fst).Perm h.elements := by
  rw [List.perm_ext_iff_of_nodup hi.1.2.2.2 (nodup_of_complete hi.2)]
  intro e
  constructor
  · intro hm
    obtain ⟨p, hp, hpe⟩ := List.mem_map.mp hm
    obtain ⟨k, i⟩ := p
    simp only at hpe
    rw [hpe] at hp
    exact (mem_iff_getAt _ _).mpr ⟨i, (index_entry_iff hi e i).mp hp⟩
  · intro hm
    obtain ⟨i, hg⟩ := (mem_iff_getAt _ _).mp hm
    exact List.mem_map.mpr ⟨(e, i), (index_entry_iff hi e i).mpr hg, rfl⟩

theorem not_contains_of_not_mem {h : DaryHeap T} (hs : IndexSound h) {e : T}
    (hn : e ∉ h.elements) : h.contains e = false := by
  unfold contains
  cases hf : posFind h.positions e with
  | none => rfl
  | some i => exact absurd ((mem_iff_getAt _ _).mpr ⟨i, hs e i hf⟩) hn

end DaryHeap

/-! ## `heapify` and the constructor from a vector -/

namespace DaryHeap

set_option linter.unusedSectionVars false

variable {T : Type} [LinearOrder T]

/-- The start slot of `heapify` for a non-empty array of `n` elements: a valid slot after
which no slot has a child. -/
theorem heapify_start_spec {B n : Int} (hB : 2 ≤ B) (hn : 1 ≤ n) :
    0 ≤ Int.tdiv (n - 1 - 1) B ∧ Int.tdiv (n - 1 - 1) B < n ∧
      n - 1 < B * (Int.tdiv (n - 1 - 1) B + 1) + 1 := by
  by_cases h1 : n = 1
  · have h0 : Int.tdiv (n - 1 - 1) B = 0 := by
      rw [h1]
      show Int.tdiv (-1) B = 0
      rw [Int.neg_tdiv, Int.tdiv_eq_zero_of_lt (by omega) (by omega)]
      rfl
    rw [h0]
    omega
  · have h2 : Int.tdiv (n - 1 - 1) B = (n - 1 - 1) / B :=
      Int.tdiv_eq_ediv (by omega) (by omega)
    rw [h2]
    have h3 := Int.ediv_add_emod (n - 1 - 1) B
    have h4 := Int.emod_nonneg (n - 1 - 1) (by omega : B ≠ 0)
    have h5 := Int.emod_lt_of_pos (n - 1 - 1) (by omega : 0 < B)
    have h6 : 0 ≤ (n - 1 - 1) / B := Int.ediv_nonneg (by omega) (by omega)
    have h7 : (n - 1 - 1) / B ≤ B * ((n - 1 - 1) / B) := by nlinarith
    refine ⟨h6, by omega, ?_⟩
    have h8 : B * ((n - 1 - 1) / B + 1) = B * ((n - 1 - 1) / B) + B := by ring
    rw [h8]
    omega

theorem heapifyLoop_spec (fuel : Nat) : ∀ (h : DaryHeap T) (i : Int),
    0 < h.branchingFactor → i < (h.elements.length : Int) → (i + 1).toNat < fuel →
    HeapOrderedFrom h.branchingFactor h.elements (i + 1) →
    ∃ h', heapifyLoop fuel h i = some h' ∧ SwapSteps h h' ∧
      HeapOrderedFrom h.branchingFactor h'.elements 0 := by
  induction fuel with
  | zero => intro h i _ _ hf _; omega
  | succ fuel ih =>
    intro h i hB hi hf ho
    by_cases hi0 : i ≥ 0
    · obtain ⟨x, hx⟩ := @getAt_of_bounds T h.elements i hi0 hi
      obtain ⟨h1, hpd, hsteps, hord⟩ := pushDown_spec h i x hB hx
      have hready : PushReady h.branchingFactor h.elements i i := by
        constructor
        · intro a b va vb hia hc hne hga hgb
          exact ho a b va vb (by omega) hc hga hgb
        · intro g c va vb hig hg _ _ _
          have := isChild_lt hB (by omega) hg
          omega
      have ho1 := hord i (le_refl _) hready
      have hfac := swapSteps_factor_eq hsteps
      have hlen := swapSteps_length_eq hsteps
      obtain ⟨h', hres, hsteps', hord'⟩ := ih h1 (i - 1) (by rw [hfac]; exact hB)
        (by rw [hlen]; omega) (by omega) (by
          rw [hfac]
          have : i - 1 + 1 = i := by ring
          rw [this]
          exact ho1)
      refine ⟨h', ?_, swapSteps_trans hsteps hsteps', by rw [← hfac]; exact hord'⟩
      simp only [heapifyLoop, if_pos hi0, hpd]
      exact hres
    · refine ⟨h, by simp only [heapifyLoop, if_neg hi0], Relation.ReflTransGen.refl, ?_⟩
      intro a b va vb _ hc hga hgb
      have := (getAt_bounds hga).1
      exact ho a b va vb (by omega) hc hga hgb

theorem heapify_spec (h : DaryHeap T) (hB : 2 ≤ h.branchingFactor) (hne : h.elements ≠ []) :
    ∃ h', h.heapify = some h' ∧ SwapSteps h h' ∧
      HeapOrderedFrom h.branchingFactor h'.elements 0 := by
  have hn : 1 ≤ (h.elements.length : Int) := by
    have := List.length_pos.mpr hne
    omega
  obtain ⟨s0, s1, s2⟩ := heapify_start_spec hB hn
  have hstart : h.getParentIndex ((h.elements.length : Int) - 1) =
      Int.tdiv ((h.elements.length : Int) - 1 - 1) h.branchingFactor := rfl
  have hres := heapifyLoop_spec
    ((h.getParentIndex ((h.elements.length : Int) - 1) + 1).toNat + 1) h
    (h.getParentIndex ((h.elements.length : Int) - 1)) (by omega)
    (by rw [hstart]; exact s1) (by omega) (by
      rw [hstart]
      intro a b va vb hia hc _ hgb
      have hb := (getAt_bounds hgb).2
      have h1 := hc.1
      have h2 : h.branchingFactor * (Int.tdiv ((h.elements.length : Int) - 1 - 1)
          h.branchingFactor + 1) ≤ h.branchingFactor * a :=
        mul_le_mul_of_nonneg_left hia (by omega)
      omega)
  exact hres

theorem fromVector_spec (xs : List T) (B : Int) (hlo : 2 ≤ B) (hhi : B ≤ 10) (hne : xs ≠ []) :
    ∃ h : DaryHeap T, fromVector xs B = .ok h ∧ h.branchingFactor = B ∧
      h.elements.Perm xs ∧ HeapOrdered h := by
  obtain ⟨h', hh, hsteps, hord⟩ :=
    heapify_spec
      ({ branchingFactor := B, elements := xs, positions := indexLoop xs 0 [] } : DaryHeap T)
      hlo hne
  have hfac : h'.branchingFactor = B := swapSteps_factor_eq hsteps
  refine ⟨h', ?_, hfac, swapSteps_perm hsteps, ?_⟩
  · unfold fromVector MIN_BRANCHING_FACTOR MAX_BRANCHING_FACTOR
    rw [if_neg (by omega)]
    simp only [hh]
  · rw [heapOrdered_iff, hfac]
    exact hord

end DaryHeap

/-! ## The index after construction from a vector and after a violated precondition -/

namespace DaryHeap

set_option linter.unusedSectionVars false

variable {T : Type} [LinearOrder T]

/-- A sound index of an empty element array is empty. -/
theorem positions_eq_nil_of_empty {h : DaryHeap T} (hs : IndexSound h)
    (he : h.elements = []) : h.positions = [] := by
  cases hp : h.positions with
  | nil => rfl
  | cons p m =>
    obtain ⟨e, i⟩ := p
    have hf : posFind h.positions e = some i := by
      rw [hp]
      simp [posFind]
    have hg := hs e i hf
    rw [he] at hg
    simp [getAt] at hg

theorem getAt_inj_of_nodup {xs : List T} (hnd : xs.Nodup) {i j : Int} {a : T}
    (hi : getAt xs i = some a) (hj : getAt xs j = some a) : i = j := by
  rw [getAt_eq_some_iff] at hi hj
  obtain ⟨hi0, hi1⟩ := hi
  obtain ⟨hj0, hj1⟩ := hj
  obtain ⟨hil, hie⟩ := List.getElem?_eq_some_iff.mp hi1
  obtain ⟨hjl, hje⟩ := List.getElem?_eq_some_iff.mp hj1
  have := (List.Nodup.getElem_inj_iff hnd).mp (hie.trans hje.symm)
  omega

theorem getAt_append_cons_length (pre es : List T) (e0 : T) :
    getAt (pre ++ e0 :: es) (pre.length : Int) = some e0 := by
  rw [getAt_natCast, List.getElem?_append_right (le_refl _)]
  simp

theorem indexLoop_keysUnique (es : List T) : ∀ (i : Int) (pos : List (T × Int)),
    (pos.map Prod.fst).Nodup → ((indexLoop es i pos).map Prod.fst).Nodup := by
  induction es with
  | nil => intro i pos hp; exact hp
  | cons e es ih =>
    intro i pos hp
    exact ih (i + 1) (posSet pos e i) (posSet_nodup hp e i)

/-- The constructor loop keeps the index sound: `pre` are the slots already visited. -/
theorem indexLoop_sound (es : List T) : ∀ (pre : List T) (pos : List (T × Int)),
    (∀ e k, posFind pos e = some k → getAt (pre ++ es) k = some e) →
    ∀ e k, posFind (indexLoop es (pre.length : Int) pos) e = some k →
      getAt (pre ++ es) k = some e := by
  induction es with
  | nil => intro pre pos hp e k hk; exact hp e k hk
  | cons e0 es ih =>
    intro pre pos hp e k hk
    have hcast : ((pre ++ [e0]).length : Int) = (pre.length : Int) + 1 := by simp
    have happ : pre ++ e0 :: es = (pre ++ [e0]) ++ es := by simp
    rw [happ]
    apply ih (pre ++ [e0]) (posSet pos e0 (pre.length : Int))
    · intro x j hj
      rw [posFind_posSet] at hj
      rw [← happ]
      by_cases hx : e0 = x
      · rw [if_pos hx] at hj
        cases hj
        rw [← hx]
        exact getAt_append_cons_length pre es e0
      · rw [if_neg hx] at hj
        exact hp x j hj
    · rw [hcast]
      exact hk

/-- The constructor loop gives every slot an entry when the elements are pairwise
distinct. -/
theorem indexLoop_complete (es : List T) : ∀ (pre : List T) (pos : List (T × Int)),
    (pre ++ es).Nodup →
    (∀ k e, k < (pre.length : Int) → getAt (pre ++ es) k = some e → posFind pos e = some k) →
    ∀ k e, getAt (pre ++ es) k = some e →
      posFind (indexLoop es (pre.length : Int) pos) e = some k := by
  induction es with
  | nil =>
    intro pre pos _ hp k e hk
    have hb := getAt_bounds hk
    simp only [List.append_nil] at hb
    exact hp k e hb.2 hk
  | cons e0 es ih =>
    intro pre pos hnd hp k e hk
    have hcast : ((pre ++ [e0]).length : Int) = (pre.length : Int) + 1 := by simp
    have happ : pre ++ e0 :: es = (pre ++ [e0]) ++ es := by simp
    have h0 : getAt (pre ++ e0 :: es) (pre.length : Int) = some e0 :=
      getAt_append_cons_length pre es e0
    have hres := ih (pre ++ [e0]) (posSet pos e0 (pre.length : Int)) (by rw [← happ]; exact hnd)
      (by
        intro j x hj hx
        rw [← happ] at hx
        rw [posFind_posSet]
        by_cases hjl : j = (pre.length : Int)
        · rw [hjl] at hx
          rw [h0] at hx
          cases hx
          rw [if_pos rfl, hjl]
        · have hne : e0 ≠ x := by
            intro he
            rw [← he] at hx
            exact hjl (getAt_inj_of_nodup hnd hx h0)
          rw [if_neg hne]
          exact hp j x (by omega) hx) k e (by rw [← happ]; exact hk)
    rw [hcast] at hres
    exact hres

/-- The constructor from a non-empty vector: the heap invariant holds in the result also
when the vector has duplicates; the index has an entry for every slot when the vector has
none. -/
theorem fromVector_inv (xs : List T) (B : Int) (hlo : 2 ≤ B) (hhi : B ≤ 10) (hne : xs ≠ []) :
    ∃ h : DaryHeap T, fromVector xs B = .ok h ∧ HeapInv h ∧ h.branchingFactor = B ∧
      h.elements.Perm xs ∧ (xs.Nodup → IndexComplete h) := by
  obtain ⟨h', hh, hsteps, hord⟩ :=
    heapify_spec
      ({ branchingFactor := B, elements := xs, positions := indexLoop xs 0 [] } : DaryHeap T)
      hlo hne
  have hfac : h'.branchingFactor = B := swapSteps_factor_eq hsteps
  have hs0 : IndexSound
      ({ branchingFactor := B, elements := xs, positions := indexLoop xs 0 [] } : DaryHeap T) := by
    intro e k hk
    have := indexLoop_sound xs [] [] (by intro e k hk; simp [posFind] at hk) e k hk
    simpa using this
  have hk0 : IndexKeysUnique
      ({ branchingFactor := B, elements := xs, positions := indexLoop xs 0 [] } : DaryHeap T) :=
    indexLoop_keysUnique xs 0 [] List.nodup_nil
  refine ⟨h', ?_, swapSteps_inv hsteps ⟨hlo, hhi⟩ hs0 hk0 hord, hfac, swapSteps_perm hsteps, ?_⟩
  · unfold fromVector MIN_BRANCHING_FACTOR MAX_BRANCHING_FACTOR
    rw [if_neg (by omega)]
    simp only [hh]
  · intro hnd
    apply swapSteps_complete hsteps
    intro k e hk
    have := indexLoop_complete xs [] [] (by simpa using hnd)
      (by intro j x hj hx; have := getAt_bounds hx; simp at hj; omega) k e
      (by simpa using hk)
    simpa using this

/-- The constructor from the empty vector with a branching factor of at least 3: the start
slot of `heapify` is `(0 - 1 - 1) / B = 0` and `pushDown(0)` reads slot 0 of an empty
array. -/
theorem fromVector_nil_undefined (B : Int) (hlo : 3 ≤ B) (hhi : B ≤ 10) :
    (fromVector ([] : List T) B) = .error .undefinedBehaviour := by
  interval_cases B <;> rfl

theorem fromVector_nil_two :
    (fromVector ([] : List T) 2) = .ok { branchingFactor := 2, elements := [], positions := [] } := by
  rfl

/-- Every stored element has an index entry; preserved by an exchange. -/
theorem swapStep_covers {h h' : DaryHeap T} (s : SwapStep h h')
    (hc : ∀ e ∈ h.elements, (posFind h.positions e).isSome = true) :
    ∀ e ∈ h'.elements, (posFind h'.positions e).isSome = true := by
  intro e he
  have hmem : e ∈ h.elements := (swapStep_perm s).mem_iff.mp he
  obtain ⟨i, j, a, b, els, _, _, _, _, rfl⟩ := s
  show (posFind (posSet (posSet h.positions b i) a j) e).isSome = true
  simp only [posFind_posSet]
  split_ifs
  · rfl
  · rfl
  · exact hc e hmem

theorem swapSteps_covers {h h' : DaryHeap T} (s : SwapSteps h h')
    (hc : ∀ e ∈ h.elements, (posFind h.positions e).isSome = true) :
    ∀ e ∈ h'.elements, (posFind h'.positions e).isSome = true := by
  induction s with
  | refl => exact hc
  | tail _ st ih => exact swapStep_covers st ih

/-- A sound index with one entry per key that covers every stored element has as many
entries as there are different stored elements. -/
theorem positions_length_eq_dedup {h : DaryHeap T} (hs : IndexSound h) (hk : IndexKeysUnique h)
    (hc : ∀ e ∈ h.elements, (posFind h.positions e).isSome = true) :
    h.positions.length = h.elements.dedup.length := by
  have hperm : (h.positions.map Prod.fst).Perm h.elements.dedup := by
    rw [List.perm_ext_iff_of_nodup hk (List.nodup_dedup _)]
    intro e
    rw [List.mem_dedup]
    constructor
    · intro hm
      obtain ⟨p, hp, hpe⟩ := List.mem_map.mp hm
      obtain ⟨k, i⟩ := p
      simp only at hpe
      rw [hpe] at hp
      exact (mem_iff_getAt _ _).mpr ⟨i, hs e i ((posFind_eq_some_iff_mem hk e i).mpr hp)⟩
    · intro hm
      obtain ⟨i, hi⟩ := Option.isSome_iff_exists.mp (hc e hm)
      exact List.mem_map.mpr ⟨(e, i), (posFind_eq_some_iff_mem hk e i).mp hi, rfl⟩
  have := hperm.length_eq
  simpa using this

/-- The call `updatePriority` on a stored `oldE`: the overwrite of the slot and of the
index entry, followed by finitely many exchanges. -/
theorem updatePriority_steps (h : DaryHeap T) (oldE newE : T) (idx : Int)
    (hinv : HeapInv h) (hf : posFind h.positions oldE = some idx) :
    ∃ (els1 : List T) (h' : DaryHeap T),
      (∀ k, getAt els1 k = if k = idx then some newE else getAt h.elements k) ∧
      h.updatePriority oldE newE = some (h', true) ∧
      SwapSteps ({ h with elements := els1,
                          positions := posSet (posErase h.positions oldE) newE idx }) h' := by
  obtain ⟨hv, ho, hs, hk⟩ := hinv
  have hB := validFactor_pos hv
  have ho1 := (heapOrdered_iff h).mp ho
  have hr : getAt h.elements idx = some oldE := hs oldE idx hf
  obtain ⟨els1, hset, hlen, hget⟩ := setAt_spec newE hr
  have hx : getAt els1 idx = some newE := by rw [hget, if_pos rfl]
  have hsame : ∀ k v, k ≠ idx → getAt els1 k = some v → getAt h.elements k = some v := by
    intro k v hki hkv
    rw [hget, if_neg hki] at hkv
    exact hkv
  obtain ⟨e1, e2⟩ := orderedExcept_of_overwrite hB ho1 hr hsame
  obtain ⟨h1, moved, h3, hbu, hfix, hsteps, hord⟩ :=
    restore_spec
      ({ h with elements := els1,
                positions := posSet (posErase h.positions oldE) newE idx } : DaryHeap T)
      idx newE hB hx e1 e2
  refine ⟨els1, h3, hget, ?_, hsteps⟩
  unfold updatePriority
  simp only [hf, hset, hbu]
  cases hmv : moved with
  | true =>
    rw [hmv] at hfix
    simp only [Bool.not_true, Bool.false_eq_true, if_false, Option.some.injEq] at hfix ⊢
    rw [hfix]
  | false =>
    rw [hmv] at hfix
    simp only [Bool.not_false, if_true] at hfix ⊢
    rw [hfix]

/-- The call `updatePriority(oldE, newE)` with two different stored elements: `newE` ends
up in two slots, `oldE` in none, and the index keeps one entry per different stored
element, one less than there are slots. -/
theorem updatePriority_violation (h : DaryHeap T) (hidx : HeapIndexed h) (oldE newE : T)
    (hne : oldE ≠ newE) (hold : oldE ∈ h.elements) (hnew : newE ∈ h.elements) :
    ∃ h' : DaryHeap T, h.updatePriority oldE newE = some (h', true) ∧ HeapInv h' ∧
      h'.elements.Perm (newE :: h.elements.erase oldE) ∧
      newE ∈ h.elements.erase oldE ∧ (h.elements.erase oldE).Nodup ∧
      oldE ∉ h.elements.erase oldE ∧
      h'.positions.length = (h.elements.erase oldE).length ∧
      (∀ e ∈ h'.elements, (posFind h'.positions e).isSome = true) := by
  obtain ⟨hinv, hc⟩ := hidx
  obtain ⟨idx, hgi⟩ := (mem_iff_getAt _ _).mp hold
  have hf : posFind h.positions oldE = some idx := hc idx oldE hgi
  obtain ⟨h2, hup2, hinv2, _, hperm2, _⟩ := updatePriority_present_spec h oldE newE idx hinv hf
  obtain ⟨els1, h', hget, hup, hsteps⟩ := updatePriority_steps h oldE newE idx hinv hf
  rw [hup2] at hup
  simp only [Option.some.injEq, Prod.mk.injEq, and_true] at hup
  rw [← hup] at hsteps
  have hnd : h.elements.Nodup := nodup_of_complete hc
  have hndL : (h.elements.erase oldE).Nodup := hnd.erase oldE
  have hmemL : newE ∈ h.elements.erase oldE := (List.mem_erase_of_ne (Ne.symm hne)).mpr hnew
  have holdL : oldE ∉ h.elements.erase oldE := by
    intro hm
    exact ((List.Nodup.mem_erase_iff hnd).mp hm).1 rfl
  have hp : h2.elements.Perm (newE :: h.elements.erase oldE) := by
    have h1 : (newE :: h.elements).Perm (oldE :: newE :: h.elements.erase oldE) :=
      ((List.perm_cons_erase hold).cons newE).trans (List.Perm.swap oldE newE _)
    exact (hperm2.trans h1).cons_inv
  have hcov1 : ∀ e ∈ els1,
      (posFind (posSet (posErase h.positions oldE) newE idx) e).isSome = true := by
    intro e he
    obtain ⟨k, hk⟩ := (mem_iff_getAt _ _).mp he
    rw [hget] at hk
    simp only [posFind_posSet, posFind_posErase]
    by_cases hnx : newE = e
    · rw [if_pos hnx]; rfl
    · rw [if_neg hnx]
      by_cases hki : k = idx
      · rw [if_pos hki] at hk
        exact absurd (Option.some.inj hk) hnx
      · rw [if_neg hki] at hk
        have hpx := hc k e hk
        have hox : oldE ≠ e := by
          intro he2
          rw [← he2] at hk
          exact hki (getAt_inj_of_nodup hnd hk hgi)
        rw [if_neg hox, hpx]
        rfl
  have hcov := swapSteps_covers hsteps hcov1
  refine ⟨h2, hup2, hinv2, hp, hmemL, hndL, holdL, ?_, hcov⟩
  rw [positions_length_eq_dedup hinv2.2.2.1 hinv2.2.2.2 hcov, (List.Perm.dedup hp).length_eq,
    List.dedup_cons_of_mem hmemL, hndL.dedup]

theorem indexLoop_covers (es : List T) : ∀ (i : Int) (pos : List (T × Int)) (e : T),
    (e ∈ es ∨ (posFind pos e).isSome = true) → (posFind (indexLoop es i pos) e).isSome = true := by
  induction es with
  | nil =>
    intro i pos e he
    rcases he with he | he
    · cases he
    · exact he
  | cons e0 es ih =>
    intro i pos e he
    apply ih (i + 1) (posSet pos e0 i) e
    rw [posFind_posSet]
    by_cases h0 : e0 = e
    · right; rw [if_pos h0]; rfl
    · rw [if_neg h0]
      rcases he with he | he
      · rcases List.mem_cons.mp he with h1 | h1
        · exact absurd h1.symm h0
        · exact Or.inl h1
      · exact Or.inr he

/-- The constructor from a non-empty vector gives every stored element an index entry, so
the index has as many entries as the vector has different elements. -/
theorem fromVector_index_size (xs : List T) (B : Int) (hlo : 2 ≤ B) (hhi : B ≤ 10)
    (hne : xs ≠ []) (h : DaryHeap T) (hh : fromVector xs B = .ok h) :
    h.positions.length = xs.dedup.length := by
  obtain ⟨h', hh', hsteps, _⟩ :=
    heapify_spec
      ({ branchingFactor := B, elements := xs, positions := indexLoop xs 0 [] } : DaryHeap T)
      hlo hne
  obtain ⟨h2, hh2, hinv, _, hperm, _⟩ := fromVector_inv xs B hlo hhi hne
  have hok : fromVector xs B = .ok h' := by
    unfold fromVector MIN_BRANCHING_FACTOR MAX_BRANCHING_FACTOR
    rw [if_neg (by omega)]
    simp only [hh']
  rw [hh] at hh2 hok
  cases hh2
  cases hok
  have hcov := swapSteps_covers hsteps (fun e he => indexLoop_covers xs 0 [] e (Or.inl he))
  rw [positions_length_eq_dedup hinv.2.2.1 hinv.2.2.2 hcov, (List.Perm.dedup hperm).length_eq]

/-- Every heap that a constructor returns satisfies the heap invariant. -/
theorem heapInv_of_constructed (B : Int) (xs : List T) (h0 : DaryHeap T)
    (hstart : create B = .ok h0 ∨ fromVector xs B = .ok h0) :
    HeapInv h0 ∧ h0.branchingFactor = B ∧ 2 ≤ B ∧ B ≤ 10 := by
  have hrange : 2 ≤ B ∧ B ≤ 10 := by
    by_contra hcon
    have hbad : B < MIN_BRANCHING_FACTOR ∨ B > MAX_BRANCHING_FACTOR := by
      unfold MIN_BRANCHING_FACTOR MAX_BRANCHING_FACTOR
      omega
    rcases hstart with hs | hs
    · unfold create at hs
      rw [if_pos hbad] at hs
      cases hs
    · unfold fromVector at hs
      rw [if_pos hbad] at hs
      cases hs
  obtain ⟨hlo, hhi⟩ := hrange
  obtain ⟨hcreate, hidx⟩ := create_spec (T := T) B hlo hhi
  rcases hstart with hs | hs
  · rw [hcreate] at hs
    cases hs
    exact ⟨hidx.1, rfl, hlo, hhi⟩
  · by_cases hne : xs = []
    · rw [hne] at hs
      by_cases h3 : 3 ≤ B
      · rw [fromVector_nil_undefined B h3 hhi] at hs
        cases hs
      · have h2 : B = 2 := by omega
        rw [h2, fromVector_nil_two] at hs
        cases hs
        rw [h2] at hidx
        exact ⟨hidx.1, h2.symm, hlo, hhi⟩
    · obtain ⟨h, hh, hinv, hfac, _⟩ := fromVector_inv xs B hlo hhi hne
      rw [hs] at hh
      cases hh
      exact ⟨hinv, hfac, hlo, hhi⟩

end DaryHeap

/-! ## Claims about the heap -/

section HeapClaims

variable {T : Type} [LinearOrder T]

/-- C1: for every branching factor `B` in `[2,10]` and every finite sequence of
`add` / `remove` / `top` / `updatePriority` calls with arbitrary arguments issued on the
empty heap, every call returns, and in the final state every slot `i` and every slot `j` in
its child range `[B*i+1, min(B*i+1+B, size))` satisfy `not (element[j] < element[i])`;
`checkHeapInvariants()` returns true there. -/
theorem heap_order_invariant (B : Int) (hlo : 2 ≤ B) (hhi : B ≤ 10) (ops : List (HeapOp T)) :
    ∃ h0 h : DaryHeap T, DaryHeap.create B = .ok h0 ∧ h0.run ops = some h ∧
      h.branchingFactor = B ∧
      (∀ (i j : Int) (a b : T), B * i + 1 ≤ j → j < min (B * i + 1 + B) h.size →
        getAt h.elements i = some a → getAt h.elements j = some b → ¬ b < a) ∧
      h.checkHeapInvariants = some true := by
  obtain ⟨hcreate, hidx⟩ := DaryHeap.create_spec (T := T) B hlo hhi
  obtain ⟨h, hrun, hinv, hfac, _⟩ := DaryHeap.run_inv ops _ hidx.1
  have hfac2 : h.branchingFactor = B := hfac
  refine ⟨_, h, hcreate, hrun, hfac2, ?_, ?_⟩
  · have ho := hinv.2.1
    unfold HeapOrdered at ho
    rw [hfac2] at ho
    exact ho
  · exact (DaryHeap.checkHeapInvariants_iff h (DaryHeap.validFactor_pos hinv.1)).mpr hinv.2.1

theorem heap_order_invariant_witness :
    ∃ h0 h : DaryHeap Int, DaryHeap.create 3 = .ok h0 ∧
      h0.run [.add 5, .add 3, .add 7, .add 1, .add 3, .updatePriority 7 1, .top, .remove 5] =
        some h ∧
      h.branchingFactor = 3 ∧
      (∀ (i j : Int) (a b : Int), 3 * i + 1 ≤ j → j < min (3 * i + 1 + 3) h.size →
        getAt h.elements i = some a → getAt h.elements j = some b → ¬ b < a) ∧
      h.checkHeapInvariants = some true :=
  heap_order_invariant 3 (by decide) (by decide) _

/-- C2: in every state reached from the empty heap by `add` / `remove` / `top` /
`updatePriority` calls, `top()` on a non-empty heap returns a stored element `m` that is
`<=` every stored element and equals the result of `peek()`, removes exactly `m` (the
element array afterwards, with `m` put back, is a permutation of the previous one) and
reduces the size by exactly 1; on an empty heap `top()` and `peek()` return empty and the
heap is unchanged. -/
theorem top_returns_minimum (B : Int) (hlo : 2 ≤ B) (hhi : B ≤ 10) (ops : List (HeapOp T)) :
    ∃ h0 h : DaryHeap T, DaryHeap.create B = .ok h0 ∧ h0.run ops = some h ∧
      (h.elements = [] → h.top = some (h, none) ∧ h.peek = none) ∧
      (h.elements ≠ [] → ∃ (m : T) (h' : DaryHeap T),
        h.top = some (h', some m) ∧ h.peek = some m ∧ m ∈ h.elements ∧
        (∀ x ∈ h.elements, m ≤ x) ∧ (m :: h'.elements).Perm h.elements ∧
        h'.size = h.size - 1) := by
  obtain ⟨hcreate, hidx⟩ := DaryHeap.create_spec (T := T) B hlo hhi
  obtain ⟨h, hrun, hinv, _, _⟩ := DaryHeap.run_inv ops _ hidx.1
  refine ⟨_, h, hcreate, hrun, ?_, ?_⟩
  · intro hel
    simp only [DaryHeap.top, DaryHeap.peek, hel, and_self]
  · intro hne
    cases hel : h.elements with
    | nil => exact absurd hel hne
    | cons m t =>
      have hm : getAt h.elements 0 = some m := by
        rw [hel]; simp [getAt]
      obtain ⟨h', hrem, _, _, hperm, hlen, _⟩ := DaryHeap.removeAt_spec h 0 m hinv hm
      refine ⟨m, h', ?_, ?_, ?_, ?_, ?_, hlen⟩
      · simp only [DaryHeap.top, hel, hrem]
      · simp only [DaryHeap.peek, hel]
      · exact List.mem_cons_self _ _
      · rw [← hel]
        exact DaryHeap.root_le_mem (DaryHeap.validFactor_pos hinv.1) hinv.2.1 hm
      · rw [← hel]
        exact hperm

theorem top_returns_minimum_witness :
    ∃ h0 h : DaryHeap Int, DaryHeap.create 3 = .ok h0 ∧
      h0.run [.add 5, .add 3, .add 7, .add 1, .add 3] = some h ∧
      (h.elements = [] → h.top = some (h, none) ∧ h.peek = none) ∧
      (h.elements ≠ [] → ∃ (m : Int) (h' : DaryHeap Int),
        h.top = some (h', some m) ∧ h.peek = some m ∧ m ∈ h.elements ∧
        (∀ x ∈ h.elements, m ≤ x) ∧ (m :: h'.elements).Perm h.elements ∧
        h'.size = h.size - 1) :=
  top_returns_minimum 3 (by decide) (by decide) _

/-- C5: starting from the empty heap with a branching factor in `[2,10]`, after every
sequence of `add` / `remove` / `top` / `updatePriority` calls in which each
`updatePriority(oldE, newE)` has `newE` not stored in a slot other than the one of `oldE`,
every call returns and the index is a bijection between the stored elements and the slots:
it holds an entry `e -> i` exactly when `element[i] = e`, it has one entry per element, the
elements are pairwise different, the keys of the index are exactly the stored elements, and
`contains(e)` is true exactly when `e` is stored. -/
theorem index_bijection (B : Int) (hlo : 2 ≤ B) (hhi : B ≤ 10) (ops : List (HeapOp T))
    (hadm : ({ branchingFactor := B, elements := [], positions := [] } : DaryHeap T).admissible
      ops = true) :
    ∃ h0 h : DaryHeap T, DaryHeap.create B = .ok h0 ∧ h0.run ops = some h ∧
      (∀ (e : T) (i : Int), (e, i) ∈ h.positions ↔ getAt h.elements i = some e) ∧
      (h.positions.map Prod.fst).Nodup ∧ h.elements.Nodup ∧
      (h.positions.map Prod.fst).Perm h.elements ∧
      h.positions.length = h.elements.length ∧
      (∀ e : T, h.contains e = true ↔ e ∈ h.elements) := by
  obtain ⟨hcreate, hidx⟩ := DaryHeap.create_spec (T := T) B hlo hhi
  obtain ⟨h, hrun, hinv, _, hcomp⟩ := DaryHeap.run_inv ops _ hidx.1
  have hi : HeapIndexed h := ⟨hinv, hcomp hidx.2 hadm⟩
  refine ⟨_, h, hcreate, hrun, DaryHeap.index_entry_iff hi, hinv.2.2.2,
    DaryHeap.nodup_of_complete hi.2, DaryHeap.index_keys_perm hi, ?_,
    DaryHeap.contains_iff_mem hinv.2.2.1 hi.2⟩
  have := (DaryHeap.index_keys_perm hi).length_eq
  rw [List.length_map] at this
  exact this

theorem index_bijection_witness :
    ∃ h0 h : DaryHeap Int, DaryHeap.create 2 = .ok h0 ∧
      h0.run [.add 10, .add 20, .add 30, .updatePriority 30 5, .top, .remove 20, .add 7,
        .updatePriority 10 10] = some h ∧
      (∀ (e : Int) (i : Int), (e, i) ∈ h.positions ↔ getAt h.elements i = some e) ∧
      (h.positions.map Prod.fst).Nodup ∧ h.elements.Nodup ∧
      (h.positions.map Prod.fst).Perm h.elements ∧
      h.positions.length = h.elements.length ∧
      (∀ e : Int, h.contains e = true ↔ e ∈ h.elements) :=
  index_bijection 2 (by decide) (by decide) _ (by decide)

theorem heapOfTestRemove_indexed : HeapIndexed heapOfTestRemove :=
  DaryHeap.heapIndexed_of_run 4 (by decide) (by decide)
    [.add 10, .add 20, .add 5, .add 15] heapOfTestRemove (by rfl) (by decide)

theorem heapOfTestUpdate_indexed : HeapIndexed heapOfTestUpdate :=
  DaryHeap.heapIndexed_of_run 2 (by decide) (by decide)
    [.add 10, .add 20, .add 30] heapOfTestUpdate (by rfl) (by decide)

theorem heapOfTestAdd_indexed : HeapIndexed heapOfTestAdd :=
  DaryHeap.heapIndexed_of_run 3 (by decide) (by decide)
    [.add 5, .add 3, .add 7, .add 1] heapOfTestAdd (by rfl) (by decide)

/-- C7: on a heap whose heap-order and position-index invariants hold, `remove(e)` returns
true iff `e` is stored; when `e` is absent the state (element array and index) is unchanged;
when `e` is stored, afterwards `contains(e)` is false, the size has dropped by exactly 1,
the element array with `e` put back is a permutation of the old one (so every other stored
element is still stored), and both invariants hold again. -/
theorem remove_spec (h : DaryHeap T) (e : T) (hinv : HeapIndexed h) :
    ∃ (h' : DaryHeap T) (r : Bool), h.remove e = some (h', r) ∧
      (r = true ↔ e ∈ h.elements) ∧
      (e ∉ h.elements → h' = h) ∧
      (e ∈ h.elements →
        h'.contains e = false ∧ h'.size = h.size - 1 ∧
        (e :: h'.elements).Perm h.elements ∧
        (∀ x, x ≠ e → (x ∈ h'.elements ↔ x ∈ h.elements)) ∧
        HeapIndexed h') := by
  obtain ⟨hi, hc⟩ := hinv
  have hs := hi.2.2.1
  cases hf : posFind h.positions e with
  | none =>
    have habs : e ∉ h.elements := by
      intro hm
      obtain ⟨i, hg⟩ := (mem_iff_getAt _ _).mp hm
      rw [hc i e hg] at hf
      cases hf
    refine ⟨h, false, by simp only [DaryHeap.remove, hf], ?_, fun _ => rfl,
      fun hm => absurd hm habs⟩
    constructor
    · intro hft; cases hft
    · intro hm; exact absurd hm habs
  | some i =>
    have hg := hs e i hf
    have hmem : e ∈ h.elements := (mem_iff_getAt _ _).mpr ⟨i, hg⟩
    obtain ⟨h', hrem, hinv', _, hperm, hlen, hcomp⟩ := DaryHeap.removeAt_spec h i e hi hg
    refine ⟨h', true, by simp only [DaryHeap.remove, hf, hrem], ?_,
      fun hn => absurd hmem hn, fun _ => ⟨?_, hlen, hperm, ?_, hinv', hcomp hc⟩⟩
    · exact ⟨fun _ => hmem, fun _ => rfl⟩
    · have hnd : (e :: h'.elements).Nodup :=
        hperm.nodup_iff.mpr (DaryHeap.nodup_of_complete hc)
      exact DaryHeap.not_contains_of_not_mem hinv'.2.2.1 (List.nodup_cons.mp hnd).1
    · intro x hx
      rw [← hperm.mem_iff, List.mem_cons]
      constructor
      · intro hm; exact Or.inr hm
      · rintro (hm | hm)
        · exact absurd hm hx
        · exact hm

theorem remove_spec_witness :
    HeapIndexed heapOfTestRemove ∧
    ∃ (h' : DaryHeap Int) (r : Bool), heapOfTestRemove.remove 20 = some (h', r) ∧
      (r = true ↔ (20 : Int) ∈ heapOfTestRemove.elements) ∧
      ((20 : Int) ∉ heapOfTestRemove.elements → h' = heapOfTestRemove) ∧
      ((20 : Int) ∈ heapOfTestRemove.elements →
        h'.contains 20 = false ∧ h'.size = heapOfTestRemove.size - 1 ∧
        ((20 : Int) :: h'.elements).Perm heapOfTestRemove.elements ∧
        (∀ x, x ≠ 20 → (x ∈ h'.elements ↔ x ∈ heapOfTestRemove.elements)) ∧
        HeapIndexed h') :=
  ⟨heapOfTestRemove_indexed, remove_spec heapOfTestRemove 20 heapOfTestRemove_indexed⟩

/-- C8: on a heap whose invariants hold, `updatePriority(oldE, newE)` returns true iff
`oldE` is stored; when `oldE` is absent it returns false and leaves the state (element
array and index) unchanged; when `oldE` is stored and `newE` is not stored in another
slot, afterwards the size is unchanged, the stored elements are the old ones with `oldE`
replaced by `newE`, `contains(newE)` is true, `contains(oldE)` is false when
`oldE != newE`, heap order holds, `peek()` returns the least stored element, and the
invariants hold again. -/
theorem updatePriority_spec (h : DaryHeap T) (oldE newE : T) (hinv : HeapIndexed h) :
    ∃ (h' : DaryHeap T) (r : Bool), h.updatePriority oldE newE = some (h', r) ∧
      (r = true ↔ oldE ∈ h.elements) ∧
      (oldE ∉ h.elements → r = false ∧ h' = h) ∧
      (oldE ∈ h.elements → (newE ∈ h.elements → newE = oldE) →
        h'.size = h.size ∧
        (oldE :: h'.elements).Perm (newE :: h.elements) ∧
        h'.contains newE = true ∧
        (oldE ≠ newE → h'.contains oldE = false) ∧
        HeapOrdered h' ∧
        (∃ m, h'.peek = some m ∧ m ∈ h'.elements ∧ ∀ x ∈ h'.elements, m ≤ x) ∧
        HeapIndexed h') := by
  obtain ⟨hi, hc⟩ := hinv
  have hs := hi.2.2.1
  cases hf : posFind h.positions oldE with
  | none =>
    have habs : oldE ∉ h.elements := by
      intro hm
      obtain ⟨i, hg⟩ := (mem_iff_getAt _ _).mp hm
      rw [hc i oldE hg] at hf
      cases hf
    refine ⟨h, false, DaryHeap.updatePriority_absent h oldE newE hf, ?_,
      fun _ => ⟨rfl, rfl⟩, fun hm => absurd hm habs⟩
    constructor
    · intro hft; cases hft
    · intro hm; exact absurd hm habs
  | some i =>
    have hg := hs oldE i hf
    have hmem : oldE ∈ h.elements := (mem_iff_getAt _ _).mpr ⟨i, hg⟩
    obtain ⟨h', hup, hinv', _, hperm, hcomp⟩ :=
      DaryHeap.updatePriority_present_spec h oldE newE i hi hf
    refine ⟨h', true, hup, ⟨fun _ => hmem, fun _ => rfl⟩, fun hn => absurd hmem hn, ?_⟩
    intro _ hpre
    have hc' := hcomp hc hpre
    have hlen : h'.elements.length = h.elements.length := by
      have := hperm.length_eq
      simpa using this
    have hnew : newE ∈ h'.elements := by
      have h1 : newE ∈ oldE :: h'.elements := hperm.mem_iff.mpr (List.mem_cons_self _ _)
      rcases List.mem_cons.mp h1 with h2 | h2
      · by_contra hnot
        have h3 : h'.elements.Perm h.elements := by
          rw [h2] at hperm
          exact (List.perm_cons _).mp hperm
        rw [h2] at hnot
        exact hnot (h3.mem_iff.mpr hmem)
      · exact h2
    refine ⟨?_, hperm, (DaryHeap.contains_iff_mem hinv'.2.2.1 hc' newE).mpr hnew, ?_,
      hinv'.2.1, ?_, hinv', hc'⟩
    · show (h'.elements.length : Int) = (h.elements.length : Int)
      rw [hlen]
    · intro hne
      apply DaryHeap.not_contains_of_not_mem hinv'.2.2.1
      intro hold
      have hcnt : (newE :: h.elements).count oldE = (oldE :: h'.elements).count oldE :=
        (hperm.count_eq oldE).symm
      have hnd0 := DaryHeap.nodup_of_complete hc
      rw [List.count_cons_of_ne hne, List.count_cons_self,
        List.count_eq_one_of_mem hnd0 hmem] at hcnt
      have := List.count_pos_iff.mpr hold
      omega
    · cases hel : h'.elements with
      | nil =>
        have hpos : 0 < h.elements.length := List.length_pos_of_mem hmem
        rw [hel] at hlen
        simp at hlen
        omega
      | cons m t =>
        have hm0 : getAt h'.elements 0 = some m := by
          rw [hel]; simp [getAt]
        refine ⟨m, by simp only [DaryHeap.peek, hel], List.mem_cons_self _ _, ?_⟩
        rw [← hel]
        exact DaryHeap.root_le_mem (DaryHeap.validFactor_pos hinv'.1) hinv'.2.1 hm0

theorem updatePriority_spec_witness :
    HeapIndexed heapOfTestUpdate ∧
    ∃ (h' : DaryHeap Int) (r : Bool), heapOfTestUpdate.updatePriority 30 5 = some (h', r) ∧
      (r = true ↔ (30 : Int) ∈ heapOfTestUpdate.elements) ∧
      ((30 : Int) ∉ heapOfTestUpdate.elements → r = false ∧ h' = heapOfTestUpdate) ∧
      ((30 : Int) ∈ heapOfTestUpdate.elements →
        ((5 : Int) ∈ heapOfTestUpdate.elements → (5 : Int) = 30) →
        h'.size = heapOfTestUpdate.size ∧
        ((30 : Int) :: h'.elements).Perm (5 :: heapOfTestUpdate.elements) ∧
        h'.contains 5 = true ∧
        ((30 : Int) ≠ 5 → h'.contains 30 = false) ∧
        HeapOrdered h' ∧
        (∃ m, h'.peek = some m ∧ m ∈ h'.elements ∧ ∀ x ∈ h'.elements, m ≤ x) ∧
        HeapIndexed h') :=
  ⟨heapOfTestUpdate_indexed, updatePriority_spec heapOfTestUpdate 30 5 heapOfTestUpdate_indexed⟩

/-- C9: on a heap whose invariants hold, `add(e)` returns false iff `e` is already
stored, and then the state (element array, index, size) is unchanged; otherwise it
returns true, the size grows by exactly 1, `contains(e)` becomes true, the stored
elements are exactly the previous ones plus `e`, and the invariants hold again. -/
theorem add_spec (h : DaryHeap T) (e : T) (hinv : HeapIndexed h) :
    ∃ (h' : DaryHeap T) (r : Bool), h.add e = some (h', r) ∧
      (r = false ↔ e ∈ h.elements) ∧
      (e ∈ h.elements → h' = h) ∧
      (e ∉ h.elements →
        r = true ∧ h'.size = h.size + 1 ∧ h'.contains e = true ∧
        h'.elements.Perm (e :: h.elements) ∧ HeapIndexed h') := by
  obtain ⟨hi, hc⟩ := hinv
  have hs := hi.2.2.1
  cases hf : posFind h.positions e with
  | none =>
    have habs : e ∉ h.elements := by
      intro hm
      obtain ⟨i, hg⟩ := (mem_iff_getAt _ _).mp hm
      rw [hc i e hg] at hf
      cases hf
    obtain ⟨h', hadd, hinv', _, hperm, hcomp⟩ := DaryHeap.add_absent_spec h e hi hf
    refine ⟨h', true, hadd, ?_, fun hm => absurd hm habs, fun _ => ⟨rfl, ?_, ?_, hperm,
      hinv', hcomp hc⟩⟩
    · constructor
      · intro hft; cases hft
      · intro hm; exact absurd hm habs
    · show (h'.elements.length : Int) = (h.elements.length : Int) + 1
      rw [hperm.length_eq]
      simp
    · exact (DaryHeap.contains_iff_mem hinv'.2.2.1 (hcomp hc) e).mpr
        (hperm.mem_iff.mpr (List.mem_cons_self _ _))
  | some i =>
    have hmem : e ∈ h.elements := (mem_iff_getAt _ _).mpr ⟨i, hs e i hf⟩
    exact ⟨h, false, DaryHeap.add_present h e (by rw [hf]; rfl),
      ⟨fun _ => hmem, fun _ => rfl⟩, fun _ => rfl, fun hn => absurd hmem hn⟩

theorem add_spec_witness :
    HeapIndexed heapOfTestAdd ∧
    ∃ (h' : DaryHeap Int) (r : Bool), heapOfTestAdd.add 3 = some (h', r) ∧
      (r = false ↔ (3 : Int) ∈ heapOfTestAdd.elements) ∧
      ((3 : Int) ∈ heapOfTestAdd.elements → h' = heapOfTestAdd) ∧
      ((3 : Int) ∉ heapOfTestAdd.elements →
        r = true ∧ h'.size = heapOfTestAdd.size + 1 ∧ h'.contains 3 = true ∧
        h'.elements.Perm (3 :: heapOfTestAdd.elements) ∧ HeapIndexed h') :=
  ⟨heapOfTestAdd_indexed, add_spec heapOfTestAdd 3 heapOfTestAdd_indexed⟩

/-- C10: for every branching factor `B` in `[2,10]` and every non-empty initial list, the
constructor from a vector succeeds, the heap has size equal to the length of the list, its
element array is a permutation of the list, heap order holds (`checkHeapInvariants()` is
true), and `peek()` returns the least element of the list. -/
theorem heapify_constructor (B : Int) (hlo : 2 ≤ B) (hhi : B ≤ 10) (xs : List T)
    (hne : xs ≠ []) :
    ∃ h : DaryHeap T, DaryHeap.fromVector xs B = .ok h ∧ h.branchingFactor = B ∧
      h.size = (xs.length : Int) ∧ h.elements.Perm xs ∧ HeapOrdered h ∧
      h.checkHeapInvariants = some true ∧
      ∃ m, h.peek = some m ∧ m ∈ xs ∧ ∀ x ∈ xs, m ≤ x := by
  obtain ⟨h, hok, hfac, hperm, hord⟩ := DaryHeap.fromVector_spec xs B hlo hhi hne
  have hB : 0 < h.branchingFactor := by omega
  refine ⟨h, hok, hfac, ?_, hperm, hord, (DaryHeap.checkHeapInvariants_iff h hB).mpr hord, ?_⟩
  · show (h.elements.length : Int) = (xs.length : Int)
    rw [hperm.length_eq]
  · cases hel : h.elements with
    | nil =>
      rw [hel] at hperm
      exact absurd hperm.symm.eq_nil hne
    | cons m t =>
      have hm0 : getAt h.elements 0 = some m := by
        rw [hel]; simp [getAt]
      have hmem : m ∈ h.elements := by
        rw [hel]; exact List.mem_cons_self _ _
      refine ⟨m, by simp only [DaryHeap.peek, hel], hperm.mem_iff.mp hmem, ?_⟩
      intro x hx
      exact DaryHeap.root_le_mem hB hord hm0 x (hperm.mem_iff.mpr hx)

theorem heapify_constructor_witness :
    ∃ h : DaryHeap Int, DaryHeap.fromVector [7, 3, 9, 1, 5] 3 = .ok h ∧ h.branchingFactor = 3 ∧
      h.size = (([7, 3, 9, 1, 5] : List Int).length : Int) ∧
      h.elements.Perm [7, 3, 9, 1, 5] ∧ HeapOrdered h ∧
      h.checkHeapInvariants = some true ∧
      ∃ m, h.peek = some m ∧ m ∈ ([7, 3, 9, 1, 5] : List Int) ∧
        ∀ x ∈ ([7, 3, 9, 1, 5] : List Int), m ≤ x :=
  heapify_constructor 3 (by decide) (by decide) [7, 3, 9, 1, 5] (by decide)

/-- The run of `test_heapify_constructor`: `[7,3,9,1,5]` with `B = 3` gives size 5 and
`peek` 1. -/
theorem heapify_constructor_test :
    (DaryHeap.fromVector ([7, 3, 9, 1, 5] : List Int) 3).toOption.map
      (fun h => (h.size, h.peek, h.checkHeapInvariants)) = some (5, some 1, some true) := by
  rfl

/-- The run of `test_updatePriority`: on the heap `{10,20,30}` with `B = 2`, the update
`30 -> 5` gives `peek` 5, then `5 -> 50` gives `peek` 10, and the update of the absent 100
returns false. -/
theorem updatePriority_test :
    (heapOfTestUpdate.updatePriority 30 5).map (fun p => (p.1.peek, p.2)) =
      some (some 5, true) ∧
    ((heapOfTestUpdate.updatePriority 30 5).bind
      (fun p => (p.1.updatePriority 5 50).map (fun q => (q.1.peek, q.2)))) =
      some (some 10, true) ∧
    (heapOfTestUpdate.updatePriority 100 1).map (fun p => p.2) = some false := by
  refine ⟨by rfl, by rfl, by rfl⟩

end HeapClaims

/-! ## Associative-list lemmas for the caches -/

section MapLemmas

variable {K α : Type} [DecidableEq K]

theorem mapFind_mapErase (m : List (K × α)) (e x : K) :
    mapFind (mapErase m e) x = if e = x then none else mapFind m x := by
  induction m with
  | nil => simp [mapErase, mapFind]
  | cons p m ih =>
    obtain ⟨k, v⟩ := p
    by_cases hke : k = e
    · simp only [mapErase, if_pos hke, ih, mapFind]
      by_cases hex : e = x
      · simp [hex]
      · have : k ≠ x := by rw [hke]; exact hex
        simp [hex, this]
    · simp only [mapErase, if_neg hke, mapFind, ih]
      by_cases hkx : k = x
      · have : e ≠ x := by rw [← hkx]; exact fun h => hke h.symm
        simp [hkx, this]
      · simp [hkx]

theorem mapFind_mapSet (m : List (K × α)) (e x : K) (v : α) :
    mapFind (mapSet m e v) x = if e = x then some v else mapFind m x := by
  unfold mapSet
  simp only [mapFind, mapFind_mapErase]
  split_ifs <;> rfl

theorem mapErase_eq_filter (m : List (K × α)) (e : K) :
    mapErase m e = m.filter (fun p => decide (p.1 ≠ e)) := by
  induction m with
  | nil => rfl
  | cons p m ih =>
    obtain ⟨k, v⟩ := p
    by_cases hke : k = e
    · simp only [mapErase, if_pos hke, ih]
      rw [List.filter_cons_of_neg (by simp [hke])]
    · simp only [mapErase, if_neg hke, ih]
      rw [List.filter_cons_of_pos (by simp [hke])]

theorem mapErase_sublist (m : List (K × α)) (e : K) : (mapErase m e).Sublist m := by
  rw [mapErase_eq_filter]
  exact List.filter_sublist m

theorem mapErase_of_not_mem (m : List (K × α)) (e : K) (h : mapFind m e = none) :
    mapErase m e = m := by
  induction m with
  | nil => rfl
  | cons p m ih =>
    obtain ⟨k, v⟩ := p
    by_cases hke : k = e
    · simp [mapFind, hke] at h
    · simp only [mapFind, if_neg hke] at h
      simp only [mapErase, if_neg hke, ih h]

theorem mapFind_eq_none_iff (m : List (K × α)) (e : K) :
    mapFind m e = none ↔ e ∉ m.map Prod.fst := by
  induction m with
  | nil => simp [mapFind]
  | cons p m ih =>
    obtain ⟨k, v⟩ := p
    by_cases hke : k = e
    · simp [mapFind, hke]
    · simp only [mapFind, if_neg hke, ih, List.map_cons, List.mem_cons, not_or]
      constructor
      · intro h; exact ⟨fun he => hke he.symm, h⟩
      · intro h; exact h.2

theorem mapFind_mem {m : List (K × α)} {e : K} {v : α} (h : mapFind m e = some v) :
    (e, v) ∈ m := by
  induction m with
  | nil => simp [mapFind] at h
  | cons p m ih =>
    obtain ⟨k, w⟩ := p
    by_cases hke : k = e
    · simp only [mapFind, if_pos hke, Option.some.injEq] at h
      rw [hke, h]
      exact List.mem_cons_self _ _
    · simp only [mapFind, if_neg hke] at h
      exact List.mem_cons_of_mem _ (ih h)

theorem mapFind_of_mem {m : List (K × α)} (hm : (m.map Prod.fst).Nodup) {e : K} {v : α}
    (h : (e, v) ∈ m) : mapFind m e = some v := by
  induction m with
  | nil => cases h
  | cons p m ih =>
    obtain ⟨k, w⟩ := p
    simp only [List.map_cons, List.nodup_cons] at hm
    rcases List.mem_cons.mp h with h1 | h1
    · cases h1
      simp [mapFind]
    · have hke : k ≠ e := by
        intro he
        apply hm.1
        rw [he]
        exact List.mem_map.mpr ⟨(e, v), h1, rfl⟩
      simp only [mapFind, if_neg hke]
      exact ih hm.2 h1

theorem mapErase_keys_nodup {m : List (K × α)} (hm : (m.map Prod.fst).Nodup) (e : K) :
    ((mapErase m e).map Prod.fst).Nodup :=
  ((mapErase_sublist m e).map Prod.fst).nodup hm

theorem mapSet_keys_nodup {m : List (K × α)} (hm : (m.map Prod.fst).Nodup) (e : K) (v : α) :
    ((mapSet m e v).map Prod.fst).Nodup := by
  unfold mapSet
  simp only [List.map_cons, List.nodup_cons]
  refine ⟨?_, mapErase_keys_nodup hm e⟩
  rw [← mapFind_eq_none_iff, mapFind_mapErase, if_pos rfl]

end MapLemmas

section FindLemmas

variable {β : Type}

theorem find_eq_some_of_unique {l : List β} {p : β → Bool} {n : β} (hn : n ∈ l)
    (hp : p n = true) (huniq : ∀ m ∈ l, p m = true → m = n) : l.find? p = some n := by
  induction l with
  | nil => cases hn
  | cons x l ih =>
    by_cases hx : p x = true
    · rw [List.find?_cons_of_pos _ hx, huniq x (List.mem_cons_self _ _) hx]
    · rw [List.find?_cons_of_neg _ hx]
      rcases List.mem_cons.mp hn with h1 | h1
      · rw [h1] at hp; exact absurd hp hx
      · exact ih h1 (fun m hm => huniq m (List.mem_cons_of_mem _ hm))

theorem find_filter_of_imp {l : List β} {p q : β → Bool}
    (h : ∀ x ∈ l, p x = true → q x = true) : (l.filter q).find? p = l.find? p := by
  induction l with
  | nil => rfl
  | cons x l ih =>
    have ih2 := ih (fun y hy => h y (List.mem_cons_of_mem _ hy))
    by_cases hq : q x = true
    · rw [List.filter_cons_of_pos hq]
      by_cases hp : p x = true
      · rw [List.find?_cons_of_pos _ hp, List.find?_cons_of_pos _ hp]
      · rw [List.find?_cons_of_neg _ hp, List.find?_cons_of_neg _ hp, ih2]
    · rw [List.filter_cons_of_neg hq]
      have hp : ¬ p x = true := fun hp => hq (h x (List.mem_cons_self _ _) hp)
      rw [List.find?_cons_of_neg _ hp, ih2]

end FindLemmas

/-! ## The LRU cache: representation lemmas -/

namespace LRUCache

set_option linter.unusedSectionVars false

variable {Key Value : Type} [DecidableEq Key]

theorem mapFind_entries (l : List (LRUNode Key Value)) (k : Key) :
    mapFind (l.map (fun n => (n.key, n.value))) k = (keyNode l k).map (fun n => n.value) := by
  induction l with
  | nil => rfl
  | cons n l ih =>
    by_cases hk : n.key = k
    · simp [mapFind, keyNode, hk]
    · have ih2 : mapFind (l.map (fun n => (n.key, n.value))) k =
          (l.find? (fun n => decide (n.key = k))).map (fun n => n.value) := ih
      simp [mapFind, keyNode, hk, ih2]

theorem keyNode_some {l : List (LRUNode Key Value)} {k : Key} {n : LRUNode Key Value}
    (h : keyNode l k = some n) : n ∈ l ∧ n.key = k := by
  unfold keyNode at h
  exact ⟨List.mem_of_find?_eq_some h, by simpa using List.find?_some h⟩

theorem keyNode_none {l : List (LRUNode Key Value)} {k : Key}
    (h : keyNode l k = none) : ∀ n ∈ l, n.key ≠ k := by
  unfold keyNode at h
  intro n hn
  simpa using (List.find?_eq_none.mp h) n hn

theorem nodeAt_of_mem {l : List (LRUNode Key Value)}
    (hnd : (l.map (fun n => n.addr)).Nodup) {n : LRUNode Key Value} (hn : n ∈ l) :
    nodeAt l n.addr = some n := by
  unfold nodeAt
  apply find_eq_some_of_unique hn (by simp)
  intro m hm hp
  exact List.inj_on_of_nodup_map hnd hm hn (by simpa using hp)

theorem keyNode_of_mem {l : List (LRUNode Key Value)}
    (hnd : (l.map (fun n => n.key)).Nodup) {n : LRUNode Key Value} (hn : n ∈ l) :
    keyNode l n.key = some n := by
  unfold keyNode
  apply find_eq_some_of_unique hn (by simp)
  intro m hm hp
  exact List.inj_on_of_nodup_map hnd hm hn (by simpa using hp)

theorem filter_addr_eq_filter_key {l : List (LRUNode Key Value)}
    (ha : (l.map (fun n => n.addr)).Nodup) (hk : (l.map (fun n => n.key)).Nodup)
    {n : LRUNode Key Value} (hn : n ∈ l) :
    l.filter (fun m => decide (m.addr ≠ n.addr)) =
      l.filter (fun m => decide (m.key ≠ n.key)) := by
  apply List.filter_congr
  intro m hm
  by_cases h1 : m.addr = n.addr
  · have : m = n := List.inj_on_of_nodup_map ha hm hn h1
    simp [this]
  · have h2 : m.key ≠ n.key := by
      intro h2
      exact h1 (by rw [List.inj_on_of_nodup_map hk hm hn h2])
    simp [h1, h2]

theorem entries_filter_key (l : List (LRUNode Key Value)) (k : Key) :
    (l.filter (fun m => decide (m.key ≠ k))).map (fun n => (n.key, n.value)) =
      mapErase (l.map (fun n => (n.key, n.value))) k := by
  rw [mapErase_eq_filter, List.filter_map]
  rfl

/-- The list after the node `n` was given the value `v` and moved to the front. -/
theorem promote_spec {l : List (LRUNode Key Value)}
    (ha : (l.map (fun n => n.addr)).Nodup) (hk : (l.map (fun n => n.key)).Nodup)
    {n : LRUNode Key Value} (hn : n ∈ l) (v : Value) :
    ((({ n with value := v } : LRUNode Key Value) ::
        l.filter (fun m => decide (m.key ≠ n.key))).map (fun n => n.addr)).Nodup ∧
    ((({ n with value := v } : LRUNode Key Value) ::
        l.filter (fun m => decide (m.key ≠ n.key))).map (fun n => n.key)).Nodup ∧
    (∀ k, (keyNode (({ n with value := v } : LRUNode Key Value) ::
        l.filter (fun m => decide (m.key ≠ n.key))) k).map (fun n => n.addr) =
      (keyNode l k).map (fun n => n.addr)) ∧
    (∀ m ∈ (({ n with value := v } : LRUNode Key Value) ::
        l.filter (fun m => decide (m.key ≠ n.key))), ∃ m' ∈ l, m.addr = m'.addr) := by
  have hsub : (l.filter (fun m => decide (m.key ≠ n.key))).Sublist l := List.filter_sublist l
  refine ⟨?_, ?_, ?_, ?_⟩
  · rw [List.map_cons, List.nodup_cons]
    refine ⟨?_, (hsub.map _).nodup ha⟩
    intro hmem
    obtain ⟨m, hm, hma⟩ := List.mem_map.mp hmem
    rw [← filter_addr_eq_filter_key ha hk hn] at hm
    have := (List.mem_filter.mp hm).2
    simp only [ne_eq, decide_not, Bool.not_eq_true', decide_eq_false_iff_not] at this
    exact this hma
  · rw [List.map_cons, List.nodup_cons]
    refine ⟨?_, (hsub.map _).nodup hk⟩
    intro hmem
    obtain ⟨m, hm, hmk⟩ := List.mem_map.mp hmem
    have := (List.mem_filter.mp hm).2
    simp only [ne_eq, decide_not, Bool.not_eq_true', decide_eq_false_iff_not] at this
    exact this hmk
  · intro k
    by_cases hkk : n.key = k
    · have h1 : keyNode l k = some n := by rw [← hkk]; exact keyNode_of_mem hk hn
      rw [h1]
      simp [keyNode, hkk]
    · have h2 : keyNode (l.filter (fun m => decide (m.key ≠ n.key))) k = keyNode l k := by
        unfold keyNode
        apply find_filter_of_imp
        intro x _ hx
        simp only [decide_eq_true_eq] at hx
        simp only [ne_eq, decide_not, Bool.not_eq_true', decide_eq_false_iff_not]
        intro hxn
        exact hkk (hxn.symm.trans hx)
      rw [← h2]
      simp [keyNode, hkk]
  · intro m hm
    rcases List.mem_cons.mp hm with h1 | h1
    · exact ⟨n, hn, by rw [h1]⟩
    · exact ⟨m, hsub.subset h1, rfl⟩

theorem assignValue_spec {l : List (LRUNode Key Value)}
    (ha : (l.map (fun n => n.addr)).Nodup) {n : LRUNode Key Value} (hn : n ∈ l) (v : Value) :
    ∃ l1, assignValue l n.addr v = some l1 ∧
      nodeAt l1 n.addr = some { n with value := v } ∧
      l1.filter (fun m => decide (m.addr ≠ n.addr)) =
        l.filter (fun m => decide (m.addr ≠ n.addr)) := by
  refine ⟨l.map (fun m => if m.addr = n.addr then { m with value := v } else m),
    by simp only [assignValue, nodeAt_of_mem ha hn], ?_, ?_⟩
  · unfold nodeAt
    rw [List.find?_map]
    have hcomp : ((fun m : LRUNode Key Value => decide (m.addr = n.addr)) ∘
        (fun m : LRUNode Key Value => if m.addr = n.addr then { m with value := v } else m)) =
        (fun m : LRUNode Key Value => decide (m.addr = n.addr)) := by
      funext m
      simp only [Function.comp]
      split_ifs <;> rfl
    rw [hcomp]
    have := nodeAt_of_mem ha hn
    unfold nodeAt at this
    rw [this]
    simp
  · rw [List.filter_map]
    have hcomp : ((fun m : LRUNode Key Value => decide (m.addr ≠ n.addr)) ∘
        (fun m : LRUNode Key Value => if m.addr = n.addr then { m with value := v } else m)) =
        (fun m : LRUNode Key Value => decide (m.addr ≠ n.addr)) := by
      funext m
      simp only [Function.comp]
      split_ifs <;> rfl
    rw [hcomp]
    conv_rhs => rw [← List.map_id (l.filter (fun m => decide (m.addr ≠ n.addr)))]
    apply List.map_congr_left
    intro m hm
    have := (List.mem_filter.mp hm).2
    simp only [ne_eq, decide_not, Bool.not_eq_true', decide_eq_false_iff_not] at this
    simp [this]

theorem set_present_spec (c : LRUCache Key Value) (k : Key) (v : Value) (hinv : LRUInv c)
    (n : LRUNode Key Value) (hn : keyNode c.itemsList k = some n) :
    c.set k v = some ({ c with
      itemsList := ({ n with value := v } : LRUNode Key Value) ::
        c.itemsList.filter (fun m => decide (m.key ≠ k)) }, true) ∧
    LRUInv ({ c with
      itemsList := ({ n with value := v } : LRUNode Key Value) ::
        c.itemsList.filter (fun m => decide (m.key ≠ k)) }) := by
  obtain ⟨ha, hk, hmap, hfresh, hnk⟩ := hinv
  obtain ⟨hmem, hkey⟩ := keyNode_some hn
  subst hkey
  obtain ⟨p1, p2, p3, p4⟩ := promote_spec ha hk hmem v
  constructor
  · obtain ⟨l1, hl1, hnode, hfilt⟩ := assignValue_spec ha hmem v
    have hfind : mapFind c.nodes n.key = some n.addr := by rw [hmap, hn]; rfl
    have hsp : spliceFront l1 n.addr = some (({ n with value := v } : LRUNode Key Value) ::
        c.itemsList.filter (fun m => decide (m.key ≠ n.key))) := by
      simp only [spliceFront, hnode, hfilt, filter_addr_eq_filter_key ha hk hmem]
    simp only [set, hfind, hl1, hsp]
  · refine ⟨p1, p2, ?_, ?_, hnk⟩
    · intro k'
      show mapFind c.nodes k' = _
      rw [hmap, p3]
    · intro m hm
      obtain ⟨m', hm', hmm⟩ := p4 m hm
      show m.addr < c.nextAddr
      rw [hmm]
      exact hfresh m' hm'

theorem get_hit_spec (c : LRUCache Key Value) (k : Key) (hinv : LRUInv c)
    (n : LRUNode Key Value) (hn : keyNode c.itemsList k = some n) :
    c.get k = some ({ c with
      itemsList := n :: c.itemsList.filter (fun m => decide (m.key ≠ k)) }, some n.value) ∧
    LRUInv ({ c with itemsList := n :: c.itemsList.filter (fun m => decide (m.key ≠ k)) }) := by
  obtain ⟨ha, hk, hmap, hfresh, hnk⟩ := hinv
  obtain ⟨hmem, hkey⟩ := keyNode_some hn
  subst hkey
  obtain ⟨p1, p2, p3, p4⟩ := promote_spec ha hk hmem n.value
  constructor
  · have hfind : mapFind c.nodes n.key = some n.addr := by rw [hmap, hn]; rfl
    have hsp : spliceFront c.itemsList n.addr =
        some (n :: c.itemsList.filter (fun m => decide (m.key ≠ n.key))) := by
      simp only [spliceFront, nodeAt_of_mem ha hmem, filter_addr_eq_filter_key ha hk hmem]
    have hnode : nodeAt (n :: c.itemsList.filter (fun m => decide (m.key ≠ n.key))) n.addr =
        some n := by
      simp [nodeAt]
    simp only [get, hfind, hsp, hnode]
  · refine ⟨p1, p2, ?_, ?_, hnk⟩
    · intro k'
      show mapFind c.nodes k' = _
      rw [hmap]
      exact (p3 k').symm
    · intro m hm
      obtain ⟨m', hm', hmm⟩ := p4 m hm
      show m.addr < c.nextAddr
      rw [hmm]
      exact hfresh m' hm'

theorem evict_spec (c : LRUCache Key Value) (hinv : LRUInv c) :
    LRUInv c.evictOneEntry.1 ∧ c.evictOneEntry.1.itemsList = c.itemsList.dropLast ∧
      c.evictOneEntry.1.maxSize = c.maxSize ∧ c.evictOneEntry.1.nextAddr = c.nextAddr := by
  obtain ⟨ha, hk, hmap, hfresh, hnk⟩ := hinv
  cases hl : c.itemsList.getLast? with
  | none =>
    have hnil : c.itemsList = [] := List.getLast?_eq_none_iff.mp hl
    have he : c.evictOneEntry = (c, false) := by simp only [evictOneEntry, hl]
    rw [he]
    refine ⟨⟨ha, hk, hmap, hfresh, hnk⟩, ?_, rfl, rfl⟩
    show c.itemsList = c.itemsList.dropLast
    rw [hnil]
    rfl
  | some last =>
    obtain ⟨init, hinit⟩ := List.getLast?_eq_some_iff.mp hl
    have hdrop : c.itemsList.dropLast = init := by
      rw [hinit]; simp
    have he : c.evictOneEntry =
        ({ c with nodes := mapErase c.nodes last.key, itemsList := c.itemsList.dropLast },
          true) := by
      simp only [evictOneEntry, hl]
    rw [he]
    refine ⟨⟨?_, ?_, ?_, ?_, mapErase_keys_nodup hnk _⟩, rfl, rfl, rfl⟩
    · show (c.itemsList.dropLast.map _).Nodup
      exact ((List.dropLast_sublist _).map _).nodup ha
    · show (c.itemsList.dropLast.map _).Nodup
      exact ((List.dropLast_sublist _).map _).nodup hk
    · intro k'
      show mapFind (mapErase c.nodes last.key) k' = (keyNode c.itemsList.dropLast k').map _
      rw [mapFind_mapErase, hdrop, hmap, hinit]
      rw [hinit] at hk
      by_cases hlk : last.key = k'
      · rw [if_pos hlk]
        have hnone : keyNode init k' = none := by
          unfold keyNode
          rw [List.find?_eq_none]
          intro x hx hxk
          simp only [decide_eq_true_eq] at hxk
          simp only [List.map_append, List.map_cons, List.map_nil] at hk
          have hdis := (List.nodup_append.mp hk).2.2
          exact hdis (List.mem_map.mpr ⟨x, hx, rfl⟩) (by simp [hxk, hlk])
        rw [hnone]
        rfl
      · rw [if_neg hlk]
        unfold keyNode
        rw [List.find?_append]
        have : List.find? (fun n => decide (n.key = k')) [last] = none := by
          simp [hlk]
        rw [this]
        simp
    · intro m hm
      exact hfresh m ((List.dropLast_sublist _).subset hm)

theorem set_absent_spec (c : LRUCache Key Value) (k : Key) (v : Value) (hinv : LRUInv c)
    (hn : keyNode c.itemsList k = none) :
    ∃ c', c.set k v = some (c', true) ∧ LRUInv c' ∧ c'.maxSize = c.maxSize ∧
      c'.entries = (k, v) ::
        (if (c.entries.length : Int) ≥ c.maxSize then c.entries.dropLast else c.entries) := by
  have hfind : mapFind c.nodes k = none := by rw [hinv.2.2.1, hn]; rfl
  have hlen : c.entries.length = c.itemsList.length := by simp [entries]
  have key : ∀ c1 : LRUCache Key Value, LRUInv c1 → keyNode c1.itemsList k = none →
      LRUInv ({ c1 with
        itemsList := { addr := c1.nextAddr, key := k, value := v } :: c1.itemsList,
        nodes := mapSet c1.nodes k c1.nextAddr,
        nextAddr := c1.nextAddr + 1 }) := by
    intro c1 hinv1 hn1
    obtain ⟨ha, hk, hmap, hfresh, hnk⟩ := hinv1
    refine ⟨?_, ?_, ?_, ?_, mapSet_keys_nodup hnk _ _⟩
    · show ((_ :: c1.itemsList).map _).Nodup
      rw [List.map_cons, List.nodup_cons]
      refine ⟨?_, ha⟩
      intro hmem
      obtain ⟨m, hm, hma⟩ := List.mem_map.mp hmem
      have := hfresh m hm
      simp only at hma
      omega
    · show ((_ :: c1.itemsList).map _).Nodup
      rw [List.map_cons, List.nodup_cons]
      refine ⟨?_, hk⟩
      intro hmem
      obtain ⟨m, hm, hmk⟩ := List.mem_map.mp hmem
      exact keyNode_none hn1 m hm hmk
    · intro k'
      show mapFind (mapSet c1.nodes k c1.nextAddr) k' = (keyNode (_ :: c1.itemsList) k').map _
      rw [mapFind_mapSet]
      by_cases hkk : k = k'
      · rw [if_pos hkk]
        simp [keyNode, hkk]
      · rw [if_neg hkk, hmap]
        simp [keyNode, hkk]
    · intro m hm
      show m.addr < c1.nextAddr + 1
      rcases List.mem_cons.mp hm with h1 | h1
      · rw [h1]
        exact Nat.lt_succ_self _
      · exact Nat.lt_succ_of_lt (hfresh m h1)
  by_cases hfull : (c.itemsList.length : Int) ≥ c.maxSize
  · obtain ⟨hinv1, hl1, hm1, _⟩ := evict_spec c hinv
    have hn1 : keyNode c.evictOneEntry.1.itemsList k = none := by
      rw [hl1]
      unfold keyNode
      rw [List.find?_eq_none]
      intro x hx
      have := keyNode_none hn x ((List.dropLast_sublist _).subset hx)
      simpa using this
    refine ⟨_, ?_, key _ hinv1 hn1, hm1, ?_⟩
    · simp only [set, hfind, if_pos hfull]
    · rw [hlen, if_pos hfull]
      show ((_ :: c.evictOneEntry.1.itemsList).map _) = _
      rw [hl1]
      simp [entries]
  · refine ⟨_, ?_, key _ hinv hn, rfl, ?_⟩
    · simp only [set, hfind, if_neg hfull]
    · rw [hlen, if_neg hfull]
      rfl

/-- The effect of `set` on the stored pairs. -/
theorem set_spec (c : LRUCache Key Value) (k : Key) (v : Value) (hinv : LRUInv c) :
    ∃ c', c.set k v = some (c', true) ∧ LRUInv c' ∧ c'.maxSize = c.maxSize ∧
      c'.entries = (k, v) ::
        (if (mapFind c.entries k).isSome then mapErase c.entries k
         else if (c.entries.length : Int) ≥ c.maxSize then c.entries.dropLast
         else c.entries) := by
  have hfe : mapFind c.entries k = (keyNode c.itemsList k).map (fun n => n.value) :=
    mapFind_entries c.itemsList k
  cases hn : keyNode c.itemsList k with
  | none =>
    obtain ⟨c', h1, h2, h3, h4⟩ := set_absent_spec c k v hinv hn
    refine ⟨c', h1, h2, h3, ?_⟩
    rw [hfe, hn, h4]
    rfl
  | some n =>
    obtain ⟨h1, h2⟩ := set_present_spec c k v hinv n hn
    refine ⟨_, h1, h2, rfl, ?_⟩
    rw [hfe, hn]
    show ((_ :: c.itemsList.filter _).map _) = _
    rw [List.map_cons, entries_filter_key]
    simp [(keyNode_some hn).2, entries]

/-- The effect of `get` on the stored pairs, and its result. -/
theorem get_spec (c : LRUCache Key Value) (k : Key) (hinv : LRUInv c) :
    ∃ c', c.get k = some (c', mapFind c.entries k) ∧ LRUInv c' ∧ c'.maxSize = c.maxSize ∧
      c'.entries =
        (match mapFind c.entries k with
         | none => c.entries
         | some v => (k, v) :: mapErase c.entries k) := by
  have hfe : mapFind c.entries k = (keyNode c.itemsList k).map (fun n => n.value) :=
    mapFind_entries c.itemsList k
  cases hn : keyNode c.itemsList k with
  | none =>
    have hfind : mapFind c.nodes k = none := by rw [hinv.2.2.1, hn]; rfl
    refine ⟨c, ?_, hinv, rfl, ?_⟩
    · rw [hfe, hn]
      simp only [get, hfind]
      rfl
    · rw [hfe, hn]
      rfl
  | some n =>
    obtain ⟨h1, h2⟩ := get_hit_spec c k hinv n hn
    refine ⟨_, ?_, h2, rfl, ?_⟩
    · rw [hfe, hn]
      exact h1
    · rw [hfe, hn]
      show ((_ :: c.itemsList.filter _).map _) = _
      rw [List.map_cons, entries_filter_key, (keyNode_some hn).2]
      rfl

theorem create_inv (maxSize : Int) : LRUInv (create maxSize : LRUCache Key Value) := by
  refine ⟨List.nodup_nil, List.nodup_nil, fun _ => rfl, ?_, List.nodup_nil⟩
  intro n hn
  cases hn

theorem clear_inv (c : LRUCache Key Value) : LRUInv c.clear := by
  refine ⟨List.nodup_nil, List.nodup_nil, fun _ => rfl, ?_, List.nodup_nil⟩
  intro n hn
  cases hn

theorem read_eq (c : LRUCache Key Value) (k : Key) (hinv : LRUInv c) :
    c.read k = some (mapFind c.entries k) := by
  obtain ⟨c', h1, _⟩ := get_spec c k hinv
  simp only [read, h1, Option.map_some']

end LRUCache

/-! ## The LRU cache: recency order along a history -/

namespace LRUCache

set_option linter.unusedSectionVars false

variable {Key Value : Type} [DecidableEq Key]

theorem entries_keys_nodup {c : LRUCache Key Value} (hinv : LRUInv c) :
    (c.entries.map Prod.fst).Nodup := by
  have : c.entries.map Prod.fst = c.itemsList.map (fun n => n.key) := by
    simp [entries, List.map_map, Function.comp]
  rw [this]
  exact hinv.2.1

theorem mapErase_key_ne (m : List (Key × Value)) (k : Key) : ∀ e ∈ mapErase m k, e.1 ≠ k := by
  intro e he
  rw [mapErase_eq_filter] at he
  simpa using (List.mem_filter.mp he).2

theorem key_ne_of_mapFind_none {m : List (Key × Value)} {k : Key} (h : mapFind m k = none) :
    ∀ e ∈ m, e.1 ≠ k := by
  intro e he hk
  rw [mapFind_eq_none_iff] at h
  exact h (List.mem_map.mpr ⟨e, he, hk⟩)

theorem mapErase_length_lt {m : List (Key × Value)} {k : Key} {v : Value}
    (h : mapFind m k = some v) : (mapErase m k).length < m.length := by
  rw [mapErase_eq_filter]
  apply List.length_filter_lt_length_iff_exists.mpr
  exact ⟨(k, v), mapFind_mem h, by simp⟩

/-- Moving a key to the front of the recency list with the current time as its stamp. -/
theorem stampOrdered_push {es es' : List (Key × Value)} {lt : List (Key × Nat)} {clock : Nat}
    (ho : StampOrdered es lt clock) (hsub : es'.Sublist es) (k : Key) (v : Value)
    (hne : ∀ e ∈ es', e.1 ≠ k) :
    StampOrdered ((k, v) :: es') (mapSet lt k clock) (clock + 1) := by
  obtain ⟨hp, hb⟩ := ho
  have hkeep : ∀ e ∈ es', mapFind (mapSet lt k clock) e.1 = mapFind lt e.1 := by
    intro e he
    rw [mapFind_mapSet, if_neg (fun h => hne e he h.symm)]
  constructor
  · rw [List.pairwise_cons]
    constructor
    · intro e he
      obtain ⟨t, ht, hlt⟩ := hb e (hsub.subset he)
      exact ⟨clock, t, by rw [mapFind_mapSet, if_pos rfl], by rw [hkeep e he]; exact ht, hlt⟩
    · refine (hp.sublist hsub).imp_of_mem ?_
      intro a b ha hb' hab
      obtain ⟨t1, t2, h1, h2, h3⟩ := hab
      exact ⟨t1, t2, by rw [hkeep a ha]; exact h1, by rw [hkeep b hb']; exact h2, h3⟩
  · intro e he
    rcases List.mem_cons.mp he with h1 | h1
    · rw [h1]
      exact ⟨clock, by rw [mapFind_mapSet, if_pos rfl], Nat.lt_succ_self _⟩
    · obtain ⟨t, ht, hlt⟩ := hb e (hsub.subset h1)
      exact ⟨t, by rw [hkeep e h1]; exact ht, Nat.lt_succ_of_lt hlt⟩

theorem stepHistory_spec (h : LRUHistory Key Value) (op : CacheOp Key Value)
    (hinv : HistoryInv h) :
    ∃ h', stepHistory h op = some h' ∧ HistoryInv h' ∧ h'.cache.maxSize = h.cache.maxSize ∧
      h.cache.step op = some h'.cache := by
  obtain ⟨hc, ho, hmax, hlen⟩ := hinv
  cases op with
  | set k v =>
    obtain ⟨c', hset, hinv', hms, hent⟩ := set_spec h.cache k v hc
    refine ⟨{ cache := c', clock := h.clock + 1, lastTouch := mapSet h.lastTouch k h.clock },
      by simp only [stepHistory, hset], ⟨hinv', ?_, by rw [hms]; exact hmax, ?_⟩, hms,
      by simp only [step, hset, Option.map_some']⟩
    · show StampOrdered c'.entries _ _
      rw [hent]
      cases hf : mapFind h.cache.entries k with
      | some v0 =>
        simp only [Option.isSome_some, if_true]
        exact stampOrdered_push ho (mapErase_sublist _ _) k v (mapErase_key_ne _ _)
      | none =>
        simp only [Option.isSome_none, Bool.false_eq_true, if_false]
        split_ifs
        · exact stampOrdered_push ho (List.dropLast_sublist _) k v
            (fun e he => key_ne_of_mapFind_none hf e ((List.dropLast_sublist _).subset he))
        · exact stampOrdered_push ho (List.Sublist.refl _) k v (key_ne_of_mapFind_none hf)
    · show (c'.entries.length : Int) ≤ c'.maxSize
      rw [hent, hms]
      cases hf : mapFind h.cache.entries k with
      | some v0 =>
        simp only [Option.isSome_some, if_true, List.length_cons]
        have := mapErase_length_lt hf
        omega
      | none =>
        simp only [Option.isSome_none, Bool.false_eq_true, if_false]
        split_ifs with hfull
        · simp only [List.length_cons, List.length_dropLast]
          have hpos : 0 < h.cache.entries.length := by omega
          omega
        · simp only [List.length_cons]
          omega
  | get k =>
    obtain ⟨c', hget, hinv', hms, hent⟩ := get_spec h.cache k hc
    cases hf : mapFind h.cache.entries k with
    | none =>
      rw [hf] at hget hent
      refine ⟨{ cache := c', clock := h.clock + 1, lastTouch := h.lastTouch },
        by simp only [stepHistory, hget], ⟨hinv', ?_, by rw [hms]; exact hmax, ?_⟩, hms,
        by simp only [step, hget, Option.map_some']⟩
      · show StampOrdered c'.entries _ _
        simp only at hent
        rw [hent]
        refine ⟨ho.1, ?_⟩
        intro e he
        obtain ⟨t, ht, hlt⟩ := ho.2 e he
        exact ⟨t, ht, Nat.lt_succ_of_lt hlt⟩
      · show (c'.entries.length : Int) ≤ c'.maxSize
        simp only at hent
        rw [hent, hms]
        exact hlen
    | some v0 =>
      rw [hf] at hget hent
      refine ⟨{ cache := c', clock := h.clock + 1, lastTouch := mapSet h.lastTouch k h.clock },
        by simp only [stepHistory, hget], ⟨hinv', ?_, by rw [hms]; exact hmax, ?_⟩, hms,
        by simp only [step, hget, Option.map_some']⟩
      · show StampOrdered c'.entries _ _
        simp only at hent
        rw [hent]
        exact stampOrdered_push ho (mapErase_sublist _ _) k v0 (mapErase_key_ne _ _)
      · show (c'.entries.length : Int) ≤ c'.maxSize
        simp only at hent
        rw [hent, hms]
        simp only [List.length_cons]
        have := mapErase_length_lt hf
        omega
  | clear =>
    refine ⟨{ cache := h.cache.clear, clock := h.clock + 1, lastTouch := h.lastTouch },
      rfl, ⟨clear_inv h.cache, ?_, hmax, ?_⟩, rfl, rfl⟩
    · refine ⟨List.Pairwise.nil, ?_⟩
      intro e he
      cases he
    · show ((0 : Nat) : Int) ≤ h.cache.maxSize
      omega

theorem runHistory_spec (ops : List (CacheOp Key Value)) : ∀ (h : LRUHistory Key Value),
    HistoryInv h →
    ∃ h', runHistory h ops = some h' ∧ HistoryInv h' ∧ h'.cache.maxSize = h.cache.maxSize ∧
      h.cache.run ops = some h'.cache := by
  induction ops with
  | nil => intro h hinv; exact ⟨h, rfl, hinv, rfl, rfl⟩
  | cons op ops ih =>
    intro h hinv
    obtain ⟨h1, hstep, hinv1, hms1, hc1⟩ := stepHistory_spec h op hinv
    obtain ⟨h', hrun, hinv', hms', hc'⟩ := ih h1 hinv1
    refine ⟨h', by simp only [runHistory, hstep]; exact hrun, hinv', by rw [hms', hms1], ?_⟩
    simp only [run, hc1]
    exact hc'

theorem startHistory_inv (maxSize : Int) (hmax : 1 ≤ maxSize) :
    HistoryInv (startHistory maxSize : LRUHistory Key Value) := by
  refine ⟨create_inv maxSize, ⟨List.Pairwise.nil, ?_⟩, hmax, ?_⟩
  · intro e he
    cases he
  · show ((0 : Nat) : Int) ≤ maxSize
    omega

end LRUCache

section MapAppend

variable {K α : Type} [DecidableEq K]

theorem mapFind_append_singleton (m : List (K × α)) (k x : K) (v : α) :
    mapFind (m ++ [(k, v)]) x =
      match mapFind m x with
      | some w => some w
      | none => if k = x then some v else none := by
  induction m with
  | nil => simp [mapFind]
  | cons p m ih =>
    obtain ⟨k', w⟩ := p
    by_cases hk : k' = x
    · simp [mapFind, hk]
    · rw [List.cons_append]
      simp only [mapFind, if_neg hk]
      exact ih

end MapAppend

/-! ## The LFU cache: the ordered set of pointers -/

namespace LFUCache

set_option linter.unusedSectionVars false

variable {Key Value : Type} [LinearOrder Key]

theorem itemLess_iff (a b : LFUItem Key Value) :
    itemLess a b = true ↔ a.counter < b.counter ∨ (a.counter = b.counter ∧ a.key < b.key) := by
  unfold itemLess
  by_cases h : a.counter = b.counter
  · simp [h]
  · rw [if_pos h, decide_eq_true_eq]
    constructor
    · intro hlt; exact Or.inl hlt
    · rintro (hlt | ⟨he, _⟩)
      · exact hlt
      · exact absurd he h

theorem itemLess_irrefl (a : LFUItem Key Value) : itemLess a a = false := by
  rw [Bool.eq_false_iff]
  intro h
  rw [itemLess_iff] at h
  rcases h with h | ⟨_, h⟩
  · exact lt_irrefl _ h
  · exact lt_irrefl _ h

theorem itemLess_asymm {a b : LFUItem Key Value} (h : itemLess a b = true) :
    itemLess b a = false := by
  rw [Bool.eq_false_iff]
  intro h2
  rw [itemLess_iff] at h h2
  rcases h with h | ⟨he, h⟩
  · rcases h2 with h2 | ⟨he2, _⟩
    · exact lt_asymm h h2
    · rw [he2] at h; exact lt_irrefl _ h
  · rcases h2 with h2 | ⟨_, h2⟩
    · rw [he] at h2; exact lt_irrefl _ h2
    · exact lt_asymm h h2

theorem itemLess_trans {a b c : LFUItem Key Value} (h1 : itemLess a b = true)
    (h2 : itemLess b c = true) : itemLess a c = true := by
  rw [itemLess_iff] at h1 h2 ⊢
  rcases h1 with h1 | ⟨e1, h1⟩
  · rcases h2 with h2 | ⟨e2, _⟩
    · exact Or.inl (lt_trans h1 h2)
    · exact Or.inl (by rw [← e2]; exact h1)
  · rcases h2 with h2 | ⟨e2, h2⟩
    · exact Or.inl (by rw [e1]; exact h2)
    · exact Or.inr ⟨e1.trans e2, lt_trans h1 h2⟩

theorem itemLess_total {a b : LFUItem Key Value} (hne : a.key ≠ b.key) :
    itemLess a b = true ∨ itemLess b a = true := by
  rw [itemLess_iff, itemLess_iff]
  rcases lt_trichotomy a.counter b.counter with h | h | h
  · exact Or.inl (Or.inl h)
  · rcases lt_or_gt_of_ne hne with h2 | h2
    · exact Or.inl (Or.inr ⟨h, h2⟩)
    · exact Or.inr (Or.inr ⟨h.symm, h2⟩)
  · exact Or.inr (Or.inl h)

theorem ptrLess_eq {objs : List (Nat × LFUItem Key Value)} {p q : Nat}
    {a b : LFUItem Key Value} (hp : mapFind objs p = some a) (hq : mapFind objs q = some b) :
    ptrLess objs p q = some (itemLess a b) := by
  simp only [ptrLess, hp, hq]

theorem ptrLess_true {objs : List (Nat × LFUItem Key Value)} {p q : Nat}
    (h : ptrLess objs p q = some true) :
    ∃ a b, mapFind objs p = some a ∧ mapFind objs q = some b ∧ itemLess a b = true := by
  unfold ptrLess at h
  cases hp : mapFind objs p with
  | none => simp [hp] at h
  | some a =>
    cases hq : mapFind objs q with
    | none => simp [hp, hq] at h
    | some b =>
      simp only [hp, hq, Option.some.injEq] at h
      exact ⟨a, b, rfl, rfl, h⟩

theorem ptrSorted_nodup {objs : List (Nat × LFUItem Key Value)} {kp : List Nat}
    (hs : PtrSorted objs kp) : kp.Nodup := by
  unfold PtrSorted at hs
  refine hs.imp ?_
  intro p q h hpq
  obtain ⟨a, b, hp, hq, hlt⟩ := ptrLess_true h
  rw [hpq, hq] at hp
  cases hp
  rw [itemLess_irrefl] at hlt
  cases hlt

/-- Erasing a pointer that is in the ordered set removes exactly that pointer. -/
theorem setErase_mem (objs : List (Nat × LFUItem Key Value)) :
    ∀ (kp : List Nat) (p : Nat), PtrSorted objs kp → p ∈ kp →
      (∃ a, mapFind objs p = some a) →
      setErase objs kp p = some (kp.erase p) := by
  intro kp
  induction kp with
  | nil => intro p _ hp; cases hp
  | cons q qs ih =>
    intro p hs hp hd
    have hs' := List.pairwise_cons.mp hs
    by_cases hqp : q = p
    · subst hqp
      obtain ⟨a, ha⟩ := hd
      simp only [setErase, ptrLess_eq ha ha, itemLess_irrefl, List.erase_cons_head]
    · have hpq : p ∈ qs := by
        rcases List.mem_cons.mp hp with h | h
        · exact absurd h.symm hqp
        · exact h
      obtain ⟨a, b, ha, hb, hlt⟩ := ptrLess_true (hs'.1 p hpq)
      have h1 : ptrLess objs p q = some false := by
        rw [ptrLess_eq hb ha, itemLess_asymm hlt]
      have h2 : ptrLess objs q p = some true := by
        rw [ptrLess_eq ha hb, hlt]
      simp only [setErase, h1, h2, ih p hs'.2 hpq hd]
      rw [List.erase_cons_tail (by simpa using hqp)]

/-- Inserting a pointer whose item has a key not yet in the ordered set succeeds and keeps
the set ordered. -/
theorem setInsert_spec (objs : List (Nat × LFUItem Key Value)) :
    ∀ (kp : List Nat) (p : Nat) (a : LFUItem Key Value), mapFind objs p = some a →
      PtrSorted objs kp →
      (∀ q ∈ kp, ∃ b, mapFind objs q = some b ∧ b.key ≠ a.key) →
      ∃ kp2, setInsert objs kp p = some (kp2, true) ∧ kp2.Perm (p :: kp) ∧
        PtrSorted objs kp2 := by
  intro kp
  induction kp with
  | nil =>
    intro p a _ _ _
    exact ⟨[p], rfl, List.Perm.refl _, List.pairwise_singleton _ _⟩
  | cons q qs ih =>
    intro p a ha hs hd
    have hs' := List.pairwise_cons.mp hs
    obtain ⟨b, hb, hne⟩ := hd q (List.mem_cons_self _ _)
    rcases itemLess_total (Ne.symm hne) with hlt | hlt
    · have h1 : ptrLess objs p q = some true := by rw [ptrLess_eq ha hb, hlt]
      have h2 : ptrLess objs q p = some false := by rw [ptrLess_eq hb ha, itemLess_asymm hlt]
      refine ⟨p :: q :: qs, by simp only [setInsert, h1, h2], List.Perm.refl _, ?_⟩
      refine List.pairwise_cons.mpr ⟨?_, hs⟩
      intro r hr
      rcases List.mem_cons.mp hr with h | h
      · rw [h]; exact h1
      · obtain ⟨b', c', hb', hc', hlt'⟩ := ptrLess_true (hs'.1 r h)
        rw [hb] at hb'
        cases hb'
        rw [ptrLess_eq ha hc', itemLess_trans hlt hlt']
    · have h1 : ptrLess objs p q = some false := by rw [ptrLess_eq ha hb, itemLess_asymm hlt]
      have h2 : ptrLess objs q p = some true := by rw [ptrLess_eq hb ha, hlt]
      obtain ⟨kp2, hins, hperm, hsorted⟩ :=
        ih p a ha hs'.2 (fun r hr => hd r (List.mem_cons_of_mem _ hr))
      refine ⟨q :: kp2, by simp only [setInsert, h1, h2, hins],
        (hperm.cons q).trans (List.Perm.swap p q qs), ?_⟩
      refine List.pairwise_cons.mpr ⟨?_, hsorted⟩
      intro r hr
      rcases List.mem_cons.mp (hperm.mem_iff.mp hr) with h | h
      · rw [h]; exact h2
      · exact hs'.1 r h

/-- The order of the set only depends on the objects its pointers refer to. -/
theorem ptrSorted_congr {objs objs1 : List (Nat × LFUItem Key Value)} {kp : List Nat}
    (hs : PtrSorted objs kp) (hsame : ∀ q ∈ kp, mapFind objs1 q = mapFind objs q) :
    PtrSorted objs1 kp := by
  unfold PtrSorted at hs ⊢
  refine hs.imp_of_mem ?_
  intro p q hp hq h
  unfold ptrLess at h ⊢
  rw [hsame p hp, hsame q hq]
  exact h

end LFUCache

/-! ## The LFU cache: the member functions preserve the invariant -/

namespace LFUCache

set_option linter.unusedSectionVars false

variable {Key Value : Type} [LinearOrder Key]

/-- The steps erase / update / re-insert on the item behind the pointer of key `k`. -/
theorem touch_spec (c : LFUCache Key Value) (k : Key) (p : Nat) (nv : Option Value)
    (hinv : LFUInv c) (hk : mapFind c.items k = some p) :
    ∃ (it : LFUItem Key Value) (c1 : LFUCache Key Value),
      c.itemOf k = some it ∧ it.key = k ∧
      c.touch p nv =
        some (c1, touched it nv) ∧
      LFUInv c1 ∧ c1.maxSize = c.maxSize ∧ c1.keyPriorities.length = c.keyPriorities.length ∧
      (∀ k', c1.itemOf k' =
        if k' = k then some (touched it nv)
        else c.itemOf k') := by
  obtain ⟨j1, j2, j4, j5, j6, j7⟩ := hinv
  obtain ⟨hpk, it, hit, hitk⟩ := j4 k p hk
  have hnd := ptrSorted_nodup j6
  have herase := setErase_mem c.objects c.keyPriorities p j6 hpk ⟨it, hit⟩
  have hsame : ∀ q, q ≠ p →
      mapFind (mapSet c.objects p
        (touched it nv)) q =
        mapFind c.objects q := by
    intro q hq
    rw [mapFind_mapSet, if_neg (Ne.symm hq)]
  have hnew : mapFind (mapSet c.objects p
      (touched it nv)) p =
      some (touched it nv) := by
    rw [mapFind_mapSet, if_pos rfl]
  have hne_of_mem : ∀ q ∈ c.keyPriorities.erase p, q ≠ p := by
    intro q hq hqp
    rw [hqp] at hq
    exact (List.Nodup.not_mem_erase hnd) hq
  have hsorted1 : PtrSorted (mapSet c.objects p
      (touched it nv))
      (c.keyPriorities.erase p) :=
    ptrSorted_congr (List.Pairwise.sublist (List.erase_sublist p c.keyPriorities) j6)
      (fun q hq => hsame q (hne_of_mem q hq))
  obtain ⟨kp2, hins, hperm, hsorted2⟩ :=
    setInsert_spec _ (c.keyPriorities.erase p) p _ hnew hsorted1 (by
      intro q hq
      have hqk := List.mem_of_mem_erase hq
      obtain ⟨b, hb, hbk⟩ := j5 q hqk
      refine ⟨b, by rw [hsame q (hne_of_mem q hq)]; exact hb, ?_⟩
      intro hkey
      have hkey' : b.key = k := by rw [← hitk]; exact hkey
      rw [hkey', hk] at hbk
      exact hne_of_mem q hq (Option.some.inj hbk).symm)
  have hperm2 : kp2.Perm c.keyPriorities := hperm.trans (List.perm_cons_erase hpk).symm
  have hitem : ∀ k', (match mapFind c.items k' with
      | none => none
      | some q => mapFind (mapSet c.objects p
          (touched it nv)) q) =
      if k' = k then some (touched it nv)
      else c.itemOf k' := by
    intro k'
    unfold itemOf
    cases hk' : mapFind c.items k' with
    | none =>
      have : k' ≠ k := by
        intro h; rw [h, hk] at hk'; cases hk'
      simp only [if_neg this]
    | some q =>
      obtain ⟨_, b, hb, hbk⟩ := j4 k' q hk'
      by_cases hqp : q = p
      · have : k' = k := by
          rw [hqp, hit] at hb
          cases hb
          rw [← hbk, hitk]
        simp only [hqp, hnew, if_pos this]
      · have : k' ≠ k := by
          intro h
          rw [h, hk] at hk'
          exact hqp (Option.some.inj hk').symm
        simp only [hsame q hqp, if_neg this]
  refine ⟨it, { c with objects := mapSet c.objects p (touched it nv), keyPriorities := kp2 },
    ?_, hitk, ?_, ?_, rfl, hperm2.length_eq, hitem⟩
  · simp only [itemOf, hk, hit]
  · simp only [touch, hit, herase, hins]
  · refine ⟨j1, mapSet_keys_nodup j2 _ _, ?_, ?_, hsorted2, ?_⟩
    · intro k' q hk'
      obtain ⟨hq, b, hb, hbk⟩ := j4 k' q hk'
      refine ⟨hperm2.mem_iff.mpr hq, ?_⟩
      by_cases hqp : q = p
      · refine ⟨_, by rw [hqp]; exact hnew, ?_⟩
        rw [hqp, hit] at hb
        cases hb
        exact hbk
      · exact ⟨b, by rw [hsame q hqp]; exact hb, hbk⟩
    · intro q hq
      have hq' := hperm2.mem_iff.mp hq
      by_cases hqp : q = p
      · refine ⟨_, by rw [hqp]; exact hnew, ?_⟩
        rw [hqp]
        show mapFind c.items it.key = some p
        rw [hitk]
        exact hk
      · obtain ⟨b, hb, hbk⟩ := j5 q hq'
        exact ⟨b, by rw [hsame q hqp]; exact hb, hbk⟩
    · intro q b hb
      by_cases hqp : q = p
      · rw [hqp]
        exact j7 p it hit
      · rw [hsame q hqp] at hb
        exact j7 q b hb

/-- Eviction removes the first pointer of the ordered set, whose item is least under the
comparator among the stored items. -/
theorem evict_head_spec (c : LFUCache Key Value) (p0 : Nat) (rest : List Nat)
    (hinv : LFUInv c) (hkp : c.keyPriorities = p0 :: rest) :
    ∃ (it0 : LFUItem Key Value) (c1 : LFUCache Key Value),
      c.evictOneEntry = some (c1, true) ∧ LFUInv c1 ∧ c1.maxSize = c.maxSize ∧
      c1.nextAddr = c.nextAddr ∧ c1.keyPriorities = rest ∧
      c.itemOf it0.key = some it0 ∧
      (∀ k', c1.itemOf k' = if k' = it0.key then none else c.itemOf k') ∧
      (∀ k' it', c.itemOf k' = some it' → k' = it0.key ∨ itemLess it0 it' = true) := by
  obtain ⟨j1, j2, j4, j5, j6, j7⟩ := hinv
  have hnd := ptrSorted_nodup j6
  rw [hkp] at hnd
  have hp0 : p0 ∈ c.keyPriorities := by rw [hkp]; exact List.mem_cons_self _ _
  obtain ⟨it0, hit0, hback⟩ := j5 p0 hp0
  have hsorted := j6
  unfold PtrSorted at hsorted
  rw [hkp] at hsorted
  have hs' := List.pairwise_cons.mp hsorted
  refine ⟨it0, { c with items := mapErase c.items it0.key, keyPriorities := rest }, ?_, ?_,
    rfl, rfl, rfl, ?_, ?_, ?_⟩
  · simp only [evictOneEntry, hkp, hit0]
  · refine ⟨mapErase_keys_nodup j1 _, j2, ?_, ?_, hs'.2, j7⟩
    · intro k' q hq
      change mapFind (mapErase c.items it0.key) k' = some q at hq
      rw [mapFind_mapErase] at hq
      by_cases hk' : it0.key = k'
      · rw [if_pos hk'] at hq
        cases hq
      · rw [if_neg hk'] at hq
        obtain ⟨hqm, b, hb, hbk⟩ := j4 k' q hq
        refine ⟨?_, b, hb, hbk⟩
        rw [hkp] at hqm
        rcases List.mem_cons.mp hqm with h | h
        · rw [h, hit0] at hb
          cases hb
          exact absurd hbk hk'
        · exact h
    · intro q hq
      have hqm : q ∈ c.keyPriorities := by rw [hkp]; exact List.mem_cons_of_mem _ hq
      obtain ⟨b, hb, hbk⟩ := j5 q hqm
      refine ⟨b, hb, ?_⟩
      show mapFind (mapErase c.items it0.key) b.key = some q
      rw [mapFind_mapErase]
      have hne : it0.key ≠ b.key := by
        intro h
        rw [← h, hback] at hbk
        have hqp : p0 = q := Option.some.inj hbk
        rw [← hqp] at hq
        exact (List.nodup_cons.mp hnd).1 hq
      rw [if_neg hne]
      exact hbk
  · simp only [itemOf, hback, hit0]
  · intro k'
    show (match mapFind (mapErase c.items it0.key) k' with
      | none => none
      | some p => mapFind c.objects p) = _
    rw [mapFind_mapErase]
    by_cases hk' : it0.key = k'
    · rw [if_pos hk', if_pos hk'.symm]
    · rw [if_neg hk', if_neg (Ne.symm hk')]
      rfl
  · intro k' it' hk'
    unfold itemOf at hk'
    cases hq : mapFind c.items k' with
    | none => rw [hq] at hk'; cases hk'
    | some q =>
      rw [hq] at hk'
      simp only at hk'
      obtain ⟨hqm, b, hb, hbk⟩ := j4 k' q hq
      rw [hk'] at hb
      cases hb
      rw [hkp] at hqm
      rcases List.mem_cons.mp hqm with h | h
      · left
        rw [h, hit0] at hk'
        cases hk'
        exact hbk.symm
      · right
        obtain ⟨a, b', ha, hb', hlt⟩ := ptrLess_true (hs'.1 q h)
        rw [hit0] at ha
        rw [hk'] at hb'
        cases ha
        cases hb'
        exact hlt

/-- Insertion of a fresh item for an absent key. -/
theorem insert_fresh_spec (c : LFUCache Key Value) (k : Key) (v : Value)
    (hinv : LFUInv c) (habs : mapFind c.items k = none) :
    ∃ kp2,
      setInsert (mapSet c.objects c.nextAddr { key := k, value := v, counter := 1 })
        c.keyPriorities c.nextAddr = some (kp2, true) ∧
      kp2.length = c.keyPriorities.length + 1 ∧
      LFUInv ({ c with
        objects := mapSet c.objects c.nextAddr { key := k, value := v, counter := 1 },
        keyPriorities := kp2,
        items := mapSet c.items k c.nextAddr,
        nextAddr := c.nextAddr + 1 }) ∧
      (∀ k', ({ c with
        objects := mapSet c.objects c.nextAddr { key := k, value := v, counter := 1 },
        keyPriorities := kp2,
        items := mapSet c.items k c.nextAddr,
        nextAddr := c.nextAddr + 1 } : LFUCache Key Value).itemOf k' =
        if k' = k then some { key := k, value := v, counter := 1 } else c.itemOf k') := by
  obtain ⟨j1, j2, j4, j5, j6, j7⟩ := hinv
  have hfresh : ∀ q b, mapFind c.objects q = some b → q ≠ c.nextAddr := by
    intro q b hb hq
    have := j7 q b hb
    omega
  have hsame : ∀ q, q ≠ c.nextAddr →
      mapFind (mapSet c.objects c.nextAddr
        ({ key := k, value := v, counter := 1 } : LFUItem Key Value)) q =
        mapFind c.objects q := by
    intro q hq
    rw [mapFind_mapSet, if_neg (Ne.symm hq)]
  have hnew : mapFind (mapSet c.objects c.nextAddr
      ({ key := k, value := v, counter := 1 } : LFUItem Key Value)) c.nextAddr =
      some { key := k, value := v, counter := 1 } := by
    rw [mapFind_mapSet, if_pos rfl]
  have hmemne : ∀ q ∈ c.keyPriorities, q ≠ c.nextAddr := by
    intro q hq
    obtain ⟨b, hb, _⟩ := j5 q hq
    exact hfresh q b hb
  obtain ⟨kp2, hins, hperm, hsorted2⟩ :=
    setInsert_spec _ c.keyPriorities c.nextAddr _ hnew
      (ptrSorted_congr j6 (fun q hq => hsame q (hmemne q hq))) (by
        intro q hq
        obtain ⟨b, hb, hbk⟩ := j5 q hq
        refine ⟨b, by rw [hsame q (hmemne q hq)]; exact hb, ?_⟩
        intro hkey
        simp only at hkey
        rw [hkey, habs] at hbk
        cases hbk)
  refine ⟨kp2, hins, by rw [hperm.length_eq]; rfl, ?_, ?_⟩
  · refine ⟨mapSet_keys_nodup j1 _ _, mapSet_keys_nodup j2 _ _, ?_, ?_, hsorted2, ?_⟩
    · intro k' q hq
      change mapFind (mapSet c.items k c.nextAddr) k' = some q at hq
      rw [mapFind_mapSet] at hq
      by_cases hkk : k = k'
      · rw [if_pos hkk] at hq
        cases hq
        exact ⟨hperm.mem_iff.mpr (List.mem_cons_self _ _), _, hnew, hkk⟩
      · rw [if_neg hkk] at hq
        obtain ⟨hqm, b, hb, hbk⟩ := j4 k' q hq
        exact ⟨hperm.mem_iff.mpr (List.mem_cons_of_mem _ hqm), b,
          by rw [hsame q (hmemne q hqm)]; exact hb, hbk⟩
    · intro q hq
      show ∃ it, mapFind (mapSet c.objects c.nextAddr _) q = some it ∧
        mapFind (mapSet c.items k c.nextAddr) it.key = some q
      rcases List.mem_cons.mp (hperm.mem_iff.mp hq) with h | h
      · rw [h]
        exact ⟨_, hnew, by rw [mapFind_mapSet, if_pos rfl]⟩
      · obtain ⟨b, hb, hbk⟩ := j5 q h
        refine ⟨b, by rw [hsame q (hmemne q h)]; exact hb, ?_⟩
        rw [mapFind_mapSet]
        have hne : k ≠ b.key := by
          intro hkey
          rw [← hkey, habs] at hbk
          cases hbk
        rw [if_neg hne]
        exact hbk
    · intro q b hb
      show q < c.nextAddr + 1
      change mapFind (mapSet c.objects c.nextAddr _) q = some b at hb
      by_cases hq : q = c.nextAddr
      · omega
      · rw [hsame q hq] at hb
        have := j7 q b hb
        omega
  · intro k'
    show (match mapFind (mapSet c.items k c.nextAddr) k' with
      | none => none
      | some p => mapFind (mapSet c.objects c.nextAddr _) p) = _
    rw [mapFind_mapSet]
    by_cases hkk : k = k'
    · rw [if_pos hkk, if_pos hkk.symm]
      exact hnew
    · rw [if_neg hkk, if_neg (Ne.symm hkk)]
      unfold itemOf
      cases hq : mapFind c.items k' with
      | none => rfl
      | some q =>
        obtain ⟨hqm, _⟩ := j4 k' q hq
        simp only
        exact hsame q (hmemne q hqm)

theorem lfu_set_present_spec (c : LFUCache Key Value) (k : Key) (v : Value) (p : Nat)
    (hinv : LFUInv c) (hk : mapFind c.items k = some p) :
    ∃ (it : LFUItem Key Value) (c1 : LFUCache Key Value),
      c.itemOf k = some it ∧ c.set k v = some (c1, true) ∧ LFUInv c1 ∧
      c1.maxSize = c.maxSize ∧ c1.keyPriorities.length = c.keyPriorities.length ∧
      (∀ k', c1.itemOf k' =
        if k' = k then some { key := k, value := v, counter := it.counter + 1 }
        else c.itemOf k') := by
  obtain ⟨it, c1, h1, hitk, h2, h3, h4, h5, h6⟩ := touch_spec c k p (some v) hinv hk
  refine ⟨it, c1, h1, by simp only [set, hk, h2], h3, h4, h5, ?_⟩
  intro k'
  rw [h6]
  simp only [touched, Option.getD_some, hitk]

theorem lfu_get_hit_spec (c : LFUCache Key Value) (k : Key) (p : Nat)
    (hinv : LFUInv c) (hk : mapFind c.items k = some p) :
    ∃ (it : LFUItem Key Value) (c1 : LFUCache Key Value),
      c.itemOf k = some it ∧ c.get k = some (c1, some it.value) ∧ LFUInv c1 ∧
      c1.maxSize = c.maxSize ∧ c1.keyPriorities.length = c.keyPriorities.length ∧
      (∀ k', c1.itemOf k' =
        if k' = k then some { key := k, value := it.value, counter := it.counter + 1 }
        else c.itemOf k') := by
  obtain ⟨it, c1, h1, hitk, h2, h3, h4, h5, h6⟩ := touch_spec c k p none hinv hk
  refine ⟨it, c1, h1, by simp only [get, hk, h2, touched, Option.getD_none], h3, h4, h5, ?_⟩
  intro k'
  rw [h6]
  simp only [touched, Option.getD_none, hitk]

theorem lfu_get_miss (c : LFUCache Key Value) (k : Key) (hk : mapFind c.items k = none) :
    c.get k = some (c, none) := by
  simp only [get, hk]

theorem lfu_set_absent_room_spec (c : LFUCache Key Value) (k : Key) (v : Value)
    (hinv : LFUInv c) (hk : mapFind c.items k = none)
    (hroom : ¬ (c.keyPriorities.length : Int) ≥ c.maxSize) :
    ∃ c1 : LFUCache Key Value, c.set k v = some (c1, true) ∧ LFUInv c1 ∧
      c1.maxSize = c.maxSize ∧ c1.keyPriorities.length = c.keyPriorities.length + 1 ∧
      (∀ k', c1.itemOf k' =
        if k' = k then some { key := k, value := v, counter := 1 } else c.itemOf k') := by
  obtain ⟨kp2, hins, hlen, hinv', hitem⟩ := insert_fresh_spec c k v hinv hk
  exact ⟨_, by simp only [set, hk, if_neg hroom, hins], hinv', rfl, hlen, hitem⟩

theorem lfu_set_absent_full_spec (c : LFUCache Key Value) (k : Key) (v : Value)
    (hinv : LFUInv c) (hk : mapFind c.items k = none)
    (hfull : (c.keyPriorities.length : Int) ≥ c.maxSize) (hne : c.keyPriorities ≠ []) :
    ∃ (it0 : LFUItem Key Value) (c1 : LFUCache Key Value),
      c.set k v = some (c1, true) ∧ LFUInv c1 ∧
      c1.maxSize = c.maxSize ∧ c1.keyPriorities.length = c.keyPriorities.length ∧
      c.itemOf it0.key = some it0 ∧
      (∀ k' it', c.itemOf k' = some it' → k' = it0.key ∨ itemLess it0 it' = true) ∧
      (∀ k', c1.itemOf k' =
        if k' = k then some { key := k, value := v, counter := 1 }
        else if k' = it0.key then none else c.itemOf k') := by
  cases hkp : c.keyPriorities with
  | nil => exact absurd hkp hne
  | cons p0 rest =>
    obtain ⟨it0, c1, hev, hinv1, hms1, hna1, hkp1, hit0, hitem1, hmin⟩ :=
      evict_head_spec c p0 rest hinv hkp
    have hk1 : mapFind c1.items k = none := by
      have h1 := hitem1 k
      have hk0 : c.itemOf k = none := by simp only [itemOf, hk]
      rw [hk0] at h1
      simp only [ite_self] at h1
      cases hq : mapFind c1.items k with
      | none => rfl
      | some q =>
        obtain ⟨_, b, hb, _⟩ := hinv1.2.2.1 k q hq
        simp only [itemOf, hq, hb] at h1
        cases h1
    obtain ⟨kp2, hins, hlen, hinv', hitem⟩ := insert_fresh_spec c1 k v hinv1 hk1
    refine ⟨it0, _, ?_, hinv', hms1, ?_, hit0, hmin, ?_⟩
    · have hfull' : (c.keyPriorities.length : Int) ≥ c.maxSize := hfull
      simp only [set, hk, if_pos hfull', hev, hins]
    · show kp2.length = (p0 :: rest).length
      rw [hlen, hkp1]
      rfl
    · intro k'
      rw [hitem k', hitem1 k']

end LFUCache

/-! ## The LFU cache: call sequences keep the invariant -/

namespace LFUCache

set_option linter.unusedSectionVars false

variable {Key Value : Type} [LinearOrder Key]

theorem lfu_create_bounded (maxSize : Int) (hmax : 1 ≤ maxSize) :
    LFUBounded (create maxSize : LFUCache Key Value) := by
  refine ⟨⟨List.nodup_nil, List.nodup_nil, ?_, ?_, List.Pairwise.nil, ?_⟩, hmax, ?_⟩
  · intro k p hk
    cases hk
  · intro p hp
    cases hp
  · intro p it hp
    cases hp
  · show ((0 : Nat) : Int) ≤ maxSize
    omega

theorem lfu_clear_bounded (c : LFUCache Key Value) (hb : LFUBounded c) :
    LFUBounded c.clear := by
  obtain ⟨⟨_, j2, _, _, _, j7⟩, hmax, _⟩ := hb
  refine ⟨⟨List.nodup_nil, j2, ?_, ?_, List.Pairwise.nil, j7⟩, hmax, ?_⟩
  · intro k p hk
    cases hk
  · intro p hp
    cases hp
  · show ((0 : Nat) : Int) ≤ c.maxSize
    omega

theorem lfu_set_total (c : LFUCache Key Value) (k : Key) (v : Value) (hb : LFUBounded c) :
    ∃ c1 : LFUCache Key Value, c.set k v = some (c1, true) ∧ LFUBounded c1 ∧
      c1.maxSize = c.maxSize := by
  obtain ⟨hinv, hmax, hlen⟩ := hb
  cases hk : mapFind c.items k with
  | some p =>
    obtain ⟨_, c1, _, hset, hinv1, hms, hl, _⟩ := lfu_set_present_spec c k v p hinv hk
    exact ⟨c1, hset, ⟨hinv1, by rw [hms]; exact hmax, by rw [hms, hl]; exact hlen⟩, hms⟩
  | none =>
    by_cases hfull : (c.keyPriorities.length : Int) ≥ c.maxSize
    · have hne : c.keyPriorities ≠ [] := by
        intro he
        rw [he] at hfull
        simp at hfull
        omega
      obtain ⟨_, c1, hset, hinv1, hms, hl, _⟩ :=
        lfu_set_absent_full_spec c k v hinv hk hfull hne
      exact ⟨c1, hset, ⟨hinv1, by rw [hms]; exact hmax, by rw [hms, hl]; exact hlen⟩, hms⟩
    · obtain ⟨c1, hset, hinv1, hms, hl, _⟩ := lfu_set_absent_room_spec c k v hinv hk hfull
      refine ⟨c1, hset, ⟨hinv1, by rw [hms]; exact hmax, ?_⟩, hms⟩
      rw [hms, hl]
      push_cast
      omega

theorem lfu_get_total (c : LFUCache Key Value) (k : Key) (hb : LFUBounded c) :
    ∃ (c1 : LFUCache Key Value) (r : Option Value), c.get k = some (c1, r) ∧ LFUBounded c1 ∧
      c1.maxSize = c.maxSize := by
  obtain ⟨hinv, hmax, hlen⟩ := hb
  cases hk : mapFind c.items k with
  | some p =>
    obtain ⟨it, c1, _, hget, hinv1, hms, hl, _⟩ := lfu_get_hit_spec c k p hinv hk
    exact ⟨c1, some it.value, hget,
      ⟨hinv1, by rw [hms]; exact hmax, by rw [hms, hl]; exact hlen⟩, hms⟩
  | none => exact ⟨c, none, lfu_get_miss c k hk, ⟨hinv, hmax, hlen⟩, rfl⟩

theorem lfu_step_spec (c : LFUCache Key Value) (op : CacheOp Key Value) (hb : LFUBounded c) :
    ∃ c1 : LFUCache Key Value, c.step op = some c1 ∧ LFUBounded c1 ∧
      c1.maxSize = c.maxSize := by
  cases op with
  | set k v =>
    obtain ⟨c1, hset, hb1, hms⟩ := lfu_set_total c k v hb
    exact ⟨c1, by simp only [step, hset, Option.map_some'], hb1, hms⟩
  | get k =>
    obtain ⟨c1, r, hget, hb1, hms⟩ := lfu_get_total c k hb
    exact ⟨c1, by simp only [step, hget, Option.map_some'], hb1, hms⟩
  | clear => exact ⟨c.clear, rfl, lfu_clear_bounded c hb, rfl⟩

theorem lfu_run_spec (ops : List (CacheOp Key Value)) : ∀ (c : LFUCache Key Value),
    LFUBounded c →
    ∃ c1 : LFUCache Key Value, c.run ops = some c1 ∧ LFUBounded c1 ∧
      c1.maxSize = c.maxSize := by
  induction ops with
  | nil => intro c hb; exact ⟨c, rfl, hb, rfl⟩
  | cons op ops ih =>
    intro c hb
    obtain ⟨c1, hstep, hb1, hms1⟩ := lfu_step_spec c op hb
    obtain ⟨c2, hrun, hb2, hms2⟩ := ih c1 hb1
    exact ⟨c2, by simp only [run, hstep]; exact hrun, hb2, by rw [hms2, hms1]⟩

theorem entry_none_iff (c : LFUCache Key Value) (hinv : LFUInv c) (k : Key) :
    c.entry k = none ↔ mapFind c.items k = none := by
  unfold entry itemOf
  cases hk : mapFind c.items k with
  | none => simp
  | some p =>
    obtain ⟨_, it, hit, _⟩ := hinv.2.2.1 k p hk
    simp [hit]

end LFUCache

/-! ## Round trip `set` / `get` for both caches -/

namespace LRUCache

set_option linter.unusedSectionVars false

variable {Key Value : Type} [DecidableEq Key]

theorem mapFind_dropLast {m : List (Key × Value)} {k : Key} {w : Value}
    (h : mapFind m.dropLast k = some w) : mapFind m k = some w := by
  cases hl : m.getLast? with
  | none =>
    rw [List.getLast?_eq_none_iff.mp hl] at h
    cases h
  | some last =>
    obtain ⟨init, hinit⟩ := List.getLast?_eq_some_iff.mp hl
    obtain ⟨lk, lv⟩ := last
    rw [hinit] at h ⊢
    rw [List.dropLast_concat] at h
    rw [mapFind_append_singleton, h]

theorem mapFind_mapErase_ne (m : List (Key × Value)) {k k' : Key} (hne : k' ≠ k) :
    mapFind (mapErase m k') k = mapFind m k := by
  rw [mapFind_mapErase, if_neg hne]

theorem lru_get_keeps (c : LRUCache Key Value) (k k' : Key) (v : Value) (hinv : LRUInv c)
    (hk : mapFind c.entries k = some v) :
    ∃ c', c.get k' = some (c', mapFind c.entries k') ∧ LRUInv c' ∧
      c'.maxSize = c.maxSize ∧ mapFind c'.entries k = some v := by
  obtain ⟨c', hget, hinv', hms, hent⟩ := get_spec c k' hinv
  refine ⟨c', hget, hinv', hms, ?_⟩
  rw [hent]
  cases hf : mapFind c.entries k' with
  | none => exact hk
  | some v0 =>
    simp only [mapFind]
    by_cases hkk : k' = k
    · rw [if_pos hkk]
      rw [hkk, hk] at hf
      exact hf.symm
    · rw [if_neg hkk, mapFind_mapErase_ne _ hkk]
      exact hk

theorem lru_set_other_keeps (c : LRUCache Key Value) (k k' : Key) (v v' : Value)
    (hinv : LRUInv c) (hne : k' ≠ k) (hk : mapFind c.entries k = some v) :
    ∃ c', c.set k' v' = some (c', true) ∧ LRUInv c' ∧ c'.maxSize = c.maxSize ∧
      (mapFind c'.entries k = some v ∨
        (mapFind c'.entries k = none ∧ mapFind c.entries k' = none ∧
          (c.entries.length : Int) ≥ c.maxSize)) := by
  obtain ⟨c', hset, hinv', hms, hent⟩ := set_spec c k' v' hinv
  refine ⟨c', hset, hinv', hms, ?_⟩
  rw [hent]
  simp only [mapFind, if_neg hne]
  cases hf : mapFind c.entries k' with
  | some v0 =>
    left
    simp only [Option.isSome_some, if_true]
    rw [mapFind_mapErase_ne _ hne]
    exact hk
  | none =>
    simp only [Option.isSome_none, Bool.false_eq_true, if_false]
    by_cases hfull : (c.entries.length : Int) ≥ c.maxSize
    · rw [if_pos hfull]
      cases hd : mapFind c.entries.dropLast k with
      | none => exact Or.inr ⟨rfl, trivial, hfull⟩
      | some w =>
        left
        have := mapFind_dropLast hd
        rw [hk] at this
        rw [this]
    · rw [if_neg hfull]
      exact Or.inl hk

theorem lru_set_read (c : LRUCache Key Value) (k : Key) (v : Value) (hinv : LRUInv c) :
    ∃ c', c.set k v = some (c', true) ∧ LRUInv c' ∧ c'.maxSize = c.maxSize ∧
      mapFind c'.entries k = some v := by
  obtain ⟨c', hset, hinv', hms, hent⟩ := set_spec c k v hinv
  refine ⟨c', hset, hinv', hms, ?_⟩
  rw [hent]
  simp [mapFind]

theorem lru_stored_iff (c : LRUCache Key Value) (hinv : LRUInv c) (k : Key) :
    c.stored k = true ↔ ∃ v, mapFind c.entries k = some v := by
  unfold stored
  rw [read_eq c k hinv]
  cases mapFind c.entries k with
  | none => simp
  | some v => simp

theorem lru_keeps_spec (k : Key) (v : Value) (ops : List (CacheOp Key Value)) :
    ∀ h : LRUHistory Key Value, HistoryInv h → mapFind h.cache.entries k = some v →
      keeps k h.cache ops = true →
      ∃ c2, h.cache.run ops = some c2 ∧ c2.read k = some (some v) := by
  induction ops with
  | nil =>
    intro h hinv hk _
    exact ⟨h.cache, rfl, by rw [read_eq _ _ hinv.1, hk]⟩
  | cons op ops ih =>
    intro h hinv hk hkeeps
    obtain ⟨h1, _, hinv1, _, hstep⟩ := stepHistory_spec h op hinv
    simp only [keeps, hstep, Bool.and_eq_true, Bool.not_eq_true'] at hkeeps
    obtain ⟨hnot, hst, hrest⟩ := hkeeps
    obtain ⟨w, hw⟩ := (lru_stored_iff h1.cache hinv1.1 k).mp hst
    have hval : mapFind h1.cache.entries k = some v := by
      cases op with
      | set k' v' =>
        have hne : k' ≠ k := by
          simpa [CacheOp.isSetOn] using hnot
        obtain ⟨c', hset, _, _, hcase⟩ := lru_set_other_keeps h.cache k k' v v' hinv.1 hne hk
        simp only [step, hset, Option.map_some', Option.some.injEq] at hstep
        rw [← hstep]
        rcases hcase with h1' | ⟨h1', _, _⟩
        · exact h1'
        · rw [← hstep, h1'] at hw
          cases hw
      | get k' =>
        obtain ⟨c', hget, _, _, hv⟩ := lru_get_keeps h.cache k k' v hinv.1 hk
        simp only [step, hget, Option.map_some', Option.some.injEq] at hstep
        rw [← hstep]
        exact hv
      | clear =>
        simp only [step, Option.some.injEq] at hstep
        rw [← hstep] at hw
        cases hw
    obtain ⟨c2, hrun, hread⟩ := ih h1 hinv1 hval hrest
    exact ⟨c2, by simp only [run, hstep]; exact hrun, hread⟩

end LRUCache

namespace LFUCache

set_option linter.unusedSectionVars false

variable {Key Value : Type} [LinearOrder Key]

theorem lfu_read_eq (c : LFUCache Key Value) (hinv : LFUInv c) (k : Key) :
    c.read k = some ((c.entry k).map Prod.fst) := by
  cases hk : mapFind c.items k with
  | none =>
    rw [(entry_none_iff c hinv k).mpr hk]
    simp only [read, lfu_get_miss c k hk, Option.map_some', Option.map_none']
  | some p =>
    obtain ⟨it, c1, hit, hget, _⟩ := lfu_get_hit_spec c k p hinv hk
    simp only [read, hget, entry, hit, Option.map_some']

theorem lfu_stored_iff (c : LFUCache Key Value) (hinv : LFUInv c) (k : Key) :
    c.stored k = true ↔ ∃ v, (c.entry k).map Prod.fst = some v := by
  unfold stored
  rw [lfu_read_eq c hinv k]
  cases (c.entry k).map Prod.fst with
  | none => simp
  | some v => simp

theorem lfu_set_read (c : LFUCache Key Value) (k : Key) (v : Value) (hb : LFUBounded c) :
    ∃ c' : LFUCache Key Value, c.set k v = some (c', true) ∧ LFUBounded c' ∧
      (c'.entry k).map Prod.fst = some v := by
  obtain ⟨hinv, hmax, hlen⟩ := hb
  cases hk : mapFind c.items k with
  | some p =>
    obtain ⟨_, c1, _, hset, hinv1, hms, hl, hitem⟩ := lfu_set_present_spec c k v p hinv hk
    refine ⟨c1, hset, ⟨hinv1, by rw [hms]; exact hmax, by rw [hms, hl]; exact hlen⟩, ?_⟩
    simp only [entry, hitem, if_true, Option.map_some']
  | none =>
    by_cases hfull : (c.keyPriorities.length : Int) ≥ c.maxSize
    · have hne : c.keyPriorities ≠ [] := by
        intro he
        rw [he] at hfull
        simp at hfull
        omega
      obtain ⟨_, c1, hset, hinv1, hms, hl, _, _, hitem⟩ :=
        lfu_set_absent_full_spec c k v hinv hk hfull hne
      refine ⟨c1, hset, ⟨hinv1, by rw [hms]; exact hmax, by rw [hms, hl]; exact hlen⟩, ?_⟩
      simp only [entry, hitem, if_true, Option.map_some']
    · obtain ⟨c1, hset, hinv1, hms, hl, hitem⟩ :=
        lfu_set_absent_room_spec c k v hinv hk hfull
      refine ⟨c1, hset, ⟨hinv1, by rw [hms]; exact hmax, ?_⟩, ?_⟩
      · rw [hms, hl]
        push_cast
        omega
      · simp only [entry, hitem, if_true, Option.map_some']

theorem lfu_get_keeps (c : LFUCache Key Value) (k k' : Key) (v : Value) (hb : LFUBounded c)
    (hk : (c.entry k).map Prod.fst = some v) :
    ∃ (c' : LFUCache Key Value) (r : Option Value), c.get k' = some (c', r) ∧
      LFUBounded c' ∧ (c'.entry k).map Prod.fst = some v := by
  obtain ⟨hinv, hmax, hlen⟩ := hb
  cases hk' : mapFind c.items k' with
  | none => exact ⟨c, none, lfu_get_miss c k' hk', ⟨hinv, hmax, hlen⟩, hk⟩
  | some p =>
    obtain ⟨it, c1, hit, hget, hinv1, hms, hl, hitem⟩ := lfu_get_hit_spec c k' p hinv hk'
    refine ⟨c1, some it.value, hget,
      ⟨hinv1, by rw [hms]; exact hmax, by rw [hms, hl]; exact hlen⟩, ?_⟩
    by_cases hkk : k = k'
    · simp only [entry, hitem, if_pos hkk, Option.map_some']
      rw [hkk] at hk
      simp only [entry, hit, Option.map_some'] at hk
      exact hk
    · simp only [entry, hitem, if_neg hkk]
      exact hk

theorem lfu_set_other_keeps (c : LFUCache Key Value) (k k' : Key) (v v' : Value)
    (hb : LFUBounded c) (hne : k' ≠ k) (hk : (c.entry k).map Prod.fst = some v) :
    ∃ c' : LFUCache Key Value, c.set k' v' = some (c', true) ∧ LFUBounded c' ∧
      ((c'.entry k).map Prod.fst = some v ∨
        (c'.entry k = none ∧ c.entry k' = none ∧ c.size = c.maxSize)) := by
  obtain ⟨hinv, hmax, hlen⟩ := hb
  cases hk' : mapFind c.items k' with
  | some p =>
    obtain ⟨_, c1, _, hset, hinv1, hms, hl, hitem⟩ := lfu_set_present_spec c k' v' p hinv hk'
    refine ⟨c1, hset, ⟨hinv1, by rw [hms]; exact hmax, by rw [hms, hl]; exact hlen⟩, Or.inl ?_⟩
    simp only [entry, hitem, if_neg (Ne.symm hne)]
    exact hk
  | none =>
    by_cases hfull : (c.keyPriorities.length : Int) ≥ c.maxSize
    · have hnil : c.keyPriorities ≠ [] := by
        intro he
        rw [he] at hfull
        simp at hfull
        omega
      obtain ⟨it0, c1, hset, hinv1, hms, hl, _, _, hitem⟩ :=
        lfu_set_absent_full_spec c k' v' hinv hk' hfull hnil
      refine ⟨c1, hset, ⟨hinv1, by rw [hms]; exact hmax, by rw [hms, hl]; exact hlen⟩, ?_⟩
      by_cases hkm : k = it0.key
      · right
        refine ⟨?_, (entry_none_iff c hinv k').mpr hk', ?_⟩
        · simp only [entry, hitem, if_neg (Ne.symm hne), if_pos hkm, Option.map_none']
        · show (c.keyPriorities.length : Int) = c.maxSize
          omega
      · left
        simp only [entry, hitem, if_neg (Ne.symm hne), if_neg hkm]
        exact hk
    · obtain ⟨c1, hset, hinv1, hms, hl, hitem⟩ :=
        lfu_set_absent_room_spec c k' v' hinv hk' hfull
      refine ⟨c1, hset, ⟨hinv1, by rw [hms]; exact hmax, ?_⟩, Or.inl ?_⟩
      · rw [hms, hl]
        push_cast
        omega
      · simp only [entry, hitem, if_neg (Ne.symm hne)]
        exact hk

theorem lfu_keeps_spec (k : Key) (v : Value) (ops : List (CacheOp Key Value)) :
    ∀ c : LFUCache Key Value, LFUBounded c → (c.entry k).map Prod.fst = some v →
      keeps k c ops = true →
      ∃ c2 : LFUCache Key Value, c.run ops = some c2 ∧ c2.read k = some (some v) := by
  induction ops with
  | nil =>
    intro c hb hk _
    exact ⟨c, rfl, by rw [lfu_read_eq c hb.1 k, hk]⟩
  | cons op ops ih =>
    intro c hb hk hkeeps
    obtain ⟨c1, hstep, hb1, _⟩ := lfu_step_spec c op hb
    simp only [keeps, hstep, Bool.and_eq_true, Bool.not_eq_true'] at hkeeps
    obtain ⟨hnot, hst, hrest⟩ := hkeeps
    obtain ⟨w, hw⟩ := (lfu_stored_iff c1 hb1.1 k).mp hst
    have hval : (c1.entry k).map Prod.fst = some v := by
      cases op with
      | set k' v' =>
        have hne : k' ≠ k := by
          simpa [CacheOp.isSetOn] using hnot
        obtain ⟨c', hset, _, hcase⟩ := lfu_set_other_keeps c k k' v v' hb hne hk
        simp only [step, hset, Option.map_some', Option.some.injEq] at hstep
        rw [← hstep]
        rcases hcase with h1' | ⟨h1', _, _⟩
        · exact h1'
        · rw [← hstep, h1'] at hw
          cases hw
      | get k' =>
        obtain ⟨c', r, hget, _, hv⟩ := lfu_get_keeps c k k' v hb hk
        simp only [step, hget, Option.map_some', Option.some.injEq] at hstep
        rw [← hstep]
        exact hv
      | clear =>
        simp only [step, Option.some.injEq] at hstep
        rw [← hstep] at hw
        simp [clear, entry, itemOf, mapFind] at hw
    obtain ⟨c2, hrun, hread⟩ := ih c1 hb1 hval hrest
    exact ⟨c2, by simp only [run, hstep]; exact hrun, hread⟩

end LFUCache

/-! ## Claims about the caches -/

section CacheClaims

/-- C3: for every `maxSize >= 1` and every state of `LRUCache` reached by `set` / `get` /
`clear` calls (every such call returns, and at most `maxSize` keys are stored): when
exactly `maxSize` keys are stored, `set(k, v)` with `k` absent removes exactly one key
`m`, the stored key whose most recent touch (a `set` on it or a successful `get` of it) is
older than that of every other stored key, keeps every other key with its value, and
stores `k` with `v`; when fewer than `maxSize` keys are stored no key is removed. -/
theorem lru_eviction_policy {Key Value : Type} [DecidableEq Key]
    (maxSize : Int) (hmax : 1 ≤ maxSize) (ops : List (CacheOp Key Value)) :
    ∃ h : LRUCache.LRUHistory Key Value,
      LRUCache.runHistory (LRUCache.startHistory maxSize) ops = some h ∧
      (LRUCache.create maxSize).run ops = some h.cache ∧
      h.cache.size ≤ maxSize ∧
      ∀ (k : Key) (v : Value), h.cache.read k = some none →
        (h.cache.size = maxSize →
          ∃ (m : Key) (c' : LRUCache Key Value), h.cache.set k v = some (c', true) ∧
            (∃ vm, h.cache.read m = some (some vm)) ∧
            (∀ k', k' ≠ m → (∃ v', h.cache.read k' = some (some v')) →
              ∃ tm tk, mapFind h.lastTouch m = some tm ∧ mapFind h.lastTouch k' = some tk ∧
                tm < tk) ∧
            c'.read m = some none ∧
            (∀ k', k' ≠ m → k' ≠ k → c'.read k' = h.cache.read k') ∧
            c'.read k = some (some v) ∧ c'.size = maxSize) ∧
        (h.cache.size < maxSize →
          ∃ c' : LRUCache Key Value, h.cache.set k v = some (c', true) ∧
            (∀ k', k' ≠ k → c'.read k' = h.cache.read k') ∧
            c'.read k = some (some v) ∧ c'.size = h.cache.size + 1) := by
  obtain ⟨h, hrun, hinv, hms, hcrun⟩ :=
    LRUCache.runHistory_spec ops (LRUCache.startHistory maxSize)
      (LRUCache.startHistory_inv maxSize hmax)
  have hms' : h.cache.maxSize = maxSize := hms
  obtain ⟨hc, ho, _, hlen⟩ := hinv
  have hsize : h.cache.size = (h.cache.entries.length : Int) := by
    simp [LRUCache.size, LRUCache.entries]
  refine ⟨h, hrun, hcrun, by rw [hsize, ← hms']; exact hlen, ?_⟩
  intro k v habs
  rw [LRUCache.read_eq _ _ hc] at habs
  have hf : mapFind h.cache.entries k = none := Option.some.inj habs
  obtain ⟨c', hset, hinv', hms2, hent⟩ := LRUCache.set_spec h.cache k v hc
  rw [hf] at hent
  simp only [Option.isSome_none, Bool.false_eq_true, if_false] at hent
  have hsize' : c'.size = (c'.entries.length : Int) := by
    simp [LRUCache.size, LRUCache.entries]
  have hread : ∀ x, h.cache.read x = some (mapFind h.cache.entries x) :=
    fun x => LRUCache.read_eq _ x hc
  have hread' : ∀ x, c'.read x = some (mapFind c'.entries x) :=
    fun x => LRUCache.read_eq _ x hinv'
  constructor
  · intro hfull
    rw [hsize] at hfull
    rw [if_pos (by rw [hms', hfull])] at hent
    have hne : h.cache.entries ≠ [] := by
      intro he
      rw [he] at hfull
      simp at hfull
      omega
    obtain ⟨last, hlast⟩ : ∃ last, h.cache.entries.getLast? = some last := by
      cases hg : h.cache.entries.getLast? with
      | none => exact absurd (List.getLast?_eq_none_iff.mp hg) hne
      | some last => exact ⟨last, rfl⟩
    obtain ⟨init, hinit⟩ := List.getLast?_eq_some_iff.mp hlast
    obtain ⟨m, vm⟩ := last
    have hdrop : h.cache.entries.dropLast = init := by
      rw [hinit]; simp
    rw [hdrop] at hent
    have hnd := LRUCache.entries_keys_nodup hc
    rw [hinit] at hnd
    simp only [List.map_append, List.map_cons, List.map_nil] at hnd
    have hdisj := (List.nodup_append.mp hnd).2.2
    have hminit : mapFind init m = none := by
      rw [mapFind_eq_none_iff]
      intro hm
      exact hdisj hm (List.mem_singleton_self _)
    have hkm : k ≠ m := by
      intro hkm
      rw [hinit, mapFind_append_singleton, hkm, hminit] at hf
      simp at hf
    refine ⟨m, c', hset, ⟨vm, ?_⟩, ?_, ?_, ?_, ?_, ?_⟩
    · rw [hread, hinit, mapFind_append_singleton, hminit]
      simp
    · rintro k' hk' ⟨v', hv'⟩
      rw [hread] at hv'
      have hmem := mapFind_mem (Option.some.inj hv')
      rw [hinit] at hmem
      have hin : (k', v') ∈ init := by
        rcases List.mem_append.mp hmem with h1 | h1
        · exact h1
        · simp only [List.mem_singleton, Prod.mk.injEq] at h1
          exact absurd h1.1 hk'
      have hpw := ho.1
      rw [hinit, List.pairwise_append] at hpw
      obtain ⟨t1, t2, h1, h2, h3⟩ := hpw.2.2 (k', v') hin (m, vm) (List.mem_singleton_self _)
      exact ⟨t2, t1, h2, h1, h3⟩
    · rw [hread', hent]
      simp only [mapFind, if_neg hkm, hminit]
    · intro k' hk'm hk'k
      rw [hread', hread, hent, hinit, mapFind_append_singleton]
      simp only [mapFind, if_neg (Ne.symm hk'k)]
      cases mapFind init k' with
      | some w => rfl
      | none => simp [Ne.symm hk'm]
    · rw [hread', hent]
      simp [mapFind]
    · rw [hsize', hent, ← hfull, hinit]
      simp
  · intro hlt
    rw [hsize] at hlt
    rw [if_neg (by rw [hms']; omega)] at hent
    refine ⟨c', hset, ?_, ?_, ?_⟩
    · intro k' hk'k
      rw [hread', hread, hent]
      simp only [mapFind, if_neg (Ne.symm hk'k)]
    · rw [hread', hent]
      simp [mapFind]
    · rw [hsize', hsize, hent]
      simp

theorem lru_eviction_policy_witness :
    ∃ h : LRUCache.LRUHistory Int String,
      LRUCache.runHistory (LRUCache.startHistory 2)
        [.set 1 "one", .set 2 "two", .get 1] = some h ∧
      (LRUCache.create 2).run [.set 1 "one", .set 2 "two", .get 1] = some h.cache ∧
      h.cache.size ≤ 2 ∧
      ∀ (k : Int) (v : String), h.cache.read k = some none →
        (h.cache.size = 2 →
          ∃ (m : Int) (c' : LRUCache Int String), h.cache.set k v = some (c', true) ∧
            (∃ vm, h.cache.read m = some (some vm)) ∧
            (∀ k', k' ≠ m → (∃ v', h.cache.read k' = some (some v')) →
              ∃ tm tk, mapFind h.lastTouch m = some tm ∧ mapFind h.lastTouch k' = some tk ∧
                tm < tk) ∧
            c'.read m = some none ∧
            (∀ k', k' ≠ m → k' ≠ k → c'.read k' = h.cache.read k') ∧
            c'.read k = some (some v) ∧ c'.size = 2) ∧
        (h.cache.size < 2 →
          ∃ c' : LRUCache Int String, h.cache.set k v = some (c', true) ∧
            (∀ k', k' ≠ k → c'.read k' = h.cache.read k') ∧
            c'.read k = some (some v) ∧ c'.size = h.cache.size + 1) :=
  lru_eviction_policy 2 (by decide) _

/-- The run of `test_eviction_order`: capacity 2, `set(1)`, `set(2)`, `get(1)`, `set(3)`
evicts 2 and keeps 1 and 3. -/
theorem lru_eviction_test :
    ((LRUCache.create 2 : LRUCache Int String).run
      [.set 1 "one", .set 2 "two", .get 1, .set 3 "three"]).map
      (fun c => (c.read 2, c.read 1, c.read 3)) =
      some (some none, some (some "one"), some (some "three")) := by
  decide

/-- C4: for every `maxSize >= 1` and every state of `LFUCache` reached by `set` / `get` /
`clear` calls (every such call returns, and at most `maxSize` keys are stored): when
exactly `maxSize` keys are stored, `set(k, v)` with `k` absent removes exactly the stored
key `m` that is least under the order (access counter ascending, then key ascending),
every other key keeps its value and counter, and `k` is stored with value `v` and counter
1; below capacity `k` is stored with counter 1 and nothing is removed; the counter of a
stored key grows by 1 on each `set` of it and on each successful `get` of it, and such a
call changes no other key. -/
theorem lfu_eviction_policy {Key Value : Type} [LinearOrder Key]
    (maxSize : Int) (hmax : 1 ≤ maxSize) (ops : List (CacheOp Key Value)) :
    ∃ c : LFUCache Key Value, (LFUCache.create maxSize).run ops = some c ∧
      c.size ≤ maxSize ∧
      ∀ (k : Key) (v : Value),
        (c.entry k = none → c.size = maxSize →
          ∃ (m : Key) (vm : Value) (cm : Int) (c' : LFUCache Key Value),
            c.set k v = some (c', true) ∧ c.entry m = some (vm, cm) ∧
            (∀ k' v' n', c.entry k' = some (v', n') → cm < n' ∨ (cm = n' ∧ m ≤ k')) ∧
            c'.entry m = none ∧
            (∀ k', k' ≠ m → k' ≠ k → c'.entry k' = c.entry k') ∧
            c'.entry k = some (v, 1) ∧ c'.size = maxSize) ∧
        (c.entry k = none → c.size < maxSize →
          ∃ c' : LFUCache Key Value, c.set k v = some (c', true) ∧
            (∀ k', k' ≠ k → c'.entry k' = c.entry k') ∧
            c'.entry k = some (v, 1) ∧ c'.size = c.size + 1) ∧
        (∀ v0 n, c.entry k = some (v0, n) →
          ∃ c' : LFUCache Key Value, c.set k v = some (c', true) ∧
            c'.entry k = some (v, n + 1) ∧
            (∀ k', k' ≠ k → c'.entry k' = c.entry k') ∧ c'.size = c.size) ∧
        (∀ v0 n, c.entry k = some (v0, n) →
          ∃ c' : LFUCache Key Value, c.get k = some (c', some v0) ∧
            c'.entry k = some (v0, n + 1) ∧
            (∀ k', k' ≠ k → c'.entry k' = c.entry k') ∧ c'.size = c.size) ∧
        (c.entry k = none → c.get k = some (c, none)) := by
  obtain ⟨c, hrun, hb, hms⟩ :=
    LFUCache.lfu_run_spec ops (LFUCache.create maxSize) (LFUCache.lfu_create_bounded maxSize hmax)
  have hms' : c.maxSize = maxSize := hms
  obtain ⟨hinv, _, hlen⟩ := hb
  have hsize : c.size = (c.keyPriorities.length : Int) := rfl
  refine ⟨c, hrun, by rw [hsize, ← hms']; exact hlen, ?_⟩
  intro k v
  refine ⟨?_, ?_, ?_, ?_, ?_⟩
  · intro habs hfull
    have hk := (LFUCache.entry_none_iff c hinv k).mp habs
    rw [hsize, ← hms'] at hfull
    have hne : c.keyPriorities ≠ [] := by
      intro he
      rw [he] at hfull
      simp at hfull
      omega
    obtain ⟨it0, c', hset, _, _, hl, hit0, hmin, hitem⟩ :=
      LFUCache.lfu_set_absent_full_spec c k v hinv hk (by omega) hne
    have hkm : k ≠ it0.key := by
      intro h
      have : c.entry it0.key = none := by rw [← h]; exact habs
      simp [LFUCache.entry, hit0] at this
    refine ⟨it0.key, it0.value, it0.counter, c', hset, ?_, ?_, ?_, ?_, ?_, ?_⟩
    · simp only [LFUCache.entry, hit0, Option.map_some']
    · intro k' v' n' hk'
      unfold LFUCache.entry at hk'
      cases hi : c.itemOf k' with
      | none => rw [hi] at hk'; cases hk'
      | some it' =>
        rw [hi] at hk'
        simp only [Option.map_some', Option.some.injEq, Prod.mk.injEq] at hk'
        rcases hmin k' it' hi with h | h
        · have : it' = it0 := by
            rw [h, hit0] at hi
            exact (Option.some.inj hi).symm
          right
          rw [← hk'.2, this, h]
          exact ⟨rfl, le_refl _⟩
        · rw [LFUCache.itemLess_iff] at h
          have hkey : it'.key = k' := by
            unfold LFUCache.itemOf at hi
            cases hq : mapFind c.items k' with
            | none => rw [hq] at hi; cases hi
            | some q =>
              rw [hq] at hi
              obtain ⟨_, b, hb', hbk⟩ := hinv.2.2.1 k' q hq
              simp only at hi
              rw [hi] at hb'
              cases hb'
              exact hbk
          rw [← hk'.2, ← hkey]
          rcases h with h | ⟨h1, h2⟩
          · exact Or.inl h
          · exact Or.inr ⟨h1, le_of_lt h2⟩
    · simp only [LFUCache.entry, hitem, if_neg (Ne.symm hkm), if_true, Option.map_none']
    · intro k' h1 h2
      simp only [LFUCache.entry, hitem, if_neg h2, if_neg h1]
    · simp only [LFUCache.entry, hitem, if_true, Option.map_some']
    · show (c'.keyPriorities.length : Int) = maxSize
      rw [hl, ← hms']
      exact hfull
  · intro habs hroom
    have hk := (LFUCache.entry_none_iff c hinv k).mp habs
    rw [hsize, ← hms'] at hroom
    obtain ⟨c', hset, _, _, hl, hitem⟩ :=
      LFUCache.lfu_set_absent_room_spec c k v hinv hk (by omega)
    refine ⟨c', hset, ?_, ?_, ?_⟩
    · intro k' h1
      simp only [LFUCache.entry, hitem, if_neg h1]
    · simp only [LFUCache.entry, hitem, if_true, Option.map_some']
    · show (c'.keyPriorities.length : Int) = (c.keyPriorities.length : Int) + 1
      rw [hl]
      push_cast
      rfl
  · intro v0 n hent
    cases hk : mapFind c.items k with
    | none =>
      rw [(LFUCache.entry_none_iff c hinv k).mpr hk] at hent
      cases hent
    | some p =>
      obtain ⟨it, c', hit, hset, _, _, hl, hitem⟩ :=
        LFUCache.lfu_set_present_spec c k v p hinv hk
      simp only [LFUCache.entry, hit, Option.map_some', Option.some.injEq,
        Prod.mk.injEq] at hent
      refine ⟨c', hset, ?_, ?_, ?_⟩
      · simp only [LFUCache.entry, hitem, if_true, Option.map_some', hent.2]
      · intro k' h1
        simp only [LFUCache.entry, hitem, if_neg h1]
      · show (c'.keyPriorities.length : Int) = (c.keyPriorities.length : Int)
        rw [hl]
  · intro v0 n hent
    cases hk : mapFind c.items k with
    | none =>
      rw [(LFUCache.entry_none_iff c hinv k).mpr hk] at hent
      cases hent
    | some p =>
      obtain ⟨it, c', hit, hget, _, _, hl, hitem⟩ :=
        LFUCache.lfu_get_hit_spec c k p hinv hk
      simp only [LFUCache.entry, hit, Option.map_some', Option.some.injEq,
        Prod.mk.injEq] at hent
      refine ⟨c', by rw [hget, hent.1], ?_, ?_, ?_⟩
      · simp only [LFUCache.entry, hitem, if_true, Option.map_some', hent.1, hent.2]
      · intro k' h1
        simp only [LFUCache.entry, hitem, if_neg h1]
      · show (c'.keyPriorities.length : Int) = (c.keyPriorities.length : Int)
        rw [hl]
  · intro habs
    exact LFUCache.lfu_get_miss c k ((LFUCache.entry_none_iff c hinv k).mp habs)

theorem lfu_eviction_policy_witness :
    ∃ c : LFUCache Int String,
      (LFUCache.create 2).run [.set 1 "one", .set 2 "two", .get 1, .get 1, .get 2] = some c ∧
      c.size ≤ 2 ∧
      ∀ (k : Int) (v : String),
        (c.entry k = none → c.size = 2 →
          ∃ (m : Int) (vm : String) (cm : Int) (c' : LFUCache Int String),
            c.set k v = some (c', true) ∧ c.entry m = some (vm, cm) ∧
            (∀ k' v' n', c.entry k' = some (v', n') → cm < n' ∨ (cm = n' ∧ m ≤ k')) ∧
            c'.entry m = none ∧
            (∀ k', k' ≠ m → k' ≠ k → c'.entry k' = c.entry k') ∧
            c'.entry k = some (v, 1) ∧ c'.size = 2) ∧
        (c.entry k = none → c.size < 2 →
          ∃ c' : LFUCache Int String, c.set k v = some (c', true) ∧
            (∀ k', k' ≠ k → c'.entry k' = c.entry k') ∧
            c'.entry k = some (v, 1) ∧ c'.size = c.size + 1) ∧
        (∀ v0 n, c.entry k = some (v0, n) →
          ∃ c' : LFUCache Int String, c.set k v = some (c', true) ∧
            c'.entry k = some (v, n + 1) ∧
            (∀ k', k' ≠ k → c'.entry k' = c.entry k') ∧ c'.size = c.size) ∧
        (∀ v0 n, c.entry k = some (v0, n) →
          ∃ c' : LFUCache Int String, c.get k = some (c', some v0) ∧
            c'.entry k = some (v0, n + 1) ∧
            (∀ k', k' ≠ k → c'.entry k' = c.entry k') ∧ c'.size = c.size) ∧
        (c.entry k = none → c.get k = some (c, none)) :=
  lfu_eviction_policy 2 (by decide) _

/-- The runs of `test_eviction_with_same_frequency` and `test_eviction`: with capacity 2,
`set(1)`, `set(2)`, `set(3)` evicts 1; `set(1)`, `set(2)`, `get(1)`, `get(1)`, `get(2)`,
`set(3)` evicts 2. -/
theorem lfu_eviction_test :
    ((LFUCache.create 2 : LFUCache Int String).run
      [.set 1 "one", .set 2 "two", .set 3 "three"]).map
      (fun c => (c.read 1, c.read 2, c.read 3)) =
      some (some none, some (some "two"), some (some "three")) ∧
    ((LFUCache.create 2 : LFUCache Int String).run
      [.set 1 "one", .set 2 "two", .get 1, .get 1, .get 2, .set 3 "three"]).map
      (fun c => (c.read 1, c.read 2, c.read 3)) =
      some (some (some "one"), some none, some (some "three")) := by
  constructor <;> decide

/-- C6: for both caches, every `maxSize >= 1`, every reachable state `c`, every key `k`
and value `v`: `set(k, v)` returns true and `get(k)` issued directly afterwards returns
`v`; and after any later calls along which `k` is not set again and stays stored (it is
neither evicted nor dropped by `clear`), `get(k)` still returns `v`. A stored key loses its
value only in these ways: a `get` of any key keeps it, a `set` of another key keeps it or
evicts it, the latter only when that other key was absent and the cache was full, and
`clear` drops it. -/
theorem cache_round_trip {Key Value : Type} [LinearOrder Key]
    (maxSize : Int) (hmax : 1 ≤ maxSize) (ops : List (CacheOp Key Value)) :
    (∃ c : LRUCache Key Value, (LRUCache.create maxSize).run ops = some c ∧
      ∀ (k : Key) (v : Value),
        (∃ c1 : LRUCache Key Value, c.set k v = some (c1, true) ∧
          c1.read k = some (some v) ∧
          ∀ ops2, c1.keeps k ops2 = true →
            ∃ c2 : LRUCache Key Value, c1.run ops2 = some c2 ∧ c2.read k = some (some v)) ∧
        (c.read k = some (some v) →
          (∀ k', ∃ (c' : LRUCache Key Value) (r : Option Value),
            c.get k' = some (c', r) ∧ c'.read k = some (some v)) ∧
          (∀ k' v', k' ≠ k → ∃ c' : LRUCache Key Value, c.set k' v' = some (c', true) ∧
            (c'.read k = some (some v) ∨
              (c'.read k = some none ∧ c.read k' = some none ∧ c.size = maxSize))) ∧
          c.clear.read k = some none)) ∧
    (∃ c : LFUCache Key Value, (LFUCache.create maxSize).run ops = some c ∧
      ∀ (k : Key) (v : Value),
        (∃ c1 : LFUCache Key Value, c.set k v = some (c1, true) ∧
          c1.read k = some (some v) ∧
          ∀ ops2, c1.keeps k ops2 = true →
            ∃ c2 : LFUCache Key Value, c1.run ops2 = some c2 ∧ c2.read k = some (some v)) ∧
        (c.read k = some (some v) →
          (∀ k', ∃ (c' : LFUCache Key Value) (r : Option Value),
            c.get k' = some (c', r) ∧ c'.read k = some (some v)) ∧
          (∀ k' v', k' ≠ k → ∃ c' : LFUCache Key Value, c.set k' v' = some (c', true) ∧
            (c'.read k = some (some v) ∨
              (c'.read k = some none ∧ c.read k' = some none ∧ c.size = maxSize))) ∧
          c.clear.read k = some none)) := by
  constructor
  · obtain ⟨h, _, hinv, hms, hcrun⟩ :=
      LRUCache.runHistory_spec ops (LRUCache.startHistory maxSize)
        (LRUCache.startHistory_inv maxSize hmax)
    have hms' : h.cache.maxSize = maxSize := hms
    refine ⟨h.cache, hcrun, ?_⟩
    intro k v
    constructor
    · obtain ⟨h1, _, hinv1, _, hstep⟩ := LRUCache.stepHistory_spec h (.set k v) hinv
      obtain ⟨c1, hset, _, _, hval⟩ := LRUCache.lru_set_read h.cache k v hinv.1
      have hc1 : h1.cache = c1 := by
        simp only [LRUCache.step, hset, Option.map_some', Option.some.injEq] at hstep
        exact hstep.symm
      refine ⟨c1, hset, ?_, ?_⟩
      · rw [← hc1, LRUCache.read_eq _ _ hinv1.1, hc1, hval]
      · intro ops2 hkeeps
        rw [← hc1] at hkeeps hval ⊢
        exact LRUCache.lru_keeps_spec k v ops2 h1 hinv1 hval hkeeps
    · intro hread
      rw [LRUCache.read_eq _ _ hinv.1] at hread
      have hk : mapFind h.cache.entries k = some v := Option.some.inj hread
      refine ⟨?_, ?_, ?_⟩
      · intro k'
        obtain ⟨c', hget, hinv', _, hv⟩ := LRUCache.lru_get_keeps h.cache k k' v hinv.1 hk
        exact ⟨c', _, hget, by rw [LRUCache.read_eq _ _ hinv', hv]⟩
      · intro k' v' hne
        obtain ⟨c', hset, hinv', _, hcase⟩ :=
          LRUCache.lru_set_other_keeps h.cache k k' v v' hinv.1 hne hk
        refine ⟨c', hset, ?_⟩
        rcases hcase with h1 | ⟨h1, h2, h3⟩
        · exact Or.inl (by rw [LRUCache.read_eq _ _ hinv', h1])
        · refine Or.inr ⟨by rw [LRUCache.read_eq _ _ hinv', h1],
            by rw [LRUCache.read_eq _ _ hinv.1, h2], ?_⟩
          have hsize : h.cache.size = (h.cache.entries.length : Int) := by
            simp [LRUCache.size, LRUCache.entries]
          have hle := hinv.2.2.2
          rw [hsize]
          omega
      · rw [LRUCache.read_eq _ _ (LRUCache.clear_inv h.cache)]
        rfl
  · obtain ⟨c, hrun, hb, hms⟩ :=
      LFUCache.lfu_run_spec ops (LFUCache.create maxSize)
        (LFUCache.lfu_create_bounded maxSize hmax)
    have hms' : c.maxSize = maxSize := hms
    refine ⟨c, hrun, ?_⟩
    intro k v
    constructor
    · obtain ⟨c1, hset, hb1, hval⟩ := LFUCache.lfu_set_read c k v hb
      refine ⟨c1, hset, by rw [LFUCache.lfu_read_eq c1 hb1.1 k, hval], ?_⟩
      intro ops2 hkeeps
      exact LFUCache.lfu_keeps_spec k v ops2 c1 hb1 hval hkeeps
    · intro hread
      rw [LFUCache.lfu_read_eq c hb.1 k] at hread
      have hk : (c.entry k).map Prod.fst = some v := Option.some.inj hread
      refine ⟨?_, ?_, ?_⟩
      · intro k'
        obtain ⟨c', r, hget, hb', hv⟩ := LFUCache.lfu_get_keeps c k k' v hb hk
        exact ⟨c', r, hget, by rw [LFUCache.lfu_read_eq c' hb'.1 k, hv]⟩
      · intro k' v' hne
        obtain ⟨c', hset, hb', hcase⟩ := LFUCache.lfu_set_other_keeps c k k' v v' hb hne hk
        refine ⟨c', hset, ?_⟩
        rcases hcase with h1 | ⟨h1, h2, h3⟩
        · exact Or.inl (by rw [LFUCache.lfu_read_eq c' hb'.1 k, h1])
        · refine Or.inr ⟨by rw [LFUCache.lfu_read_eq c' hb'.1 k, h1]; rfl,
            by rw [LFUCache.lfu_read_eq c hb.1 k', h2]; rfl, by rw [h3, hms']⟩
      · rw [LFUCache.lfu_read_eq _ (LFUCache.lfu_clear_bounded c hb).1 k]
        rfl

theorem cache_round_trip_witness :
    (∃ c : LRUCache Int String,
      (LRUCache.create 2).run [.set 1 "one", .set 2 "two", .get 1] = some c ∧
      ∀ (k : Int) (v : String),
        (∃ c1 : LRUCache Int String, c.set k v = some (c1, true) ∧
          c1.read k = some (some v) ∧
          ∀ ops2, c1.keeps k ops2 = true →
            ∃ c2 : LRUCache Int String, c1.run ops2 = some c2 ∧ c2.read k = some (some v)) ∧
        (c.read k = some (some v) →
          (∀ k', ∃ (c' : LRUCache Int String) (r : Option String),
            c.get k' = some (c', r) ∧ c'.read k = some (some v)) ∧
          (∀ k' v', k' ≠ k → ∃ c' : LRUCache Int String, c.set k' v' = some (c', true) ∧
            (c'.read k = some (some v) ∨
              (c'.read k = some none ∧ c.read k' = some none ∧ c.size = 2))) ∧
          c.clear.read k = some none)) ∧
    (∃ c : LFUCache Int String,
      (LFUCache.create 2).run [.set 1 "one", .set 2 "two", .get 1] = some c ∧
      ∀ (k : Int) (v : String),
        (∃ c1 : LFUCache Int String, c.set k v = some (c1, true) ∧
          c1.read k = some (some v) ∧
          ∀ ops2, c1.keeps k ops2 = true →
            ∃ c2 : LFUCache Int String, c1.run ops2 = some c2 ∧ c2.read k = some (some v)) ∧
        (c.read k = some (some v) →
          (∀ k', ∃ (c' : LFUCache Int String) (r : Option String),
            c.get k' = some (c', r) ∧ c'.read k = some (some v)) ∧
          (∀ k' v', k' ≠ k → ∃ c' : LFUCache Int String, c.set k' v' = some (c', true) ∧
            (c'.read k = some (some v) ∨
              (c'.read k = some none ∧ c.read k' = some none ∧ c.size = 2))) ∧
          c.clear.read k = some none)) :=
  cache_round_trip 2 (by decide) _

/-- The run of `test_update_value` on both caches: capacity 2, `set(1,"one")`,
`set(2,"two")`, `get(1)` returns "one", `set(1,"uno")`, `get(1)` returns "uno". -/
theorem cache_update_test :
    ((LRUCache.create 2 : LRUCache Int String).run [.set 1 "one", .set 2 "two"]).map
      (fun c => (c.read 1, (c.run [.get 1, .set 1 "uno"]).map (fun d => d.read 1))) =
      some (some (some "one"), some (some (some "uno"))) ∧
    ((LFUCache.create 2 : LFUCache Int String).run [.set 1 "one", .set 2 "two"]).map
      (fun c => (c.read 1, (c.run [.get 1, .set 1 "uno"]).map (fun d => d.read 1))) =
      some (some (some "one"), some (some (some "uno"))) := by
  constructor <;> decide

end CacheClaims

/-! ## The LFU cache: invariant for every capacity, counters, representation -/

namespace LFUCache

set_option linter.unusedSectionVars false

variable {Key Value : Type} [LinearOrder Key]

theorem lfu_create_inv (maxSize : Int) : LFUInv (create maxSize : LFUCache Key Value) := by
  refine ⟨List.nodup_nil, List.nodup_nil, ?_, ?_, List.Pairwise.nil, ?_⟩
  · intro k p hk
    cases hk
  · intro p hp
    cases hp
  · intro p it hp
    cases hp

theorem lfu_clear_inv (c : LFUCache Key Value) (hinv : LFUInv c) : LFUInv c.clear := by
  obtain ⟨_, j2, _, _, _, j7⟩ := hinv
  refine ⟨List.nodup_nil, j2, ?_, ?_, List.Pairwise.nil, j7⟩
  · intro k p hk
    cases hk
  · intro p hp
    cases hp

/-- The call `set` on an absent key when the ordered set is empty and the capacity is
reached all the same (a capacity `<= 0`): the eviction finds nothing to evict and the
insertion goes ahead. -/
theorem lfu_set_absent_empty_spec (c : LFUCache Key Value) (k : Key) (v : Value)
    (hinv : LFUInv c) (hk : mapFind c.items k = none)
    (hfull : (c.keyPriorities.length : Int) ≥ c.maxSize) (he : c.keyPriorities = []) :
    ∃ c1 : LFUCache Key Value, c.set k v = some (c1, true) ∧ LFUInv c1 ∧
      c1.maxSize = c.maxSize ∧ c1.keyPriorities.length = c.keyPriorities.length + 1 ∧
      (∀ k', c1.itemOf k' =
        if k' = k then some { key := k, value := v, counter := 1 } else c.itemOf k') := by
  obtain ⟨kp2, hins, hlen, hinv', hitem⟩ := insert_fresh_spec c k v hinv hk
  have hev : c.evictOneEntry = some (c, false) := by simp only [evictOneEntry, he]
  exact ⟨_, by simp only [set, hk, if_pos hfull, hev, hins], hinv', rfl, hlen, hitem⟩

/-- In every state that satisfies the representation invariant `set` returns `true`, keeps
the invariant and stores the pair; the other keys keep their items except for at most one
evicted key. -/
theorem lfu_set_inv (c : LFUCache Key Value) (k : Key) (v : Value) (hinv : LFUInv c) :
    ∃ (c1 : LFUCache Key Value) (n : Int), c.set k v = some (c1, true) ∧ LFUInv c1 ∧
      c1.maxSize = c.maxSize ∧
      c1.itemOf k = some { key := k, value := v, counter := n } ∧
      (n = if (c.itemOf k).isSome then ((c.itemOf k).map (fun it => it.counter)).getD 0 + 1
           else 1) ∧
      (∀ k', k' ≠ k → c1.itemOf k' = c.itemOf k' ∨ c1.itemOf k' = none) := by
  cases hk : mapFind c.items k with
  | some p =>
    obtain ⟨it, c1, hit, hset, hinv1, hms, _, hitem⟩ := lfu_set_present_spec c k v p hinv hk
    refine ⟨c1, it.counter + 1, hset, hinv1, hms, ?_, ?_, ?_⟩
    · rw [hitem k, if_pos rfl]
    · simp only [hit, Option.isSome_some, if_true, Option.map_some', Option.getD_some]
    · intro k' hne
      rw [hitem k', if_neg hne]
      exact Or.inl rfl
  | none =>
    have hnone : c.itemOf k = none := by simp only [itemOf, hk]
    by_cases hfull : (c.keyPriorities.length : Int) ≥ c.maxSize
    · by_cases he : c.keyPriorities = []
      · obtain ⟨c1, hset, hinv1, hms, _, hitem⟩ :=
          lfu_set_absent_empty_spec c k v hinv hk hfull he
        refine ⟨c1, 1, hset, hinv1, hms, ?_, ?_, ?_⟩
        · rw [hitem k, if_pos rfl]
        · simp [hnone]
        · intro k' hne
          rw [hitem k', if_neg hne]
          exact Or.inl rfl
      · obtain ⟨it0, c1, hset, hinv1, hms, _, _, _, hitem⟩ :=
          lfu_set_absent_full_spec c k v hinv hk hfull he
        refine ⟨c1, 1, hset, hinv1, hms, ?_, ?_, ?_⟩
        · rw [hitem k, if_pos rfl]
        · simp [hnone]
        · intro k' hne
          rw [hitem k', if_neg hne]
          by_cases h0 : k' = it0.key
          · rw [if_pos h0]; exact Or.inr rfl
          · rw [if_neg h0]; exact Or.inl rfl
    · obtain ⟨c1, hset, hinv1, hms, _, hitem⟩ := lfu_set_absent_room_spec c k v hinv hk hfull
      refine ⟨c1, 1, hset, hinv1, hms, ?_, ?_, ?_⟩
      · rw [hitem k, if_pos rfl]
      · simp [hnone]
      · intro k' hne
        rw [hitem k', if_neg hne]
        exact Or.inl rfl

theorem lfu_get_inv (c : LFUCache Key Value) (k : Key) (hinv : LFUInv c) :
    ∃ (c1 : LFUCache Key Value) (r : Option Value), c.get k = some (c1, r) ∧ LFUInv c1 ∧
      c1.maxSize = c.maxSize := by
  cases hk : mapFind c.items k with
  | some p =>
    obtain ⟨it, c1, _, hget, hinv1, hms, _, _⟩ := lfu_get_hit_spec c k p hinv hk
    exact ⟨c1, some it.value, hget, hinv1, hms⟩
  | none => exact ⟨c, none, lfu_get_miss c k hk, hinv, rfl⟩

theorem lfu_step_inv (c : LFUCache Key Value) (op : CacheOp Key Value) (hinv : LFUInv c) :
    ∃ c1 : LFUCache Key Value, c.step op = some c1 ∧ LFUInv c1 ∧ c1.maxSize = c.maxSize := by
  cases op with
  | set k v =>
    obtain ⟨c1, _, hset, hinv1, hms, _⟩ := lfu_set_inv c k v hinv
    exact ⟨c1, by simp only [step, hset, Option.map_some'], hinv1, hms⟩
  | get k =>
    obtain ⟨c1, r, hget, hinv1, hms⟩ := lfu_get_inv c k hinv
    exact ⟨c1, by simp only [step, hget, Option.map_some'], hinv1, hms⟩
  | clear => exact ⟨c.clear, rfl, lfu_clear_inv c hinv, rfl⟩

theorem lfu_run_inv (ops : List (CacheOp Key Value)) : ∀ c : LFUCache Key Value, LFUInv c →
    ∃ c1 : LFUCache Key Value, c.run ops = some c1 ∧ LFUInv c1 ∧ c1.maxSize = c.maxSize := by
  induction ops with
  | nil => intro c hinv; exact ⟨c, rfl, hinv, rfl⟩
  | cons op ops ih =>
    intro c hinv
    obtain ⟨c1, hstep, hinv1, hms1⟩ := lfu_step_inv c op hinv
    obtain ⟨c2, hrun, hinv2, hms2⟩ := ih c1 hinv1
    exact ⟨c2, by simp only [run, hstep]; exact hrun, hinv2, by rw [hms2, hms1]⟩

end LFUCache

/-! ## The LFU cache: the counters count the touches since the last insertion -/

namespace LFUCache

set_option linter.unusedSectionVars false

variable {Key Value : Type} [LinearOrder Key]

theorem lfu_stored_eq (c : LFUCache Key Value) (hinv : LFUInv c) (k : Key) :
    c.stored k = (mapFind c.items k).isSome := by
  cases hk : mapFind c.items k with
  | none =>
    have hg := lfu_get_miss c k hk
    simp only [stored, read, hg, Option.map_some', Option.isSome_none]
  | some p =>
    obtain ⟨it, c1, _, hget, _⟩ := lfu_get_hit_spec c k p hinv hk
    simp only [stored, read, hget, Option.map_some', Option.isSome_some]

theorem touchCount_mapSet (c c1 : LFUCache Key Value) (t : List (Key × Int)) (k k' : Key)
    (n : Int) :
    touchCount ({ cache := c1, touches := mapSet t k n } : LFUHistory Key Value) k' =
      if k = k' then n else touchCount ({ cache := c, touches := t } : LFUHistory Key Value) k' := by
  simp only [touchCount, mapFind_mapSet]
  split_ifs <;> rfl

/-- The counts stay in agreement when the record of one key is set to match its new
counter and every other stored item was stored before. -/
theorem countsAgree_update (h : LFUHistory Key Value) (c1 : LFUCache Key Value) (k : Key)
    (n : Int) (hagree : CountsAgree h)
    (hself : ∀ it, c1.itemOf k = some it → it.counter = 1 + n)
    (hother : ∀ k' it, k' ≠ k → c1.itemOf k' = some it → h.cache.itemOf k' = some it) :
    CountsAgree ({ cache := c1, touches := mapSet h.touches k n } : LFUHistory Key Value) := by
  intro k' it hit
  have hit' : c1.itemOf k' = some it := hit
  rw [touchCount_mapSet h.cache c1 h.touches k k' n]
  by_cases hkk : k = k'
  · rw [if_pos hkk]
    rw [← hkk] at hit'
    exact hself it hit'
  · rw [if_neg hkk]
    exact hagree k' it (hother k' it (Ne.symm hkk) hit')

theorem lfu_stepHistory_spec (h : LFUHistory Key Value) (op : CacheOp Key Value)
    (hinv : LFUInv h.cache) (hagree : CountsAgree h) :
    ∃ h1 : LFUHistory Key Value, stepHistory h op = some h1 ∧ LFUInv h1.cache ∧
      CountsAgree h1 ∧ h.cache.step op = some h1.cache := by
  cases op with
  | set k v =>
    cases hk : mapFind h.cache.items k with
    | some p =>
      obtain ⟨it, c1, hit, hset, hinv1, _, _, hitem⟩ :=
        lfu_set_present_spec h.cache k v p hinv hk
      have hst : h.cache.stored k = true := by rw [lfu_stored_eq _ hinv, hk]; rfl
      refine ⟨{ cache := c1, touches := bump h k }, ?_, hinv1, ?_, ?_⟩
      · simp only [stepHistory, hset, hst, if_true]
      · apply countsAgree_update h c1 k _ hagree
        · intro it1 hit1
          rw [hitem k, if_pos rfl] at hit1
          cases hit1
          have := hagree k it hit
          simp only
          omega
        · intro k' it1 hne hit1
          rw [hitem k', if_neg hne] at hit1
          exact hit1
      · simp only [step, hset, Option.map_some']
    | none =>
      have hst : h.cache.stored k = false := by rw [lfu_stored_eq _ hinv, hk]; rfl
      obtain ⟨c1, n, hset, hinv1, _, hself, hn, hother⟩ := lfu_set_inv h.cache k v hinv
      have hnone : h.cache.itemOf k = none := by simp only [itemOf, hk]
      rw [hnone] at hn
      simp only [Option.isSome_none, Bool.false_eq_true, if_false] at hn
      refine ⟨{ cache := c1, touches := mapSet h.touches k 0 }, ?_, hinv1, ?_, ?_⟩
      · simp only [stepHistory, hset, hst, Bool.false_eq_true, if_false]
      · apply countsAgree_update h c1 k _ hagree
        · intro it1 hit1
          rw [hself] at hit1
          cases hit1
          simp only
          omega
        · intro k' it1 hne hit1
          rcases hother k' hne with ho | ho
          · rw [← ho]; exact hit1
          · rw [ho] at hit1; cases hit1
      · simp only [step, hset, Option.map_some']
  | get k =>
    cases hk : mapFind h.cache.items k with
    | some p =>
      obtain ⟨it, c1, hit, hget, hinv1, _, _, hitem⟩ :=
        lfu_get_hit_spec h.cache k p hinv hk
      refine ⟨{ cache := c1, touches := bump h k }, ?_, hinv1, ?_, ?_⟩
      · simp only [stepHistory, hget]
      · apply countsAgree_update h c1 k _ hagree
        · intro it1 hit1
          rw [hitem k, if_pos rfl] at hit1
          cases hit1
          have := hagree k it hit
          simp only
          omega
        · intro k' it1 hne hit1
          rw [hitem k', if_neg hne] at hit1
          exact hit1
      · simp only [step, hget, Option.map_some']
    | none =>
      have hget := lfu_get_miss h.cache k hk
      refine ⟨{ cache := h.cache, touches := h.touches }, ?_, hinv, hagree, ?_⟩
      · simp only [stepHistory, hget]
      · simp only [step, hget, Option.map_some']
  | clear =>
    refine ⟨{ cache := h.cache.clear, touches := h.touches }, rfl, lfu_clear_inv _ hinv, ?_, rfl⟩
    intro k it hit
    have : (h.cache.clear).itemOf k = none := rfl
    rw [show ({ cache := h.cache.clear, touches := h.touches } : LFUHistory Key Value).cache
      = h.cache.clear from rfl, this] at hit
    cases hit

theorem lfu_runHistory_spec (ops : List (CacheOp Key Value)) : ∀ h : LFUHistory Key Value,
    LFUInv h.cache → CountsAgree h →
    ∃ h1 : LFUHistory Key Value, runHistory h ops = some h1 ∧ LFUInv h1.cache ∧
      CountsAgree h1 ∧ h.cache.run ops = some h1.cache := by
  induction ops with
  | nil => intro h hinv hagree; exact ⟨h, rfl, hinv, hagree, rfl⟩
  | cons op ops ih =>
    intro h hinv hagree
    obtain ⟨h1, hstep, hinv1, hagree1, hc1⟩ := lfu_stepHistory_spec h op hinv hagree
    obtain ⟨h2, hrun, hinv2, hagree2, hc2⟩ := ih h1 hinv1 hagree1
    exact ⟨h2, by simp only [runHistory, hstep]; exact hrun, hinv2, hagree2,
      by simp only [run, hc1]; exact hc2⟩

/-- The pointers of the lookup map are exactly the pointers of the ordered set, each
once. -/
theorem lfu_items_perm {c : LFUCache Key Value} (hinv : LFUInv c) :
    (c.items.map Prod.snd).Perm c.keyPriorities := by
  obtain ⟨j1, j2, j4, j5, j6, j7⟩ := hinv
  have hnd : (c.items.map Prod.snd).Nodup := by
    apply List.Nodup.map_on _ (List.Nodup.of_map _ j1)
    intro x hx y hy hxy
    obtain ⟨k1, p1⟩ := x
    obtain ⟨k2, p2⟩ := y
    simp only at hxy
    obtain ⟨_, it1, hit1, hk1⟩ := j4 k1 p1 (mapFind_of_mem j1 hx)
    obtain ⟨_, it2, hit2, hk2⟩ := j4 k2 p2 (mapFind_of_mem j1 hy)
    rw [hxy, hit2] at hit1
    cases hit1
    rw [← hk1, ← hk2, hxy]
  rw [List.perm_ext_iff_of_nodup hnd (ptrSorted_nodup j6)]
  intro p
  constructor
  · intro hp
    obtain ⟨x, hx, hxp⟩ := List.mem_map.mp hp
    obtain ⟨k, q⟩ := x
    simp only at hxp
    rw [hxp] at hx
    exact (j4 k p (mapFind_of_mem j1 hx)).1
  · intro hp
    obtain ⟨it, _, hback⟩ := j5 p hp
    exact List.mem_map.mpr ⟨(it.key, p), mapFind_mem hback, rfl⟩

theorem lfu_stored_iff_mem (c : LFUCache Key Value) (hinv : LFUInv c) (k : Key) :
    c.stored k = true ↔ k ∈ c.items.map Prod.fst := by
  rw [lfu_stored_eq c hinv k]
  cases hk : mapFind c.items k with
  | none =>
    have := (mapFind_eq_none_iff c.items k).mp hk
    simp [this]
  | some p =>
    have : k ∈ c.items.map Prod.fst := List.mem_map.mpr ⟨(k, p), mapFind_mem hk, rfl⟩
    simp [this]

theorem lfu_items_eq_nil_of_empty {c : LFUCache Key Value} (hinv : LFUInv c)
    (he : c.keyPriorities = []) : c.items = [] := by
  have h := (lfu_items_perm hinv).length_eq
  rw [he] at h
  simpa using h

end LFUCache

/-! ## The LRU cache: invariant for every capacity, promotion, representation -/

namespace LRUCache

set_option linter.unusedSectionVars false

variable {Key Value : Type} [DecidableEq Key]

theorem lru_step_inv (c : LRUCache Key Value) (op : CacheOp Key Value) (hinv : LRUInv c) :
    ∃ c', c.step op = some c' ∧ LRUInv c' ∧ c'.maxSize = c.maxSize := by
  cases op with
  | set k v =>
    obtain ⟨c', hset, hinv', hms, _⟩ := set_spec c k v hinv
    exact ⟨c', by simp only [step, hset, Option.map_some'], hinv', hms⟩
  | get k =>
    obtain ⟨c', hget, hinv', hms, _⟩ := get_spec c k hinv
    exact ⟨c', by simp only [step, hget, Option.map_some'], hinv', hms⟩
  | clear => exact ⟨c.clear, rfl, clear_inv c, rfl⟩

theorem lru_run_inv (ops : List (CacheOp Key Value)) : ∀ c : LRUCache Key Value, LRUInv c →
    ∃ c', c.run ops = some c' ∧ LRUInv c' ∧ c'.maxSize = c.maxSize := by
  induction ops with
  | nil => intro c hinv; exact ⟨c, rfl, hinv, rfl⟩
  | cons op ops ih =>
    intro c hinv
    obtain ⟨c1, hstep, hinv1, hms1⟩ := lru_step_inv c op hinv
    obtain ⟨c2, hrun, hinv2, hms2⟩ := ih c1 hinv1
    exact ⟨c2, by simp only [run, hstep]; exact hrun, hinv2, by rw [hms2, hms1]⟩

theorem lru_get_miss (c : LRUCache Key Value) (k : Key) (hinv : LRUInv c)
    (hk : mapFind c.entries k = none) : c.get k = some (c, none) := by
  have hfe : mapFind c.entries k = (keyNode c.itemsList k).map (fun n => n.value) :=
    mapFind_entries c.itemsList k
  rw [hfe] at hk
  have hn : keyNode c.itemsList k = none := by
    cases h : keyNode c.itemsList k with
    | none => rfl
    | some n => rw [h] at hk; cases hk
  have hfind : mapFind c.nodes k = none := by rw [hinv.2.2.1, hn]; rfl
  simp only [get, hfind]

/-- Moving a stored key to the front keeps the set of stored keys. -/
theorem promoted_keys_perm {es : List (Key × Value)} (hnd : (es.map Prod.fst).Nodup)
    {k : Key} {v0 : Value} (hk : mapFind es k = some v0) (v : Value) :
    (((k, v) :: mapErase es k).map Prod.fst).Perm (es.map Prod.fst) := by
  have hnd2 : (((k, v) :: mapErase es k).map Prod.fst).Nodup := by
    have := mapSet_keys_nodup hnd k v
    unfold mapSet at this
    exact this
  rw [List.perm_ext_iff_of_nodup hnd2 hnd]
  intro x
  simp only [List.map_cons, List.mem_cons, List.mem_map]
  constructor
  · rintro (hx | ⟨p, hp, hpx⟩)
    · exact ⟨(k, v0), mapFind_mem hk, hx.symm⟩
    · exact ⟨p, (mapErase_sublist es k).subset hp, hpx⟩
  · rintro ⟨p, hp, hpx⟩
    by_cases hxk : x = k
    · exact Or.inl hxk
    · right
      refine ⟨p, ?_, hpx⟩
      rw [mapErase_eq_filter]
      exact List.mem_filter.mpr ⟨hp, by simp [hpx, hxk]⟩

theorem nodes_eq_nil_of_empty {c : LRUCache Key Value} (hinv : LRUInv c)
    (he : c.itemsList = []) : c.nodes = [] := by
  cases hn : c.nodes with
  | nil => rfl
  | cons p m =>
    obtain ⟨k, a⟩ := p
    have h1 := hinv.2.2.1 k
    rw [hn, he] at h1
    simp [mapFind, keyNode] at h1

theorem nodes_mem_iff {c : LRUCache Key Value} (hinv : LRUInv c) (k : Key) (a : Nat) :
    (k, a) ∈ c.nodes ↔ ∃ n ∈ c.itemsList, n.key = k ∧ n.addr = a := by
  obtain ⟨_, hk, hmap, _, hnk⟩ := hinv
  constructor
  · intro hm
    have hf := mapFind_of_mem hnk hm
    rw [hmap] at hf
    cases hn : keyNode c.itemsList k with
    | none => rw [hn] at hf; cases hf
    | some n =>
      rw [hn] at hf
      simp only [Option.map_some', Option.some.injEq] at hf
      exact ⟨n, (keyNode_some hn).1, (keyNode_some hn).2, hf⟩
  · rintro ⟨n, hn, hnk', hna⟩
    apply mapFind_mem
    rw [hmap, ← hnk', keyNode_of_mem hk hn, ← hna]
    rfl

theorem nodes_keys_perm {c : LRUCache Key Value} (hinv : LRUInv c) :
    (c.nodes.map Prod.fst).Perm (c.itemsList.map (fun n => n.key)) := by
  rw [List.perm_ext_iff_of_nodup hinv.2.2.2.2 hinv.2.1]
  intro k
  simp only [List.mem_map]
  constructor
  · rintro ⟨p, hp, hpk⟩
    obtain ⟨k', a⟩ := p
    simp only at hpk
    rw [hpk] at hp
    obtain ⟨n, hn, hnk, _⟩ := (nodes_mem_iff hinv k a).mp hp
    exact ⟨n, hn, hnk⟩
  · rintro ⟨n, hn, hnk⟩
    exact ⟨(k, n.addr), (nodes_mem_iff hinv k n.addr).mpr ⟨n, hn, hnk, rfl⟩, rfl⟩

end LRUCache

/-! ## Further claims about the caches -/

section MoreCacheClaims

/-- C11: in every state of `LRUCache` reached by `set` / `get` / `clear` calls, for every
capacity, a `get(k)` of a stored key and a `set(k, v)` of a stored key both move the
entry of `k` to the front of the recency order, leave the other entries in their order
with their values, and leave the set of stored keys and the size unchanged (nothing is
evicted); `set` overwrites the value of `k` with `v` and `get` returns the stored value;
`get(k)` of an absent key returns empty and leaves the whole state unchanged. -/
theorem lru_promotion_and_miss {Key Value : Type} [DecidableEq Key]
    (maxSize : Int) (ops : List (CacheOp Key Value)) :
    ∃ c : LRUCache Key Value, (LRUCache.create maxSize).run ops = some c ∧
      ∀ k : Key,
        (∀ v0, c.read k = some (some v0) →
          (∃ c' : LRUCache Key Value, c.get k = some (c', some v0) ∧
            c'.entries = (k, v0) :: c.entries.filter (fun e => decide (e.1 ≠ k)) ∧
            (c'.entries.map Prod.fst).Perm (c.entries.map Prod.fst) ∧ c'.size = c.size) ∧
          (∀ v, ∃ c' : LRUCache Key Value, c.set k v = some (c', true) ∧
            c'.entries = (k, v) :: c.entries.filter (fun e => decide (e.1 ≠ k)) ∧
            (c'.entries.map Prod.fst).Perm (c.entries.map Prod.fst) ∧ c'.size = c.size)) ∧
        (c.read k = some none → c.get k = some (c, none)) := by
  obtain ⟨c, hrun, hinv, _⟩ :=
    LRUCache.lru_run_inv ops (LRUCache.create maxSize) (LRUCache.create_inv maxSize)
  refine ⟨c, hrun, ?_⟩
  intro k
  have hsize : ∀ d : LRUCache Key Value, d.size = ((d.entries.map Prod.fst).length : Int) := by
    intro d
    simp [LRUCache.size, LRUCache.entries]
  have hnd := LRUCache.entries_keys_nodup hinv
  constructor
  · intro v0 hread
    rw [LRUCache.read_eq _ _ hinv] at hread
    have hk : mapFind c.entries k = some v0 := Option.some.inj hread
    constructor
    · obtain ⟨c', hget, _, _, hent⟩ := LRUCache.get_spec c k hinv
      rw [hk] at hget hent
      simp only at hent
      have hperm := LRUCache.promoted_keys_perm hnd hk v0
      rw [← hent] at hperm
      refine ⟨c', hget, by rw [hent, mapErase_eq_filter], hperm, ?_⟩
      rw [hsize, hsize, hperm.length_eq]
    · intro v
      obtain ⟨c', hset, _, _, hent⟩ := LRUCache.set_spec c k v hinv
      rw [hk] at hent
      simp only [Option.isSome_some, if_true] at hent
      have hperm := LRUCache.promoted_keys_perm hnd hk v
      rw [← hent] at hperm
      refine ⟨c', hset, by rw [hent, mapErase_eq_filter], hperm, ?_⟩
      rw [hsize, hsize, hperm.length_eq]
  · intro hread
    rw [LRUCache.read_eq _ _ hinv] at hread
    exact LRUCache.lru_get_miss c k hinv (Option.some.inj hread)

/-- The calls of C11 on a cache at capacity 2 holding the keys 2 and 1 (most recent
first): `get(1)` and `set(1, "uno")` move key 1 to the front and evict nothing, `get(3)`
returns empty and changes nothing. -/
theorem lru_promotion_test :
    ((LRUCache.create 2 : LRUCache Int String).run [.set 1 "one", .set 2 "two"]).map
      (fun c => c.entries) = some [(2, "two"), (1, "one")] ∧
    ((LRUCache.create 2 : LRUCache Int String).run [.set 1 "one", .set 2 "two", .get 1]).map
      (fun c => c.entries) = some [(1, "one"), (2, "two")] ∧
    ((LRUCache.create 2 : LRUCache Int String).run
      [.set 1 "one", .set 2 "two", .set 1 "uno"]).map
      (fun c => c.entries) = some [(1, "uno"), (2, "two")] ∧
    ((LRUCache.create 2 : LRUCache Int String).run [.set 1 "one", .set 2 "two", .get 3]).map
      (fun c => c.entries) = some [(2, "two"), (1, "one")] := by
  decide

/-- C12: for every `maxSize >= 1`, starting from an empty `LRUCache`, after every sequence
of `set` / `get` / `clear` calls the recency list holds pairwise distinct keys (and
pairwise distinct nodes), the lookup map has one entry per key, an entry `k -> a` exists
exactly when the list node at address `a` carries the key `k` (so the key set of the map
equals the key set of the list), and `size()` = list length = number of map entries
`<= maxSize`. -/
theorem lru_representation_invariant {Key Value : Type} [DecidableEq Key]
    (maxSize : Int) (hmax : 1 ≤ maxSize) (ops : List (CacheOp Key Value)) :
    ∃ c : LRUCache Key Value, (LRUCache.create maxSize).run ops = some c ∧
      (c.itemsList.map (fun n => n.key)).Nodup ∧
      (c.itemsList.map (fun n => n.addr)).Nodup ∧
      (c.nodes.map Prod.fst).Nodup ∧
      (∀ (k : Key) (a : Nat), (k, a) ∈ c.nodes ↔ ∃ n ∈ c.itemsList, n.key = k ∧ n.addr = a) ∧
      (c.nodes.map Prod.fst).Perm (c.itemsList.map (fun n => n.key)) ∧
      c.size = (c.itemsList.length : Int) ∧ c.nodes.length = c.itemsList.length ∧
      c.size ≤ maxSize := by
  obtain ⟨h, _, hinv, hms, hcrun⟩ :=
    LRUCache.runHistory_spec ops (LRUCache.startHistory maxSize)
      (LRUCache.startHistory_inv maxSize hmax)
  have hms' : h.cache.maxSize = maxSize := hms
  obtain ⟨hc, _, _, hlen⟩ := hinv
  have hperm := LRUCache.nodes_keys_perm hc
  refine ⟨h.cache, hcrun, hc.2.1, hc.1, hc.2.2.2.2, LRUCache.nodes_mem_iff hc, hperm, rfl, ?_, ?_⟩
  · have := hperm.length_eq
    simpa using this
  · have : h.cache.size = (h.cache.entries.length : Int) := by
      simp [LRUCache.size, LRUCache.entries]
    rw [this, ← hms']
    exact hlen

theorem lru_representation_invariant_witness :
    ∃ c : LRUCache Int String,
      (LRUCache.create 2).run [.set 1 "one", .set 2 "two", .get 1, .set 3 "three", .clear,
        .set 4 "four"] = some c ∧
      (c.itemsList.map (fun n => n.key)).Nodup ∧
      (c.itemsList.map (fun n => n.addr)).Nodup ∧
      (c.nodes.map Prod.fst).Nodup ∧
      (∀ (k : Int) (a : Nat), (k, a) ∈ c.nodes ↔ ∃ n ∈ c.itemsList, n.key = k ∧ n.addr = a) ∧
      (c.nodes.map Prod.fst).Perm (c.itemsList.map (fun n => n.key)) ∧
      c.size = (c.itemsList.length : Int) ∧ c.nodes.length = c.itemsList.length ∧
      c.size ≤ 2 :=
  lru_representation_invariant 2 (by decide) _

/-- C13: for every `maxSize >= 1`, starting from an empty `LFUCache`, after every sequence
of `set` / `get` / `clear` calls the frequency-ordered set holds exactly the pointers of
the lookup map, each once, the lookup map has one entry per key and each pointer leads to
an item carrying that key; the counter of every stored key equals 1 plus the number of
successful `get` calls and overwriting `set` calls on that key since it was last inserted;
`size()` equals the number of stored keys and is `<= maxSize`; a `get` of a key that is not
stored returns empty and changes nothing. -/
theorem lfu_representation_invariant {Key Value : Type} [LinearOrder Key]
    (maxSize : Int) (hmax : 1 ≤ maxSize) (ops : List (CacheOp Key Value)) :
    ∃ h : LFUHistory Key Value, LFUCache.runHistory (LFUCache.startHistory maxSize) ops = some h ∧
      (LFUCache.create maxSize).run ops = some h.cache ∧
      h.cache.keyPriorities.Nodup ∧ (h.cache.items.map Prod.fst).Nodup ∧
      (h.cache.items.map Prod.snd).Perm h.cache.keyPriorities ∧
      (∀ k p, (k, p) ∈ h.cache.items →
        ∃ it, mapFind h.cache.objects p = some it ∧ it.key = k) ∧
      (∀ k v n, h.cache.entry k = some (v, n) → n = 1 + LFUCache.touchCount h k) ∧
      h.cache.size = (h.cache.items.length : Int) ∧
      (∀ k, h.cache.stored k = true ↔ k ∈ h.cache.items.map Prod.fst) ∧
      h.cache.size ≤ maxSize ∧
      (∀ k, h.cache.stored k = false → h.cache.get k = some (h.cache, none)) := by
  have hagree0 : LFUCache.CountsAgree (LFUCache.startHistory maxSize : LFUHistory Key Value) := by
    intro k it hit
    cases hit
  obtain ⟨h, hrunH, hinv, hagree, hrun⟩ :=
    LFUCache.lfu_runHistory_spec ops (LFUCache.startHistory maxSize)
      (LFUCache.lfu_create_inv maxSize) hagree0
  have hrun' : (LFUCache.create maxSize : LFUCache Key Value).run ops = some h.cache := hrun
  obtain ⟨c1, hrun1, hb1, hms1⟩ :=
    LFUCache.lfu_run_spec ops (LFUCache.create maxSize : LFUCache Key Value)
      (LFUCache.lfu_create_bounded maxSize hmax)
  rw [hrun'] at hrun1
  cases hrun1
  have hperm := LFUCache.lfu_items_perm hinv
  have hlen : h.cache.items.length = h.cache.keyPriorities.length := by
    simpa using hperm.length_eq
  refine ⟨h, hrunH, hrun', LFUCache.ptrSorted_nodup hinv.2.2.2.2.1, hinv.1, hperm, ?_, ?_, ?_,
    LFUCache.lfu_stored_iff_mem h.cache hinv, ?_, ?_⟩
  · intro k p hkp
    exact (hinv.2.2.1 k p (mapFind_of_mem hinv.1 hkp)).2
  · intro k v n hent
    unfold LFUCache.entry at hent
    cases hit : h.cache.itemOf k with
    | none => rw [hit] at hent; cases hent
    | some it =>
      rw [hit] at hent
      simp only [Option.map_some', Option.some.injEq, Prod.mk.injEq] at hent
      rw [← hent.2]
      exact hagree k it hit
  · show (h.cache.keyPriorities.length : Int) = (h.cache.items.length : Int)
    rw [hlen]
  · have h3 := hb1.2.2
    have hms : h.cache.maxSize = maxSize := hms1
    rw [hms] at h3
    exact h3
  · intro k hst
    rw [LFUCache.lfu_stored_eq h.cache hinv k] at hst
    cases hk : mapFind h.cache.items k with
    | none => exact LFUCache.lfu_get_miss h.cache k hk
    | some p => rw [hk] at hst; cases hst

theorem lfu_representation_invariant_witness :
    ∃ h : LFUHistory Int String,
      LFUCache.runHistory (LFUCache.startHistory 2) [.set 1 "one", .set 2 "two", .get 1, .set 1 "uno",
        .set 3 "three", .get 2, .clear, .set 4 "four"] = some h ∧
      (LFUCache.create 2).run [.set 1 "one", .set 2 "two", .get 1, .set 1 "uno",
        .set 3 "three", .get 2, .clear, .set 4 "four"] = some h.cache ∧
      h.cache.keyPriorities.Nodup ∧ (h.cache.items.map Prod.fst).Nodup ∧
      (h.cache.items.map Prod.snd).Perm h.cache.keyPriorities ∧
      (∀ k p, (k, p) ∈ h.cache.items →
        ∃ it, mapFind h.cache.objects p = some it ∧ it.key = k) ∧
      (∀ k v n, h.cache.entry k = some (v, n) → n = 1 + LFUCache.touchCount h k) ∧
      h.cache.size = (h.cache.items.length : Int) ∧
      (∀ k, h.cache.stored k = true ↔ k ∈ h.cache.items.map Prod.fst) ∧
      h.cache.size ≤ 2 ∧
      (∀ k, h.cache.stored k = false → h.cache.get k = some (h.cache, none)) :=
  lfu_representation_invariant 2 (by decide) _

/-- The counters of C13 on a concrete run: key 1 is inserted, read once and overwritten
once (counter 3), key 2 is inserted and evicted by the insertion of key 3, a `get` of the
absent key 2 counts for nothing. -/
theorem lfu_counter_test :
    ∃ h : LFUHistory Int String,
      LFUCache.runHistory (LFUCache.startHistory 2) [.set 1 "one", .set 2 "two", .get 1, .set 1 "uno",
        .set 3 "three", .get 2] = some h ∧
      h.cache.entry 1 = some ("uno", 3) ∧ LFUCache.touchCount h 1 = 2 ∧
      h.cache.entry 2 = none ∧
      h.cache.entry 3 = some ("three", 1) ∧ LFUCache.touchCount h 3 = 0 ∧
      h.cache.size = 2 := by
  refine ⟨_, rfl, ?_, ?_, ?_, ?_, ?_, ?_⟩ <;> decide

/-- C14: in every state reachable from an empty `LFUCache` of any capacity by `set` /
`get` / `clear` calls, for every key and value, `set` returns `true` (so the branch that
returns `false` after a refused insert into the frequency-ordered set is not taken) and
the key is stored afterwards with that value. -/
theorem lfu_set_always_succeeds {Key Value : Type} [LinearOrder Key]
    (maxSize : Int) (ops : List (CacheOp Key Value)) :
    ∃ c : LFUCache Key Value, (LFUCache.create maxSize).run ops = some c ∧
      ∀ (k : Key) (v : Value), ∃ c' : LFUCache Key Value,
        c.set k v = some (c', true) ∧ c'.stored k = true ∧ c'.read k = some (some v) := by
  obtain ⟨c, hrun, hinv, _⟩ :=
    LFUCache.lfu_run_inv ops (LFUCache.create maxSize) (LFUCache.lfu_create_inv maxSize)
  refine ⟨c, hrun, ?_⟩
  intro k v
  obtain ⟨c', n, hset, hinv', _, hitem, _, _⟩ := LFUCache.lfu_set_inv c k v hinv
  have hread : c'.read k = some (some v) := by
    rw [LFUCache.lfu_read_eq c' hinv' k]
    simp only [LFUCache.entry, hitem, Option.map_some']
  refine ⟨c', hset, ?_, hread⟩
  simp only [LFUCache.stored, hread]

/-- The call `set` of C14 on a cache of capacity 0: the eviction finds nothing to evict and
the pair is stored all the same. -/
theorem lfu_set_capacity_zero_test :
    ((LFUCache.create 0 : LFUCache Int String).set 7 "seven").map
        (fun r => (r.2, r.1.read 7, r.1.size)) = some (true, some (some "seven"), 1) := by
  decide

/-- C16, counterexample: constructing an `LRUCache` or an `LFUCache` with `maxSize = 0` or
`maxSize = -1` does not fail: the constructor returns a cache object. -/
theorem cache_construct_accepts_nonpositive :
    (LRUCache.construct 0 : Except CacheFailure (LRUCache Int String)) =
        .ok (LRUCache.create 0) ∧
      (LRUCache.construct (-1) : Except CacheFailure (LRUCache Int String)) ≠
        .error .invalidConfiguration ∧
      (LFUCache.construct 0 : Except CacheFailure (LFUCache Int String)) =
        .ok (LFUCache.create 0) ∧
      (LFUCache.construct (-1) : Except CacheFailure (LFUCache Int String)) ≠
        .error .invalidConfiguration := by
  refine ⟨rfl, ?_, rfl, ?_⟩
  · intro h; cases h
  · intro h; cases h

/-- C16, amended: construction of a cache performs no validation of the capacity: for
every integer `maxSize`, also `maxSize <= 0`, constructing an `LRUCache` or an `LFUCache`
succeeds (no `InvalidConfiguration`) and yields an empty cache (size 0, `isEmpty`, every
`get` returns empty) that records this `maxSize`. -/
theorem cache_construct_no_validation {Key Value : Type} [LinearOrder Key] (maxSize : Int) :
    (∃ c : LRUCache Key Value, LRUCache.construct maxSize = .ok c ∧ c.maxSize = maxSize ∧
      c.size = 0 ∧ c.isEmpty = true ∧ ∀ k, c.get k = some (c, none)) ∧
    (∃ c : LFUCache Key Value, LFUCache.construct maxSize = .ok c ∧ c.maxSize = maxSize ∧
      c.size = 0 ∧ c.isEmpty = true ∧ ∀ k, c.get k = some (c, none)) :=
  ⟨⟨LRUCache.create maxSize, rfl, rfl, rfl, rfl, fun _ => rfl⟩,
    ⟨LFUCache.create maxSize, rfl, rfl, rfl, rfl, fun _ => rfl⟩⟩

/-- A cache constructed with capacity 0 accepts a `set` and then holds one entry, more
than its `maxSize`. -/
theorem cache_capacity_zero_test :
    ((LRUCache.create 0 : LRUCache Int String).set 7 "seven").map
        (fun r => (r.2, r.1.read 7, r.1.size)) = some (true, some (some "seven"), 1) ∧
    ((LRUCache.create 0 : LRUCache Int String).run [.set 7 "seven", .set 8 "eight"]).map
        (fun c => (c.read 7, c.read 8, c.size)) = some (some none, some (some "eight"), 1) := by
  decide

end MoreCacheClaims

/-! ## Claims about construction, `clear` and the precondition of `updatePriority` -/

section ConstructionClaims

variable {T : Type} [LinearOrder T]

/-- C15: for every integer `B`, the one-argument constructor fails with an invalid-argument
error iff `B < 2` or `B > 10` and otherwise yields an empty heap (size 0, `isEmpty` true,
`peek` and `top` empty); the constructor from a list fails with an invalid-argument error
iff `B < 2` or `B > 10`, succeeds for `B` in `[2,10]` on every non-empty list and on the
empty list with `B = 2`, but on the empty list with `B` in `[3,10]` it does not succeed:
`heapify` starts at slot `(0 - 1 - 1) / B = 0` and `pushDown(0)` reads slot 0 of the empty
array, which is undefined behaviour. -/
theorem heap_construction_validation (B : Int) :
    ((DaryHeap.create B : Except HeapFailure (DaryHeap T)) = .error .invalidArgument ↔
      (B < 2 ∨ B > 10)) ∧
    (¬ (B < 2 ∨ B > 10) → ∃ h : DaryHeap T, DaryHeap.create B = .ok h ∧
      h.branchingFactor = B ∧ h.size = 0 ∧ h.isEmpty = true ∧ h.peek = none ∧
      h.top = some (h, none)) ∧
    (∀ xs : List T, DaryHeap.fromVector xs B = .error .invalidArgument ↔ (B < 2 ∨ B > 10)) ∧
    (∀ xs : List T, xs ≠ [] → ¬ (B < 2 ∨ B > 10) →
      ∃ h : DaryHeap T, DaryHeap.fromVector xs B = .ok h ∧ h.branchingFactor = B) ∧
    (B = 2 → ∃ h : DaryHeap T, DaryHeap.fromVector ([] : List T) B = .ok h ∧ h.size = 0) ∧
    (3 ≤ B → B ≤ 10 →
      DaryHeap.fromVector ([] : List T) B = .error .undefinedBehaviour ∧
      ¬ ∃ h : DaryHeap T, DaryHeap.fromVector ([] : List T) B = .ok h) := by
  have hbad : (B < 2 ∨ B > 10) →
      (B < DaryHeap.MIN_BRANCHING_FACTOR ∨ B > DaryHeap.MAX_BRANCHING_FACTOR) := by
    unfold DaryHeap.MIN_BRANCHING_FACTOR DaryHeap.MAX_BRANCHING_FACTOR
    exact id
  refine ⟨?_, ?_, ?_, ?_, ?_, ?_⟩
  · constructor
    · intro herr
      by_contra hcon
      have hr : 2 ≤ B ∧ B ≤ 10 := by omega
      rw [(DaryHeap.create_spec (T := T) B hr.1 hr.2).1] at herr
      cases herr
    · intro hb
      unfold DaryHeap.create
      rw [if_pos (hbad hb)]
  · intro hok
    have hr : 2 ≤ B ∧ B ≤ 10 := by omega
    exact ⟨_, (DaryHeap.create_spec (T := T) B hr.1 hr.2).1, rfl, rfl, rfl, rfl, rfl⟩
  · intro xs
    constructor
    · intro herr
      by_contra hcon
      have hr : 2 ≤ B ∧ B ≤ 10 := by omega
      by_cases hne : xs = []
      · rw [hne] at herr
        by_cases h3 : 3 ≤ B
        · rw [DaryHeap.fromVector_nil_undefined B h3 hr.2] at herr
          cases herr
        · have h2 : B = 2 := by omega
          rw [h2, DaryHeap.fromVector_nil_two] at herr
          cases herr
      · obtain ⟨h, hh, _⟩ := DaryHeap.fromVector_inv xs B hr.1 hr.2 hne
        rw [hh] at herr
        cases herr
    · intro hb
      unfold DaryHeap.fromVector
      rw [if_pos (hbad hb)]
  · intro xs hne hok
    have hr : 2 ≤ B ∧ B ≤ 10 := by omega
    obtain ⟨h, hh, _, hfac, _⟩ := DaryHeap.fromVector_inv xs B hr.1 hr.2 hne
    exact ⟨h, hh, hfac⟩
  · intro h2
    rw [h2]
    exact ⟨_, DaryHeap.fromVector_nil_two, rfl⟩
  · intro h3 h10
    have hub := DaryHeap.fromVector_nil_undefined (T := T) B h3 h10
    refine ⟨hub, ?_⟩
    rintro ⟨h, hh⟩
    rw [hub] at hh
    cases hh

/-- The constructor calls of C15 on concrete inputs: the empty list with `B = 3` runs into
the read of slot 0 of an empty array, the empty list with `B = 2` and a one-element list
with `B = 3` succeed, `B = 1` and `B = 11` are rejected. -/
theorem heap_construction_test :
    DaryHeap.fromVector ([] : List Int) 3 = .error .undefinedBehaviour ∧
    DaryHeap.fromVector ([] : List Int) 2 =
      .ok { branchingFactor := 2, elements := [], positions := [] } ∧
    DaryHeap.fromVector ([4] : List Int) 3 =
      .ok { branchingFactor := 3, elements := [4], positions := [(4, 0)] } ∧
    (DaryHeap.create 1 : Except HeapFailure (DaryHeap Int)) = .error .invalidArgument ∧
    (DaryHeap.create 11 : Except HeapFailure (DaryHeap Int)) = .error .invalidArgument ∧
    (DaryHeap.getParentIndex
      ({ branchingFactor := 3, elements := [], positions := [] } : DaryHeap Int) (0 - 1) = 0) := by
  refine ⟨rfl, rfl, rfl, rfl, rfl, rfl⟩

/-- C20: for every branching factor `B` in `[2,10]` and every non-empty initial list the
constructor succeeds and stores a permutation of the list, duplicates included; every
index entry `e -> i` points at a slot that holds `e` and no element has two entries. When
the list has no duplicates the index is a bijection between the stored elements and the
slots. When some element occurs more than once the heap stores it more than once, the
index has fewer entries than there are slots and is not a bijection. -/
theorem fromVector_set_semantics (B : Int) (hlo : 2 ≤ B) (hhi : B ≤ 10) (xs : List T)
    (hne : xs ≠ []) :
    ∃ h : DaryHeap T, DaryHeap.fromVector xs B = .ok h ∧ h.elements.Perm xs ∧
      IndexSound h ∧ IndexKeysUnique h ∧
      (xs.Nodup → h.elements.Nodup ∧ IndexComplete h ∧
        ∀ e i, (e, i) ∈ h.positions ↔ getAt h.elements i = some e) ∧
      (¬ xs.Nodup → ¬ h.elements.Nodup ∧ ¬ IndexComplete h ∧
        h.positions.length < h.elements.length) := by
  obtain ⟨h, hh, hinv, _, hperm, hcomp⟩ := DaryHeap.fromVector_inv xs B hlo hhi hne
  refine ⟨h, hh, hperm, hinv.2.2.1, hinv.2.2.2, ?_, ?_⟩
  · intro hnd
    exact ⟨hperm.nodup_iff.mpr hnd, hcomp hnd, DaryHeap.index_entry_iff ⟨hinv, hcomp hnd⟩⟩
  · intro hnd
    have hnd' : ¬ h.elements.Nodup := fun hn => hnd (hperm.nodup_iff.mp hn)
    refine ⟨hnd', fun hc => hnd' (DaryHeap.nodup_of_complete hc), ?_⟩
    rw [DaryHeap.fromVector_index_size xs B hlo hhi hne h hh, hperm.length_eq]
    have hsub := List.dedup_sublist xs
    rcases Nat.lt_or_ge xs.dedup.length xs.length with hlt | hge
    · exact hlt
    · exact absurd (List.dedup_eq_self.mp (hsub.eq_of_length_le hge)) hnd

theorem fromVector_set_semantics_witness :
    (2 : Int) ≤ 2 ∧ (2 : Int) ≤ 10 ∧ ([3, 3] : List Int) ≠ [] ∧
    ∃ h : DaryHeap Int, DaryHeap.fromVector [3, 3] 2 = .ok h ∧ h.elements.Perm [3, 3] ∧
      IndexSound h ∧ IndexKeysUnique h ∧
      (([3, 3] : List Int).Nodup → h.elements.Nodup ∧ IndexComplete h ∧
        ∀ e i, (e, i) ∈ h.positions ↔ getAt h.elements i = some e) ∧
      (¬ ([3, 3] : List Int).Nodup → ¬ h.elements.Nodup ∧ ¬ IndexComplete h ∧
        h.positions.length < h.elements.length) :=
  ⟨by decide, by decide, by decide,
    fromVector_set_semantics 2 (by decide) (by decide) [3, 3] (by decide)⟩

/-- The constructor call of C20 on the list `{3, 3}` with `B = 2`: 3 is stored in both
slots, the index holds the single entry `3 -> 1`, slot 0 has no entry; a following
`remove(3)` returns true and leaves a heap that still stores 3 but reports
`contains(3) = false`. -/
theorem fromVector_duplicates_test :
    DaryHeap.fromVector ([3, 3] : List Int) 2 =
      .ok { branchingFactor := 2, elements := [3, 3], positions := [(3, 1)] } ∧
    ¬ ([3, 3] : List Int).Nodup ∧
    (({ branchingFactor := 2, elements := [3, 3], positions := [(3, 1)] } : DaryHeap Int).remove 3).map
      (fun r => (r.2, r.1.elements, r.1.positions, r.1.contains 3)) =
      some (true, [3], [], false) := by
  refine ⟨rfl, by decide, rfl⟩

end ConstructionClaims

section PreconditionClaims

variable {T : Type} [LinearOrder T]

/-- C19: for every heap whose invariants hold (heap order and an index that is a bijection
between the stored elements and the slots) and every two different stored elements `oldE`
and `newE`, `updatePriority(oldE, newE)` returns true and leaves an inconsistent index:
the size is unchanged, `oldE` is no longer stored, `newE` occupies two slots while the
index holds a single entry for it, the index has `size - 1` entries and is no longer a
bijection between the stored elements and the slots. -/
theorem updatePriority_breaks_index (h : DaryHeap T) (hidx : HeapIndexed h) (oldE newE : T)
    (hne : oldE ≠ newE) (hold : oldE ∈ h.elements) (hnew : newE ∈ h.elements) :
    ∃ h' : DaryHeap T, h.updatePriority oldE newE = some (h', true) ∧ h'.size = h.size ∧
      h'.elements.count newE = 2 ∧ oldE ∉ h'.elements ∧
      (h'.positions.map Prod.fst).count newE = 1 ∧
      (h'.positions.length : Int) = h'.size - 1 ∧
      ¬ IndexComplete h' ∧ ¬ HeapIndexed h' := by
  obtain ⟨h', hup, hinv', hperm, hmemL, hndL, holdL, hlen, hcov⟩ :=
    DaryHeap.updatePriority_violation h hidx oldE newE hne hold hnew
  have hcount : h'.elements.count newE = 2 := by
    rw [hperm.count_eq, List.count_cons_self, List.count_eq_one_of_mem hndL hmemL]
  have hlenL : (h.elements.erase oldE).length + 1 = h.elements.length := by
    rw [List.length_erase_of_mem hold]
    have := List.length_pos_of_mem hold
    omega
  have hlen' : h'.elements.length = (h.elements.erase oldE).length + 1 := by
    rw [hperm.length_eq]
    rfl
  have hnc : ¬ IndexComplete h' := by
    intro hc
    have hnd := DaryHeap.nodup_of_complete hc
    have := List.nodup_iff_count_le_one.mp hnd newE
    omega
  refine ⟨h', hup, ?_, hcount, ?_, ?_, ?_, hnc, fun hi => hnc hi.2⟩
  · show (h'.elements.length : Int) = (h.elements.length : Int)
    omega
  · intro hm
    rcases List.mem_cons.mp (hperm.mem_iff.mp hm) with h1 | h1
    · exact hne h1
    · exact holdL h1
  · have hmem' : newE ∈ h'.elements := hperm.mem_iff.mpr (List.mem_cons_self _ _)
    obtain ⟨i, hi⟩ := Option.isSome_iff_exists.mp (hcov newE hmem')
    have hk : newE ∈ h'.positions.map Prod.fst :=
      List.mem_map.mpr ⟨(newE, i), (posFind_eq_some_iff_mem hinv'.2.2.2 newE i).mp hi, rfl⟩
    exact List.count_eq_one_of_mem hinv'.2.2.2 hk
  · show (h'.positions.length : Int) = (h'.elements.length : Int) - 1
    omega

theorem updatePriority_breaks_index_witness :
    HeapIndexed heapOfTestUpdate ∧ (30 : Int) ≠ 20 ∧ (30 : Int) ∈ heapOfTestUpdate.elements ∧
    (20 : Int) ∈ heapOfTestUpdate.elements ∧
    ∃ h' : DaryHeap Int, heapOfTestUpdate.updatePriority 30 20 = some (h', true) ∧
      h'.size = heapOfTestUpdate.size ∧
      h'.elements.count 20 = 2 ∧ (30 : Int) ∉ h'.elements ∧
      (h'.positions.map Prod.fst).count 20 = 1 ∧
      (h'.positions.length : Int) = h'.size - 1 ∧
      ¬ IndexComplete h' ∧ ¬ HeapIndexed h' :=
  ⟨heapOfTestUpdate_indexed, by decide, by decide, by decide,
    updatePriority_breaks_index heapOfTestUpdate heapOfTestUpdate_indexed 30 20 (by decide)
      (by decide) (by decide)⟩

/-- The call of C19 on the heap `{10,20,30}` of `test_updatePriority` with `B = 2`:
`updatePriority(30, 20)` returns true and leaves the slots `[10, 20, 20]` with the index
`{20 -> 2, 10 -> 0}`. -/
theorem updatePriority_violation_test :
    heapOfTestUpdate.updatePriority 30 20 =
      some ({ branchingFactor := 2, elements := [10, 20, 20],
              positions := [(20, 2), (10, 0)] }, true) := by
  rfl

end PreconditionClaims

section ClearClaims

variable {T Key Value : Type} [LinearOrder T] [LinearOrder Key]

/-- C17: for each of `DaryHeap` (built by either constructor), `LRUCache` and `LFUCache`
(of any capacity) and every state reached by a sequence of calls, after `clear()`
`isEmpty()` is true, `size()` is 0 and every lookup misses (`get` / `peek` / `top` return
empty and leave the cleared state as it is, `contains` is false); the cleared heap is the
heap that the one-argument constructor builds; `clear()` on a state that is already empty
leaves the state unchanged, and a second `clear()` changes nothing. -/
theorem clear_resets (B : Int) (xs : List T) (h0 : DaryHeap T)
    (hstart : DaryHeap.create B = .ok h0 ∨ DaryHeap.fromVector xs B = .ok h0)
    (hops : List (HeapOp T)) (maxSize : Int) (cops : List (CacheOp Key Value)) :
    (∃ h : DaryHeap T, h0.run hops = some h ∧
      h.clear.isEmpty = true ∧ h.clear.size = 0 ∧ h.clear.peek = none ∧
      h.clear.top = some (h.clear, none) ∧ (∀ e, h.clear.contains e = false) ∧
      DaryHeap.create B = .ok h.clear ∧
      (h.isEmpty = true → h.clear = h) ∧ h.clear.clear = h.clear) ∧
    (∃ c : LRUCache Key Value, (LRUCache.create maxSize).run cops = some c ∧
      c.clear.isEmpty = true ∧ c.clear.size = 0 ∧
      (∀ k, c.clear.get k = some (c.clear, none)) ∧
      (c.isEmpty = true → c.clear = c) ∧ c.clear.clear = c.clear) ∧
    (∃ c : LFUCache Key Value, (LFUCache.create maxSize).run cops = some c ∧
      c.clear.isEmpty = true ∧ c.clear.size = 0 ∧
      (∀ k, c.clear.get k = some (c.clear, none)) ∧
      (c.isEmpty = true → c.clear = c) ∧ c.clear.clear = c.clear) := by
  refine ⟨?_, ?_, ?_⟩
  · obtain ⟨hinv0, hfac0, hlo, hhi⟩ := DaryHeap.heapInv_of_constructed B xs h0 hstart
    obtain ⟨h, hrun, hinv, hfac, _⟩ := DaryHeap.run_inv hops h0 hinv0
    refine ⟨h, hrun, rfl, rfl, rfl, rfl, fun _ => rfl, ?_, ?_, rfl⟩
    · rw [(DaryHeap.create_spec (T := T) B hlo hhi).1]
      show _ = Except.ok
        ({ branchingFactor := h.branchingFactor, elements := [], positions := [] } : DaryHeap T)
      rw [hfac, hfac0]
    · intro hemp
      have hel : h.elements = [] := by
        simp only [DaryHeap.isEmpty, DaryHeap.size, beq_iff_eq] at hemp
        exact List.length_eq_zero.mp (by exact_mod_cast hemp)
      have hpos := DaryHeap.positions_eq_nil_of_empty hinv.2.2.1 hel
      cases h with
      | mk bf els pos =>
        simp only at hel hpos
        rw [hel, hpos]
        rfl
  · obtain ⟨c, hrun, hinv, _⟩ :=
      LRUCache.lru_run_inv cops (LRUCache.create maxSize : LRUCache Key Value)
        (LRUCache.create_inv maxSize)
    refine ⟨c, hrun, rfl, rfl, fun _ => rfl, ?_, rfl⟩
    intro hemp
    have hel : c.itemsList = [] := by
      simp only [LRUCache.isEmpty, LRUCache.size, beq_iff_eq] at hemp
      exact List.length_eq_zero.mp (by exact_mod_cast hemp)
    have hn := LRUCache.nodes_eq_nil_of_empty hinv hel
    cases c with
    | mk ms il nd na =>
      simp only at hel hn
      rw [hel, hn]
      rfl
  · obtain ⟨c, hrun, hinv, _⟩ :=
      LFUCache.lfu_run_inv cops (LFUCache.create maxSize : LFUCache Key Value)
        (LFUCache.lfu_create_inv maxSize)
    refine ⟨c, hrun, rfl, rfl, fun _ => rfl, ?_, rfl⟩
    intro hemp
    have hel : c.keyPriorities = [] := by
      simp only [LFUCache.isEmpty, LFUCache.size, beq_iff_eq] at hemp
      exact List.length_eq_zero.mp (by exact_mod_cast hemp)
    have hn := LFUCache.lfu_items_eq_nil_of_empty hinv hel
    cases c with
    | mk ms ob it kp na =>
      simp only at hel hn
      rw [hel, hn]
      rfl

theorem clear_resets_witness :
    ((DaryHeap.create 3 : Except HeapFailure (DaryHeap Int)) =
        .ok { branchingFactor := 3, elements := [], positions := [] } ∨
      DaryHeap.fromVector ([] : List Int) 3 =
        .ok { branchingFactor := 3, elements := [], positions := [] }) ∧
    (∃ h : DaryHeap Int,
      ({ branchingFactor := 3, elements := [], positions := [] } : DaryHeap Int).run
        [.add 5, .add 3, .top, .add 7] = some h ∧
      h.clear.isEmpty = true ∧ h.clear.size = 0 ∧ h.clear.peek = none ∧
      h.clear.top = some (h.clear, none) ∧ (∀ e, h.clear.contains e = false) ∧
      DaryHeap.create 3 = .ok h.clear ∧
      (h.isEmpty = true → h.clear = h) ∧ h.clear.clear = h.clear) ∧
    (∃ c : LRUCache Int String,
      (LRUCache.create 2).run [.set 1 "one", .get 1, .set 2 "two"] = some c ∧
      c.clear.isEmpty = true ∧ c.clear.size = 0 ∧
      (∀ k, c.clear.get k = some (c.clear, none)) ∧
      (c.isEmpty = true → c.clear = c) ∧ c.clear.clear = c.clear) ∧
    (∃ c : LFUCache Int String,
      (LFUCache.create 2).run [.set 1 "one", .get 1, .set 2 "two"] = some c ∧
      c.clear.isEmpty = true ∧ c.clear.size = 0 ∧
      (∀ k, c.clear.get k = some (c.clear, none)) ∧
      (c.isEmpty = true → c.clear = c) ∧ c.clear.clear = c.clear) :=
  ⟨Or.inl rfl,
    clear_resets 3 [] { branchingFactor := 3, elements := [], positions := [] } (Or.inl rfl)
      [.add 5, .add 3, .top, .add 7] 2 [.set 1 "one", .get 1, .set 2 "two"]⟩

/-- The calls of C17 on concrete states: `clear` empties a heap and the two caches that
hold entries, and a lookup after it misses. -/
theorem clear_test :
    (heapOfTestAdd.clear.size, heapOfTestAdd.clear.isEmpty, heapOfTestAdd.clear.peek,
      heapOfTestAdd.clear.contains 1) = (0, true, none, false) ∧
    ((LRUCache.create 2 : LRUCache Int String).run [.set 1 "one", .set 2 "two", .clear]).map
      (fun c => (c.size, c.isEmpty, c.read 1, c.read 2)) =
      some (0, true, some none, some none) ∧
    ((LFUCache.create 2 : LFUCache Int String).run [.set 1 "one", .set 2 "two", .clear]).map
      (fun c => (c.size, c.isEmpty, c.read 1, c.read 2)) =
      some (0, true, some none, some none) := by
  refine ⟨rfl, by decide, by decide⟩

end ClearClaims

/-! ## Claim about the slots that construction from a vector accesses -/

section SafetyClaims

variable {T : Type} [LinearOrder T]

/-- C21: for every branching factor `B` in `[2,10]` and every initial list, the start slot
of `heapify` is `getParentIndex(length - 1)` with truncating division. For a non-empty list
it lies in `[0, length)` and construction accesses existing slots only (it returns a heap).
For the empty list with `B = 2` it is `-1`, the loop body never runs and construction
returns the empty heap. For the empty list with `B` in `[3,10]` it is `(0 - 1 - 1) / B = 0`,
so `pushDown(0)` reads slot 0 of an array without slots. Construction accesses a slot that
does not exist exactly in this last case. -/
theorem construction_index_safety (B : Int) (hlo : 2 ≤ B) (hhi : B ≤ 10) (xs : List T) :
    (xs ≠ [] →
      0 ≤ DaryHeap.getParentIndex
        ({ branchingFactor := B, elements := xs, positions := DaryHeap.indexLoop xs 0 [] } :
          DaryHeap T) ((xs.length : Int) - 1) ∧
      DaryHeap.getParentIndex
        ({ branchingFactor := B, elements := xs, positions := DaryHeap.indexLoop xs 0 [] } :
          DaryHeap T) ((xs.length : Int) - 1) < (xs.length : Int) ∧
      ∃ h : DaryHeap T, DaryHeap.fromVector xs B = .ok h ∧ h.size = (xs.length : Int)) ∧
    (xs = [] → B = 2 →
      DaryHeap.getParentIndex
        ({ branchingFactor := B, elements := xs, positions := DaryHeap.indexLoop xs 0 [] } :
          DaryHeap T) ((xs.length : Int) - 1) = -1 ∧
      DaryHeap.fromVector xs B =
        .ok { branchingFactor := 2, elements := [], positions := [] }) ∧
    (xs = [] → 3 ≤ B →
      DaryHeap.getParentIndex
        ({ branchingFactor := B, elements := xs, positions := DaryHeap.indexLoop xs 0 [] } :
          DaryHeap T) ((xs.length : Int) - 1) = 0 ∧
      getAt xs 0 = none ∧
      DaryHeap.pushDown
        ({ branchingFactor := B, elements := xs, positions := DaryHeap.indexLoop xs 0 [] } :
          DaryHeap T) 0 = none) ∧
    (DaryHeap.fromVector xs B = .error .undefinedBehaviour ↔ (xs = [] ∧ 3 ≤ B)) := by
  refine ⟨?_, ?_, ?_, ?_⟩
  · intro hne
    have hn : 1 ≤ (xs.length : Int) := by
      have := List.length_pos.mpr hne
      omega
    obtain ⟨s0, s1, _⟩ := DaryHeap.heapify_start_spec hlo hn
    obtain ⟨h, hh, _, _, hperm, _⟩ := DaryHeap.fromVector_inv xs B hlo hhi hne
    refine ⟨s0, s1, h, hh, ?_⟩
    show (h.elements.length : Int) = (xs.length : Int)
    rw [hperm.length_eq]
  · intro hx h2
    subst hx
    subst h2
    exact ⟨rfl, rfl⟩
  · intro hx h3
    subst hx
    interval_cases B <;> exact ⟨rfl, rfl, rfl⟩
  · constructor
    · intro herr
      by_cases hne : xs = []
      · refine ⟨hne, ?_⟩
        by_contra h3
        have h2 : B = 2 := by omega
        rw [hne, h2, DaryHeap.fromVector_nil_two] at herr
        cases herr
      · obtain ⟨h, hh, _⟩ := DaryHeap.fromVector_inv xs B hlo hhi hne
        rw [hh] at herr
        cases herr
    · rintro ⟨hx, h3⟩
      rw [hx]
      exact DaryHeap.fromVector_nil_undefined B h3 hhi

theorem construction_index_safety_witness :
    (2 : Int) ≤ 3 ∧ (3 : Int) ≤ 10 ∧
    ((([] : List Int) ≠ [] →
      0 ≤ DaryHeap.getParentIndex
        ({ branchingFactor := 3, elements := [], positions := DaryHeap.indexLoop [] 0 [] } :
          DaryHeap Int) (((([] : List Int)).length : Int) - 1) ∧
      DaryHeap.getParentIndex
        ({ branchingFactor := 3, elements := [], positions := DaryHeap.indexLoop [] 0 [] } :
          DaryHeap Int) (((([] : List Int)).length : Int) - 1) < ((([] : List Int)).length : Int) ∧
      ∃ h : DaryHeap Int, DaryHeap.fromVector [] 3 = .ok h ∧
        h.size = ((([] : List Int)).length : Int)) ∧
    (([] : List Int) = [] → (3 : Int) = 2 →
      DaryHeap.getParentIndex
        ({ branchingFactor := 3, elements := [], positions := DaryHeap.indexLoop [] 0 [] } :
          DaryHeap Int) (((([] : List Int)).length : Int) - 1) = -1 ∧
      DaryHeap.fromVector ([] : List Int) 3 =
        .ok { branchingFactor := 2, elements := [], positions := [] }) ∧
    (([] : List Int) = [] → (3 : Int) ≤ 3 →
      DaryHeap.getParentIndex
        ({ branchingFactor := 3, elements := [], positions := DaryHeap.indexLoop [] 0 [] } :
          DaryHeap Int) (((([] : List Int)).length : Int) - 1) = 0 ∧
      getAt ([] : List Int) 0 = none ∧
      DaryHeap.pushDown
        ({ branchingFactor := 3, elements := [], positions := DaryHeap.indexLoop [] 0 [] } :
          DaryHeap Int) 0 = none) ∧
    (DaryHeap.fromVector ([] : List Int) 3 = .error .undefinedBehaviour ↔
      (([] : List Int) = [] ∧ (3 : Int) ≤ 3))) :=
  ⟨by decide, by decide, construction_index_safety 3 (by decide) (by decide) []⟩

/-- The construction of C21 on concrete inputs: with the empty list and `B = 3` the start
slot is 0, the read of slot 0 fails and construction does not return a heap; with the
empty list and `B = 2` the start slot is `-1`; with five elements and `B = 3` the start
slot is 1, inside the array. -/
theorem construction_index_safety_test :
    DaryHeap.getParentIndex
      ({ branchingFactor := 3, elements := [], positions := [] } : DaryHeap Int) (0 - 1) = 0 ∧
    getAt ([] : List Int) 0 = none ∧
    DaryHeap.heapify
      ({ branchingFactor := 3, elements := [], positions := [] } : DaryHeap Int) = none ∧
    DaryHeap.fromVector ([] : List Int) 3 = .error .undefinedBehaviour ∧
    DaryHeap.fromVector ([] : List Int) 10 = .error .undefinedBehaviour ∧
    DaryHeap.getParentIndex
      ({ branchingFactor := 2, elements := [], positions := [] } : DaryHeap Int) (0 - 1) = -1 ∧
    (DaryHeap.heapify
      ({ branchingFactor := 2, elements := [], positions := [] } : DaryHeap Int)).isSome = true ∧
    DaryHeap.getParentIndex
      ({ branchingFactor := 3, elements := [7, 3, 9, 1, 5], positions := [] } : DaryHeap Int)
      (5 - 1) = 1 := by
  refine ⟨rfl, rfl, rfl, rfl, rfl, rfl, rfl, rfl⟩

end SafetyClaims
